import Mathlib

/-!
Verification of the smoothing/refinement core of the manifold mesh engine
(`src/manifold/src/smoothing.cpp`) against its specification.

Modelling conventions.
* Machine `int` values are modelled by `ℤ`; sizes and loop fuel by `ℕ`.
* `float` arithmetic is idealised as exact arithmetic: topological and
  barycentric computations use `ℚ`, geometric computations that need square
  roots (`CircularTangent`, tangent vectors) use `ℝ`.  `glm::round` is
  round-half-away-from-zero on the exact value, `glm::sqrt(2)` is the real
  `√2`, `glm::round(glm::sqrt(k))` on an integer `k` is the nearest integer
  to `√k` (no ties exist).
* Unchecked C++ vector reads inside the partition construction are modelled
  with an explicit failure (`PErr.oob`); `Vec::back()` on an empty vector
  (undefined behaviour in C++) is modelled as failure; reads/writes in the
  bulk mesh passes, which are in range for any valid half-edge mesh, are
  modelled with defaulting reads (`List.getD`) and no-op out-of-range writes,
  matching the defined executions of the C++.
* The recursive `PartitionQuad` is given explicit fuel; running out of fuel
  is `PErr.fuel`, which is distinguished from the `"negative divisions!"`
  assertion `PErr.negAssert`.
* External collaborators that are not part of the source file
  (`CreateTmpEdges`, `NextHalfedge`, `SameFace`, `SafeNormalize`,
  `CreateHalfedges`, `kTolerance`, `IsEmpty`) are modelled from the
  specification's description of their interfaces; each such definition is
  marked `Modelled from the spec:`.
-/

/-- Small vectors are functions out of `Fin n`: `Q3` is glm's `vec3` with
exact rational entries. -/
abbrev Q3 := Fin 3 → ℚ

/-- glm `ivec3`. -/
abbrev I3 := Fin 3 → ℤ

/-- glm `ivec4`. -/
abbrev I4 := Fin 4 → ℤ

/-- glm `bvec3`. -/
abbrev B3 := Fin 3 → Bool

/-- glm `bvec4`. -/
abbrev B4 := Fin 4 → Bool

/-- glm `vec3` over the reals (used for tangent geometry). -/
abbrev R3 := Fin 3 → ℝ

/-- glm `vec4` over the reals. -/
abbrev R4 := Fin 4 → ℝ

/-- Reduce an `int` to an index into a 3-vector (the C++ uses values that are
always in `{0,1,2}` at these points). -/
def idx3 (z : ℤ) : Fin 3 := ⟨z.toNat % 3, Nat.mod_lt _ (by omega)⟩

/-- Reduce an `int` to an index into a 4-vector. -/
def idx4 (z : ℤ) : Fin 4 := ⟨z.toNat % 4, Nat.mod_lt _ (by omega)⟩

/-- Checked read of a C++ vector at an `int` index: fails when out of range. -/
def getI {α : Type} (l : List α) (i : ℤ) : Option α :=
  if h : 0 ≤ i ∧ i.toNat < l.length then some (l.get ⟨i.toNat, h.2⟩) else none

/-- Defaulting read of a C++ vector at an `int` index (used in the bulk mesh
passes, where validity of the mesh keeps every access in range). -/
def getZ {α : Type} (l : List α) (d : α) (i : ℤ) : α :=
  if 0 ≤ i then l.getD i.toNat d else d

/-- Write of a C++ vector at an `int` index; out-of-range writes are dropped
(the C++ never performs them in a defined execution). -/
def setZ {α : Type} (l : List α) (i : ℤ) (a : α) : List α :=
  if 0 ≤ i then l.set i.toNat a else l

/-- `glm::mix(x, y, a) = x + a * (y - x)`, componentwise on rational
3-vectors. -/
def mixQ3 (x y : Q3) (a : ℚ) : Q3 := fun i => x i + a * (y i - x i)

/-- `glm::round` of the exact rational value `num / den` (`den > 0`): round
half away from zero, computed with integer division (`⌊x + 1/2⌋ =
(2·num + den) / (2·den)` for `x ≥ 0`). -/
def roundRat (num den : ℤ) : ℤ :=
  if 0 ≤ num then (2 * num + den) / (2 * den) else -((2 * -num + den) / (2 * den))

/-- The exact value of `glm::round(glm::mix((float)a, (float)b, (float)i /
p))` for integers with `p > 0`: the mix is `(a·(p-i) + b·i) / p`. -/
def roundMix (a b i p : ℤ) : ℤ := roundRat (a * (p - i) + b * i) p

/-- The nearest integer to `√k` for a natural number `k`—the exact value of
`glm::round(glm::sqrt(k))` (no half-way cases exist since `√k` is either an
integer or irrational). -/
def roundSqrt (k : ℕ) : ℕ := (Nat.sqrt (4 * k) + 1) / 2

/-- `Next3` from the collaborator headers, as used throughout the source:
next corner index within a triangle. -/
def next3 (i : ℤ) : ℤ := (i + 1) % 3

/-- Modelled from the spec: `NextHalfedge` (collaborator interface): the next
half-edge within the same triangle; triangles occupy contiguous triples
`3t, 3t+1, 3t+2`. -/
def nextHalfedge (current : ℤ) : ℤ := 3 * (current / 3) + (current % 3 + 1) % 3

section RealGeometry

noncomputable section

/-- Dot product of real 3-vectors. -/
def dot3 (a b : R3) : ℝ := a 0 * b 0 + a 1 * b 1 + a 2 * b 2

/-- `glm::length`. -/
def length3 (v : R3) : ℝ := Real.sqrt (dot3 v v)

/-- Modelled from the spec: `SafeNormalize` (collaborator): normalizes a
vector, returning the zero vector for a zero-length input ("zero-length
edges → SafeNormalize returns zero"). -/
def safeNormalize (v : R3) : R3 :=
  if length3 v = 0 then fun _ => 0 else fun i => v i / length3 v

/-- `glm::mix` on real 4-vectors. -/
def mixR4 (x y : R4) (a : ℝ) : R4 := fun i => x i + a * (y i - x i)

/-- Scalar multiplication of a real 4-vector. -/
def smulR4 (a : ℝ) (v : R4) : R4 := fun i => a * v i

/-- `CircularTangent` (smoothing.cpp:59-73), translated from the source:
weighted-cubic-Bézier tangent from a desired direction and an edge vector. -/
def circularTangent (tangent edgeVec : R3) : R4 :=
  let dir := safeNormalize tangent
  let weight0 := |dot3 dir (safeNormalize edgeVec)|
  let weight : ℝ := if weight0 = 0 then 1 else weight0
  -- Quadratic weighted bezier for circular interpolation
  let bz2 := smulR4 weight
    (fun i => if h : (i : ℕ) < 3 then dir ⟨i, h⟩ * length3 edgeVec / (2 * weight) else 1)
  -- Equivalent cubic weighted bezier
  let bz3 := mixR4 (fun i => if (i : ℕ) < 3 then 0 else 1) bz2 (2 / 3)
  -- Convert from homogeneous form to geometric form
  fun i => if (i : ℕ) < 3 then bz3 i / bz3 3 else bz3 3

/-- The procedure of spec §4.A, written exactly from its words: `û =
normalize(d)`; `weight = |û · ê|`; if `weight = 0` set `weight = 1`; `B2 =
weight * (û * |e| / (2·weight), 1)`; `B3 = mix((0,0,0,1), B2, 2/3)`; return
`(B3.xyz / B3.w, B3.w)`.  (`normalize` is the library's safe normalize, per
spec §7.) -/
def circularTangentSpec (d e : R3) : R4 :=
  let uHat := safeNormalize d
  let eHat := safeNormalize e
  let w0 := |dot3 uHat eHat|
  let weight : ℝ := if w0 = 0 then 1 else w0
  let B2 : R4 := fun i =>
    weight * if h : (i : ℕ) < 3 then uHat ⟨i, h⟩ * length3 e / (2 * weight) else 1
  let B3 : R4 := mixR4 (fun i => if (i : ℕ) < 3 then 0 else 1) B2 (2 / 3)
  fun i => if (i : ℕ) < 3 then B3 i / B3 3 else B3 3

end

end RealGeometry

/-! ## The partition cache (smoothing.cpp:203-507) -/

/-- Failure modes of the modelled computations: the `"negative divisions!"`
assertion in `PartitionQuad`, an out-of-range vector access, and fuel
exhaustion of the modelled recursion. -/
inductive PErr where
  | negAssert : PErr
  | oob : PErr
  | fuel : PErr
deriving DecidableEq

instance {ε α : Type} [DecidableEq ε] [DecidableEq α] :
    DecidableEq (Except ε α) := fun a b =>
  match a, b with
  | .error e, .error e' =>
    if h : e = e' then .isTrue (by rw [h]) else .isFalse (by simp [h])
  | .error _, .ok _ => .isFalse (by simp)
  | .ok _, .error _ => .isFalse (by simp)
  | .ok v, .ok v' =>
    if h : v = v' then .isTrue (by rw [h]) else .isFalse (by simp [h])

/-- The growing state of a partition construction: the barycentric
coordinates of its vertices and the triangle list (`vertBary`/`triVert`
fields of `Partition`). -/
structure PState where
  vertBary : List Q3
  triVert : List I3
deriving DecidableEq

/-- `Partition` (smoothing.cpp:203-211). -/
structure Partition where
  idx : I3
  sortedDivisions : I3
  vertBary : List Q3
  triVert : List I3
deriving DecidableEq

/-- `Partition::InteriorOffset` (smoothing.cpp:213-215). -/
def Partition.interiorOffset (p : Partition) : ℤ :=
  p.sortedDivisions 0 + p.sortedDivisions 1 + p.sortedDivisions 2

/-- `Partition::NumInterior` (smoothing.cpp:217). -/
def Partition.numInterior (p : Partition) : ℤ :=
  (p.vertBary.length : ℤ) - p.interiorOffset

/-- `PartitionFan` (smoothing.cpp:376-385): side 0 has `added` inserted
vertices while sides 1 and 2 do not; the fan spreads from vertex 2. -/
def partitionFan (triVert : List I3) (cornerVerts : I3) (added : ℤ)
    (edgeOffset : ℤ) : List I3 :=
  let step := (List.range added.toNat).foldl
    (fun (acc : List I3 × ℤ) i =>
      let next := edgeOffset + (i : ℤ)
      (acc.1 ++ [![acc.2, next, cornerVerts 2]], next))
    ([], cornerVerts 0)
  triVert ++ step.1 ++ [![step.2, cornerVerts 1, cornerVerts 2]]

/-- The `GetEdgeVert` closure of `PartitionQuad` (smoothing.cpp:392-394). -/
def getEdgeVert (edgeOffsets : I4) (edgeFwd : B4) (edge : Fin 4) (idx : ℤ) :
    ℤ :=
  edgeOffsets edge + (if edgeFwd edge then 1 else -1) * idx

/-- The corner/maxEdge scan at the head of `PartitionQuad`
(smoothing.cpp:399-410): `corner` is the first corner whose two adjacent
sides both have zero insertions, `maxEdge` is the unique side with
insertions (`-2` when several, `-1` when none). -/
def quadScan (edgeAdded : I4) : ℤ × ℤ :=
  let s := [(0 : Fin 4), 1, 2, 3].foldl
    (fun (acc : ℤ × ℤ × ℤ) i =>
      let corner := if acc.1 = -1 ∧ edgeAdded i = 0 ∧ edgeAdded (idx4 acc.2.1) = 0
        then (i : ℤ) else acc.1
      let maxEdge := if edgeAdded i > 0
        then (if acc.2.2 = -1 then (i : ℤ) else -2) else acc.2.2
      (corner, (i : ℤ), maxEdge))
    (-1, 3, -1)
  (s.1, s.2.2)

/-- The `maxEdge ≥ 0` terminal triangulation of `PartitionQuad`
(smoothing.cpp:412-428): a zig-zag strip across the single subdivided edge,
bisected at its midpoint. -/
def quadTermStrip (triVert : List I3) (cornerVerts edgeOffsets : I4)
    (edgeAdded : I4) (edgeFwd : B4) (maxEdge : ℤ) : List I3 :=
  let ge := getEdgeVert edgeOffsets edgeFwd
  let e : Fin 4 → Fin 4 := fun j => idx4 ((j : ℤ) + maxEdge)
  let mE := idx4 maxEdge
  let middle := edgeAdded mE / 2
  let tv0 := triVert ++
    [![cornerVerts (e 2), cornerVerts (e 3), ge mE middle]]
  let first := (List.range (middle.toNat + 1)).foldl
    (fun (acc : List I3 × ℤ) i =>
      let next := ge mE (i : ℤ)
      (acc.1 ++ [![cornerVerts (e 3), acc.2, next]], next))
    (tv0, cornerVerts (e 0))
  let second := (List.range (edgeAdded mE - middle).toNat).foldl
    (fun (acc : List I3 × ℤ) k =>
      let i : ℤ := edgeAdded mE - 1 - (k : ℤ)
      let next := ge mE i
      (acc.1 ++ [![cornerVerts (e 2), next, acc.2]], next))
    (first.1, cornerVerts (e 1))
  second.1

/-- The `maxEdge < 0` terminal triangulation of `PartitionQuad`
(smoothing.cpp:429-448): a fan from the corner with no subdivisions on both
adjacent sides. -/
def quadTermFan (triVert : List I3) (cornerVerts edgeOffsets : I4)
    (edgeAdded : I4) (edgeFwd : B4) (corner : ℤ) : List I3 :=
  let ge := getEdgeVert edgeOffsets edgeFwd
  let step := fun (acc : List I3 × ℤ) (j : ℤ) =>
    let side := idx4 (corner + j)
    let acc1 :=
      if j = 2 ∧ edgeAdded side > 0 then
        (acc.1 ++ [![cornerVerts side, ge side 0, acc.2]], acc.2)
      else (acc.1, cornerVerts side)
    let acc2 := (List.range (edgeAdded side).toNat).foldl
      (fun (a : List I3 × ℤ) i =>
        let nextVert := ge side (i : ℤ)
        (a.1 ++ [![cornerVerts (idx4 corner), a.2, nextVert]], nextVert))
      acc1
    if j = 2 ∨ edgeAdded side = 0 then
      (acc2.1 ++ [![cornerVerts (idx4 corner), acc2.2,
        cornerVerts (idx4 (corner + j + 1))]], acc2.2)
    else acc2
  ((step (step (triVert, cornerVerts 0) 1) 2)).1

/-- One step of a sequential C++ loop threaded through an error monad:
a previous failure short-circuits, otherwise the body runs. -/
def estep {σ β : Type} (g : σ → β → Except PErr σ) :
    Except PErr σ → β → Except PErr σ :=
  fun acc i => match acc with
    | .error e => .error e
    | .ok b => g b i

/-- The loop state of the recursive branch of `PartitionQuad`: the mutated
`newCornerVerts`, `newEdgeOffsets`, `newEdgeAdded`, `newEdgeFwd` together
with the growing `PState`. -/
structure BandState where
  st : PState
  ncv : I4
  neo : I4
  nea : I4
  nfwd : B4

/-- `PartitionQuad` (smoothing.cpp:389-506), direct translation with fuel:
asserts `edgeAdded ≥ 0`, performs a terminal triangulation when a corner
with two consecutive zero-insertion sides exists, and otherwise splits the
quad into bands parallel to edge 0 (the `for` loop over `i ∈ [1,
partitions)` becomes a fold over that range), recursing on each band and on
the final band with one unit of fuel consumed per C++ recursive call. -/
def partitionQuad (fuel : ℕ) (st : PState) (cornerVerts edgeOffsets : I4)
    (edgeAdded : I4) (edgeFwd : B4) : Except PErr PState :=
  match fuel with
  | 0 => .error .fuel
  | fuel + 1 =>
    if ¬ (∀ k : Fin 4, 0 ≤ edgeAdded k) then .error .negAssert
    else
      let scan := quadScan edgeAdded
      let corner := scan.1
      let maxEdge := scan.2
      if 0 ≤ corner then -- terminate
        if 0 ≤ maxEdge then
          .ok { st with triVert := (quadTermStrip st.triVert cornerVerts
            edgeOffsets edgeAdded edgeFwd maxEdge) }
        else
          .ok { st with triVert := (quadTermFan st.triVert cornerVerts
            edgeOffsets edgeAdded edgeFwd corner) }
      else
        -- recursively partition
        let partitions := 1 + min (edgeAdded 1) (edgeAdded 3)
        let ge := getEdgeVert edgeOffsets edgeFwd
        let init : BandState :=
          { st := st
            ncv := ![cornerVerts 1, -1, -1, cornerVerts 0]
            neo := ![edgeOffsets 1, -1, ge 3 (edgeAdded 3 + 1), edgeOffsets 0]
            nea := ![0, -1, 0, edgeAdded 0]
            nfwd := ![edgeFwd 1, true, edgeFwd 3, edgeFwd 0] }
        let bands := ((List.range (partitions - 1).toNat).map
          (fun (k : ℕ) => (k : ℤ) + 1)).foldl
          (estep (fun (b : BandState) (i : ℤ) =>
              let cornerOffset1 := edgeAdded 1 * i / partitions
              let cornerOffset3 :=
                edgeAdded 3 - 1 - edgeAdded 3 * i / partitions
              let nextOffset1 := ge 1 (cornerOffset1 + 1)
              let nextOffset3 := ge 3 (cornerOffset3 + 1)
              let added := roundMix (edgeAdded 0) (edgeAdded 2) i partitions
              let ncv1 := ge 1 cornerOffset1
              let ncv2 := ge 3 cornerOffset3
              let nea0 := |nextOffset1 - b.neo 0| - 1
              let nea2 := |nextOffset3 - b.neo 2| - 1
              let neo1 : ℤ := b.st.vertBary.length
              match (List.range added.toNat).foldl
                (estep (fun (vb : List Q3) (j : ℕ) =>
                    match getI vb ncv1, getI vb ncv2 with
                    | some v1, some v2 => .ok (vb ++
                        [mixQ3 v1 v2 (((j : ℚ) + 1) / ((added : ℤ) + 1 : ℤ))])
                    | _, _ => .error .oob))
                (.ok b.st.vertBary) with
              | .error e => .error e
              | .ok vb =>
                match partitionQuad fuel { b.st with vertBary := vb }
                  ![b.ncv 0, ncv1, ncv2, b.ncv 3]
                  ![b.neo 0, neo1, nextOffset3, b.neo 3]
                  ![nea0, added, nea2, b.nea 3]
                  b.nfwd with
                | .error e => .error e
                | .ok st' =>
                  .ok { st := st'
                        ncv := ![ncv1, ncv1, ncv2, ncv2]
                        neo := ![nextOffset1, neo1, nextOffset3,
                          neo1 + added - 1]
                        nea := ![nea0, added, nea2, added]
                        nfwd := ![b.nfwd 0, b.nfwd 1, b.nfwd 2, false] }))
          (.ok init)
        match bands with
        | .error e => .error e
        | .ok b =>
          let nea0 := edgeAdded 1 - |b.neo 0 - edgeOffsets 1|
          let nea2 := |b.neo 2 - edgeOffsets 3| - 1
          partitionQuad fuel b.st
            ![b.ncv 0, cornerVerts 2, cornerVerts 3, b.ncv 3]
            ![b.neo 0, edgeOffsets 2, edgeOffsets 3, b.neo 3]
            ![nea0, edgeAdded 2, nea2, b.nea 3]
            ![b.nfwd 0, edgeFwd 2, b.nfwd 2, b.nfwd 3]

/-- The three barycentric corner vectors `(1,0,0), (0,1,0), (0,0,1)`. -/
def baryCorner (i : Fin 3) : Q3 := fun j => if i = j then 1 else 0

/-- The exact-arithmetic form of the acute-ish test
`n[1]² > f - √2·n[0]·n[2]` of smoothing.cpp:320, where `f = n[2]² + n[0]²`:
for the nonnegative sorted inputs the cache receives, `√2·n[0]·n[2] > d`
holds iff `d < 0` or `d² < 2·(n[0]·n[2])²`. -/
def acuteTest (n : I3) : Bool :=
  let d := n 2 * n 2 + n 0 * n 0 - n 1 * n 1
  decide (d < 0) || decide (d * d < 2 * (n 0 * n 2) * (n 0 * n 2))

/-- The split parameter `ns` of the obtuse branch (smoothing.cpp:329-330):
the portion of edge 0 under edge 2. -/
def obtuseNs (n : I3) : ℤ :=
  min (n 0 - 2) (roundRat (n 2 * n 2 + n 0 * n 0 - n 1 * n 1) (2 * n 0))

/-- The height parameter `nh` of the obtuse branch (smoothing.cpp:332):
`glm::max(1., glm::round(glm::sqrt(n[2]² - ns²)))`.  For a negative
argument the float `sqrt` yields NaN, `glm::max(1., NaN) = (1 < NaN ? NaN :
1) = 1`. -/
def obtuseNh (n : I3) (ns : ℤ) : ℤ :=
  if n 2 * n 2 - ns * ns < 0 then 1
  else max 1 (roundSqrt (n 2 * n 2 - ns * ns).toNat : ℤ)

/-- `Partition::GetCachedPartition` (smoothing.cpp:291-373): builds the
topological triangulation for a sorted divisions triple `n[0] ≥ n[1] ≥ n[2]
≥ 1`.  The process-wide mutex-guarded cache is pure-by-key (spec §5), so the
model is the pure construction; the cached `idx` field is left at `(0,1,2)`
(the C++ leaves it uninitialised and `GetPartition` overwrites it). -/
def getCachedPartition (fuel : ℕ) (n : I3) : Except PErr Partition :=
  let corners : List Q3 := [baryCorner 0, baryCorner 1, baryCorner 2]
  let vbE : Except PErr (List Q3) := [(0 : Fin 3), 1, 2].foldl
    (estep (fun (vb : List Q3) (i : Fin 3) =>
        match getI vb ((i : ℤ)), getI vb (next3 (i : ℤ)) with
        | some bi, some nextBary =>
          .ok (vb ++ (List.range (n i - 1).toNat).map
            (fun (k : ℕ) => mixQ3 bi nextBary
              (((k : ℚ) + 1) / ((n i : ℤ) : ℚ))))
        | _, _ => .error .oob))
    (.ok corners)
  match vbE with
  | .error e => .error e
  | .ok vb =>
    let edgeOffsets : I3 := ![3, 3 + n 0 - 1, 3 + n 0 - 1 + n 1 - 1]
    let mk : PState → Partition := fun st =>
      { idx := ![0, 1, 2], sortedDivisions := n, vertBary := st.vertBary
        triVert := st.triVert }
    if n 1 = 1 then
      if n 0 = 1 then .ok (mk ⟨vb, [![0, 1, 2]]⟩)
      else .ok (mk ⟨vb, partitionFan [] ![0, 1, 2] (n 0 - 1) (edgeOffsets 0)⟩)
    else if acuteTest n then -- acute-ish
      match partitionQuad fuel ⟨vb, [![edgeOffsets 1 - 1, 1, edgeOffsets 1]]⟩
        ![edgeOffsets 1 - 1, edgeOffsets 1, 2, 0]
        ![-1, edgeOffsets 1 + 1, edgeOffsets 2, edgeOffsets 0]
        ![0, n 1 - 2, n 2 - 1, n 0 - 2] ![true, true, true, true] with
      | .error e => .error e
      | .ok st => .ok (mk st)
    else -- obtuse -> split into two acute
      -- portion of n[0] under n[2]
      let ns := obtuseNs n
      -- height from n[0]: nh <= n[2]
      let nh := obtuseNh n ns
      let hOffset : ℤ := vb.length
      match getI vb (edgeOffsets 0 + ns - 1), getI vb 2 with
      | some middleBary, some corner2 =>
        let vb2 := vb ++ (List.range (nh - 1).toNat).map
          (fun (k : ℕ) => mixQ3 corner2 middleBary (((k : ℚ) + 1) / (nh : ℚ)))
        match partitionQuad fuel
          ⟨vb2, [![edgeOffsets 1 - 1, 1, edgeOffsets 1]]⟩
          ![edgeOffsets 1 - 1, edgeOffsets 1, 2, edgeOffsets 0 + ns - 1]
          ![-1, edgeOffsets 1 + 1, hOffset, edgeOffsets 0 + ns]
          ![0, n 1 - 2, nh - 1, n 0 - ns - 2] ![true, true, true, true] with
        | .error e => .error e
        | .ok st =>
          if n 2 = 1 then
            .ok (mk ⟨st.vertBary, partitionFan st.triVert
              ![0, edgeOffsets 0 + ns - 1, 2] (ns - 1) (edgeOffsets 0)⟩)
          else if ns = 1 then
            match partitionQuad fuel
              ⟨st.vertBary, st.triVert ++ [![hOffset, 2, edgeOffsets 2]]⟩
              ![hOffset, edgeOffsets 2, 0, edgeOffsets 0]
              ![-1, edgeOffsets 2 + 1, -1, hOffset + nh - 2]
              ![0, n 2 - 2, ns - 1, nh - 2] ![true, true, true, false] with
            | .error e => .error e
            | .ok st2 => .ok (mk st2)
          else
            match partitionQuad fuel
              ⟨st.vertBary, st.triVert ++ [![hOffset - 1, 0, edgeOffsets 0]]⟩
              ![hOffset - 1, edgeOffsets 0, edgeOffsets 0 + ns - 1, 2]
              ![-1, edgeOffsets 0 + 1, hOffset + nh - 2, edgeOffsets 2]
              ![0, ns - 2, nh - 1, n 2 - 2] ![true, true, false, true] with
            | .error e => .error e
            | .ok st2 => .ok (mk st2)
      | _, _ => .error .oob

/-- Swap two components of an integer 3-vector (`std::swap`). -/
def swap3 (v : I3) (a b : Fin 3) : I3 :=
  Function.update (Function.update v a (v b)) b (v a)

/-- `Partition::GetPartition` (smoothing.cpp:219-239): sorts the divisions
descending, fetches the cached partition for the sorted triple, and attaches
the permutation `idx` mapping sorted slots to input slots. -/
def getPartition (fuel : ℕ) (divisions : I3) : Except PErr Partition :=
  let s0 : I3 × I3 := (divisions, ![0, 1, 2])
  let s1 := if s0.1 2 > s0.1 1 then (swap3 s0.1 2 1, swap3 s0.2 2 1) else s0
  let s2 :=
    if s1.1 1 > s1.1 0 then
      let t := (swap3 s1.1 1 0, swap3 s1.2 1 0)
      if t.1 2 > t.1 1 then (swap3 t.1 2 1, swap3 t.2 2 1) else t
    else s1
  match getCachedPartition fuel s2.1 with
  | .error e => .error e
  | .ok p => .ok { p with idx := s2.2 }

/-- `Partition::Reindex` (smoothing.cpp:241-279): renumber the partition's
vertices into the global numbering of the containing triangle and rewrite
each `triVert` triple, applying the winding correction when `idx[1] ≠
Next3(idx[0])`. -/
def Partition.reindex (p : Partition) (tri : I3) (edgeOffsets : I3)
    (edgeFwd : B3) (interiorOffset : ℤ) : Except PErr (List I3) :=
  let triIdx : I3 := if ¬ p.idx 1 = next3 (p.idx 0)
    then ![p.idx 2, p.idx 0, p.idx 1] else p.idx
  let edgeFwd' : B3 := if ¬ p.idx 1 = next3 (p.idx 0)
    then (fun i => ! edgeFwd i) else edgeFwd
  let outTri : I3 := if ¬ p.idx 1 = next3 (p.idx 0) then ![1, 0, 2] else ![0, 1, 2]
  let nv0 : List ℤ :=
    [tri (idx3 (triIdx 0)), tri (idx3 (triIdx 1)), tri (idx3 (triIdx 2))]
  let newVerts : List ℤ := [(0 : Fin 3), 1, 2].foldl
    (fun nv i =>
      let nE := p.sortedDivisions i - 1
      let offset := edgeOffsets (idx3 (p.idx i)) +
        (if edgeFwd' (idx3 (p.idx i)) then 0 else nE - 1)
      nv ++ (List.range nE.toNat).map
        (fun j => offset + (if edgeFwd' (idx3 (p.idx i)) then 1 else -1) * j))
    nv0
  let offset : ℤ := interiorOffset - newVerts.length
  let newVerts := newVerts ++
    (List.range (p.vertBary.length - newVerts.length)).map
      (fun i => ((newVerts.length + i : ℕ) : ℤ) + offset)
  p.triVert.mapM (fun tv => do
    let a ← match getI newVerts (tv 0) with
      | some a => Except.ok a | none => Except.error PErr.oob
    let b ← match getI newVerts (tv 1) with
      | some b => Except.ok b | none => Except.error PErr.oob
    let c ← match getI newVerts (tv 2) with
      | some c => Except.ok c | none => Except.error PErr.oob
    Except.ok (Function.update (Function.update (Function.update
      (![0, 0, 0] : I3)
      (idx3 (outTri 0)) a) (idx3 (outTri 1)) b) (idx3 (outTri 2)) c))

/-! ## The half-edge mesh substrate (spec §3) -/

/-- A half-edge record (spec §3): `{startVert, endVert, pairedHalfedge,
face}`; triangles occupy contiguous triples. -/
structure Halfedge where
  startVert : ℤ
  endVert : ℤ
  pairedHalfedge : ℤ
  face : ℤ
deriving DecidableEq

instance : Inhabited Halfedge := ⟨⟨0, 0, 0, 0⟩⟩

/-- `IsForward()` means `startVert < endVert` (spec §3). -/
def Halfedge.IsForward (h : Halfedge) : Bool := decide (h.startVert < h.endVert)

/-- Modelled from the spec: `TriRef` provenance record `{meshID, originalID,
tri}` (spec §3); the record itself lives in the collaborator headers. -/
structure TriRef where
  meshID : ℤ
  originalID : ℤ
  tri : ℤ
deriving DecidableEq

instance : Inhabited TriRef := ⟨⟨-1, -1, -1⟩⟩

/-- Modelled from the spec: `TriRef::SameFace` — true iff both refer to the
same original source face (spec §3: same `meshID` and `originalID`). -/
def TriRef.SameFace (a b : TriRef) : Bool :=
  decide (a.meshID = b.meshID) && decide (a.originalID = b.originalID)

/-- The mesh state touched by the smoothing core: the `Manifold::Impl`
fields `vertPos_`, `halfedge_`, `halfedgeTangent_`, `faceNormal_`,
`vertNormal_`, and the `meshRelation_` fields `numProp`, `triRef`,
`triProperties`, `properties`. -/
structure MMesh where
  numProp : ℤ
  vertPos : List R3
  halfedge : List Halfedge
  halfedgeTangent : List R4
  faceNormal : List R3
  vertNormal : List R3
  triRef : List TriRef
  triProperties : List I3
  properties : List ℝ

/-- `NumVert()`. -/
def MMesh.numVert (m : MMesh) : ℕ := m.vertPos.length

/-- `NumTri()`. -/
def MMesh.numTri (m : MMesh) : ℕ := m.halfedge.length / 3

/-- Modelled from the spec: `NumPropVert()` — the number of rows of the
packed property table of width `numProp` (the vertex count when there are no
properties). -/
def MMesh.numPropVert (m : MMesh) : ℤ :=
  if m.numProp = 0 then (m.numVert : ℤ) else (m.properties.length : ℤ) / m.numProp

/-- Modelled from the spec: `IsEmpty()` — no vertices (and hence, for a
valid mesh, no half-edges). -/
def MMesh.isEmpty (m : MMesh) : Bool := decide (m.numVert = 0)

/-- Validity of the half-edge substrate (spec §3 invariants): every
half-edge has in-range vertices and pair, pairing is a fixed-point-free
involution that swaps `startVert`/`endVert`, the stored `face` is the
triangle index, the half-edge count is a multiple of 3, and every vertex is
the tail of some half-edge. -/
def validMesh (m : MMesh) : Prop :=
  m.halfedge.length % 3 = 0 ∧
  (∀ i < m.halfedge.length,
    (0 ≤ (m.halfedge.getD i default).startVert ∧
      (m.halfedge.getD i default).startVert < (m.numVert : ℤ)) ∧
    (0 ≤ (m.halfedge.getD i default).endVert ∧
      (m.halfedge.getD i default).endVert < (m.numVert : ℤ)) ∧
    (m.halfedge.getD i default).startVert ≠ (m.halfedge.getD i default).endVert ∧
    (0 ≤ (m.halfedge.getD i default).pairedHalfedge ∧
      (m.halfedge.getD i default).pairedHalfedge < (m.halfedge.length : ℤ)) ∧
    (m.halfedge.getD i default).pairedHalfedge ≠ (i : ℤ) ∧
    (m.halfedge.getD i default).face = (i : ℤ) / 3 ∧
    (m.halfedge.getD (m.halfedge.getD i default).pairedHalfedge.toNat
      default).pairedHalfedge = (i : ℤ) ∧
    (m.halfedge.getD (m.halfedge.getD i default).pairedHalfedge.toNat
      default).startVert = (m.halfedge.getD i default).endVert ∧
    (m.halfedge.getD (m.halfedge.getD i default).pairedHalfedge.toNat
      default).endVert = (m.halfedge.getD i default).startVert) ∧
  (∀ v < m.numVert, ∃ i < m.halfedge.length,
    (m.halfedge.getD i default).startVert = (v : ℤ))

instance (m : MMesh) : Decidable (validMesh m) := by
  unfold validMesh; infer_instance

/-! ## Subdivide (smoothing.cpp:42-52, 987-1214) -/

/-- `TmpEdge` (spec §3): unique undirected edge id with a representative
half-edge. -/
structure TmpEdge where
  first : ℤ
  second : ℤ
  halfedgeIdx : ℤ
deriving DecidableEq

instance : Inhabited TmpEdge := ⟨⟨0, 0, 0⟩⟩

/-- Modelled from the spec: `CreateTmpEdges` (collaborator) — "Build
`TmpEdge` list (one per undirected edge)" (spec §4.F); each undirected edge
is represented by its forward half-edge. -/
def createTmpEdges (halfedge : List Halfedge) : List TmpEdge :=
  (List.range halfedge.length).filterMap fun i =>
    let h := halfedge.getD i default
    if h.IsForward then some ⟨h.startVert, h.endVert, (i : ℤ)⟩ else none

/-- The `ReindexHalfedge` kernel (smoothing.cpp:75-86): `half2Edge` maps
both half-edges of each pair to the undirected edge index. -/
def buildHalf2Edge (halfedge : List Halfedge) (edges : List TmpEdge) :
    List ℤ :=
  (List.range edges.length).foldl
    (fun acc e =>
      let h := (edges.getD e default).halfedgeIdx
      setZ (setZ acc h e) (getZ halfedge default h).pairedHalfedge e)
    (List.replicate (2 * edges.length) 0)

/-- `exclusive_scan` over `int`s with an initial value. -/
def exclusiveScan : List ℤ → ℤ → List ℤ
  | [], _ => []
  | a :: l, init => init :: exclusiveScan l (init + a)

/-- `Barycentric` (spec §3): a refined vertex's source triangle and
coordinate within it. -/
structure Barycentric where
  tri : ℤ
  uvw : Q3

instance : Inhabited Barycentric := ⟨⟨0, fun _ => 0⟩⟩

/-- `FillRetainedVerts` (smoothing.cpp:42-52): each retained vertex gets the
corner barycentric of (the last visited) triangle containing it. -/
def fillRetainedVerts (vertBary : List Barycentric)
    (halfedge_ : List Halfedge) : List Barycentric :=
  (List.range (halfedge_.length / 3)).foldl
    (fun vb (tri : ℕ) =>
      [(0 : Fin 3), 1, 2].foldl
        (fun vb' i =>
          let uvw : Q3 := Function.update (fun _ => 0) i 1
          setZ vb' (getZ halfedge_ default (3 * tri + (i : ℕ))).startVert
            ⟨(tri : ℤ), uvw⟩)
        vb)
    vertBary

/-- The per-edge inserted-vertex barycentric fill of `Subdivide`
(smoothing.cpp:1013-1029). -/
def fillEdgeVerts (vertBary : List Barycentric) (edges : List TmpEdge)
    (edgeAdded edgeOffset : List ℤ) : List Barycentric :=
  (List.range edges.length).foldl
    (fun vb e =>
      let te := edges.getD e default
      let n := getZ edgeAdded 0 (e : ℤ)
      let offset := getZ edgeOffset 0 (e : ℤ)
      let frac : ℚ := 1 / ((n : ℚ) + 1)
      let v0 := te.halfedgeIdx % 3
      let v1 := next3 v0
      let tri := te.halfedgeIdx / 3
      (List.range n.toNat).foldl
        (fun vb' (i : ℕ) =>
          let uvw : Q3 := Function.update
            (Function.update (fun _ => 0) (idx3 v1) (((i : ℚ) + 1) * frac))
            (idx3 v0) (1 - ((i : ℚ) + 1) * frac)
          setZ vb' (offset + (i : ℕ)) ⟨tri, uvw⟩)
        vb)
    vertBary

/-- The inverse component permutation used when copying a partition's
interior barycentrics back into the source triangle's canonical basis
(smoothing.cpp:1080-1095). -/
def interiorPermutation (idx : I3) : I3 :=
  let vIdx := if idx 1 = next3 (idx 0) then idx else ![idx 2, idx 0, idx 1]
  Function.update (Function.update (Function.update (![0, 0, 0] : I3)
    (idx3 (vIdx 0)) 0) (idx3 (vIdx 1)) 1) (idx3 (vIdx 2)) 2

/-- The output state of `Subdivide`: the returned `vertBary` together with
the mutated mesh fields (`triVerts` is the argument later passed to
`CreateHalfedges`). -/
structure SubOut where
  vertBary : List Barycentric
  triVerts : List I3
  vertPos : List R3
  triRef : List TriRef
  properties : List ℝ
  triProperties : List I3

instance : Inhabited Partition :=
  ⟨⟨![0, 1, 2], ![0, 0, 0], [], []⟩⟩

/-- The per-triangle inputs to `Partition::Reindex` in the geometric pass of
`Subdivide` (smoothing.cpp:1058-1073). -/
def subTriData (m : MMesh) (half2Edge edgeOffset : List ℤ) (tri : ℕ) :
    I3 × I3 × B3 :=
  (fun i => (getZ m.halfedge default (3 * tri + (i : ℕ))).startVert,
   fun i => getZ edgeOffset 0 (getZ half2Edge 0 (3 * tri + (i : ℕ))),
   fun i => (getZ m.halfedge default (3 * tri + (i : ℕ))).IsForward)

/-- `Manifold::Impl::Subdivide` (smoothing.cpp:987-1214): split each edge
into `edgeDivisions(vec) + 1` pieces and sub-triangulate each triangle by
its cached partition; the scatter-by-prefix-sum concatenations of the C++
are modelled as `List.flatten` over the per-triangle pieces (`triOffset` and
`interiorOffset` are exactly the prefix sums of the piece sizes).
`Vec::back()` on the empty `edgeOffset`/`edgeAdded` vectors of an edgeless
mesh is the modelled failure. -/
def subdivide (fuel : ℕ) (m : MMesh) (edgeDivisions : R3 → ℤ) :
    Except PErr SubOut :=
  let edges := createTmpEdges m.halfedge
  let half2Edge := buildHalf2Edge m.halfedge edges
  let edgeAdded : List ℤ := edges.map fun te =>
    edgeDivisions (fun k =>
      getZ m.vertPos (fun _ => 0) te.first k -
      getZ m.vertPos (fun _ => 0) te.second k)
  let edgeOffset := exclusiveScan edgeAdded (m.numVert : ℤ)
  match edgeOffset.getLast?, edgeAdded.getLast? with
  | some lastOff, some lastAdd =>
    let total := (lastOff + lastAdd).toNat
    let totalEdgeAdded : ℤ := (total : ℤ) - (m.numVert : ℤ)
    let vb := fillEdgeVerts
      (fillRetainedVerts (List.replicate total default) m.halfedge)
      edges edgeAdded edgeOffset
    let numTri := m.numTri
    match (List.range numTri).mapM (fun (tri : ℕ) =>
      getPartition fuel (fun i =>
        getZ edgeAdded 0 (getZ half2Edge 0 (3 * tri + (i : ℕ))) + 1)) with
    | .error e => .error e
    | .ok subTris =>
      let interiorOffset := exclusiveScan
        (subTris.map (·.numInterior)) (total : ℤ)
      match (List.range numTri).mapM (fun (tri : ℕ) =>
        let d := subTriData m half2Edge edgeOffset tri
        (subTris.getD tri default).reindex d.1 d.2.1 d.2.2
          (getZ interiorOffset 0 (tri : ℤ))) with
      | .error e => .error e
      | .ok newTrisPerTri =>
        let triVerts := newTrisPerTri.flatten
        let triRef := ((List.range numTri).map fun tri =>
          List.replicate (newTrisPerTri.getD tri []).length
            (getZ m.triRef default (tri : ℤ))).flatten
        let interiorBary := ((List.range numTri).map fun tri =>
          let p := subTris.getD tri default
          let rIdx := interiorPermutation p.idx
          (p.vertBary.drop p.interiorOffset.toNat).map fun bary =>
            (⟨(tri : ℤ), fun k => bary (idx3 (rIdx k))⟩ : Barycentric)).flatten
        let vertBary := vb ++ interiorBary
        let newVertPos : List R3 := vertBary.map fun b => fun c =>
          ((getZ m.vertPos (fun _ => 0)
              (getZ m.halfedge default (3 * b.tri)).startVert c) *
            ((b.uvw 0 : ℚ) : ℝ)) +
          ((getZ m.vertPos (fun _ => 0)
              (getZ m.halfedge default (3 * b.tri + 1)).startVert c) *
            ((b.uvw 1 : ℚ) : ℝ)) +
          ((getZ m.vertPos (fun _ => 0)
              (getZ m.halfedge default (3 * b.tri + 2)).startVert c) *
            ((b.uvw 2 : ℚ) : ℝ))
        if 0 < m.numProp then
          let numPropVert := m.numPropVert
          let addedVerts : ℤ := (vertBary.length : ℤ) - (m.numVert : ℤ)
          let propOffset : ℤ := numPropVert - (m.numVert : ℤ)
          let prop0 : List ℝ := m.properties ++ List.replicate
            ((m.numProp * (numPropVert + addedVerts + totalEdgeAdded)).toNat -
              m.properties.length) 0
          -- interpolate the properties of the interior vertices
          let prop1 := (List.range addedVerts.toNat).foldl
            (fun pr (k : ℕ) =>
              let vert : ℤ := numPropVert + (k : ℤ)
              let bary := vertBary.getD (m.numVert + k) default
              (List.range m.numProp.toNat).foldl
                (fun pr' (p : ℕ) =>
                  let v : ℝ :=
                    (getZ m.properties 0
                        ((getZ m.triProperties (fun _ => 0) bary.tri 0) *
                          m.numProp + (p : ℤ)) * ((bary.uvw 0 : ℚ) : ℝ)) +
                    (getZ m.properties 0
                        ((getZ m.triProperties (fun _ => 0) bary.tri 1) *
                          m.numProp + (p : ℤ)) * ((bary.uvw 1 : ℚ) : ℝ)) +
                    (getZ m.properties 0
                        ((getZ m.triProperties (fun _ => 0) bary.tri 2) *
                          m.numProp + (p : ℤ)) * ((bary.uvw 2 : ℚ) : ℝ))
                  setZ pr' (vert * m.numProp + (p : ℤ)) v)
                pr)
            prop0
          -- interpolate the properties of the edge-inserted vertices,
          -- working from each edge's backward half-edge
          let prop2 := (List.range edges.length).foldl
            (fun pr (e : ℕ) =>
              let te := edges.getD e default
              let n := getZ edgeAdded 0 (e : ℤ)
              let offset := getZ edgeOffset 0 (e : ℤ) + propOffset + addedVerts
              let frac : ℚ := 1 / ((n : ℚ) + 1)
              let halfedgeIdx :=
                (getZ m.halfedge default te.halfedgeIdx).pairedHalfedge
              let v0 := halfedgeIdx % 3
              let v1 := next3 v0
              let tri := halfedgeIdx / 3
              (List.range n.toNat).foldl
                (fun pr' (i : ℕ) =>
                  let uvw : Q3 := Function.update
                    (Function.update (fun _ => 0) (idx3 v1)
                      (((i : ℚ) + 1) * frac))
                    (idx3 v0) (1 - ((i : ℚ) + 1) * frac)
                  (List.range m.numProp.toNat).foldl
                    (fun pr'' (p : ℕ) =>
                      let v : ℝ :=
                        (getZ m.properties 0
                            ((getZ m.triProperties (fun _ => 0) tri 0) *
                              m.numProp + (p : ℤ)) * ((uvw 0 : ℚ) : ℝ)) +
                        (getZ m.properties 0
                            ((getZ m.triProperties (fun _ => 0) tri 1) *
                              m.numProp + (p : ℤ)) * ((uvw 1 : ℚ) : ℝ)) +
                        (getZ m.properties 0
                            ((getZ m.triProperties (fun _ => 0) tri 2) *
                              m.numProp + (p : ℤ)) * ((uvw 2 : ℚ) : ℝ))
                      setZ pr'' ((offset + (i : ℤ)) * m.numProp + (p : ℤ)) v)
                    pr')
                pr)
            prop1
          -- reindex the property triangles (smoothing.cpp:1174-1205)
          match (List.range numTri).mapM (fun (tri : ℕ) =>
            let tri3 : I3 := getZ m.triProperties (fun _ => 0) (tri : ℤ)
            let mismatch : Fin 3 → Bool := fun i =>
              let he := getZ m.halfedge default (3 * tri + (i : ℕ))
              let pairTri := he.pairedHalfedge / 3
              let j := he.pairedHalfedge % 3
              decide (getZ m.triProperties (fun _ => 0) pairTri (idx3 j) ≠
                  getZ m.triProperties (fun _ => 0) (tri : ℤ)
                    (idx3 (next3 (i : ℤ)))) ||
              decide (getZ m.triProperties (fun _ => 0) pairTri
                  (idx3 (next3 j)) ≠
                getZ m.triProperties (fun _ => 0) (tri : ℤ) (idx3 (i : ℤ)))
            let edgeOffsets3 : I3 := fun i =>
              let he := getZ m.halfedge default (3 * tri + (i : ℕ))
              let base := getZ edgeOffset 0
                (getZ half2Edge 0 (3 * tri + (i : ℕ)))
              if ¬ he.IsForward ∧ mismatch i then base + addedVerts else base
            let edgeFwd3 : B3 := fun i =>
              let he := getZ m.halfedge default (3 * tri + (i : ℕ))
              if ¬ he.IsForward ∧ ¬ mismatch i then false else true
            (subTris.getD tri default).reindex tri3
              (fun i => edgeOffsets3 i + propOffset) edgeFwd3
              (getZ interiorOffset 0 (tri : ℤ) + propOffset)) with
          | .error e => .error e
          | .ok newPropTris =>
            .ok ⟨vertBary, triVerts, newVertPos, triRef, prop2,
              newPropTris.flatten⟩
        else
          .ok ⟨vertBary, triVerts, newVertPos, triRef, m.properties,
            m.triProperties⟩
  | _, _ => .error .oob

/-- Modelled from the spec: `CreateHalfedges` (collaborator) — "Rebuild
half-edges from the new `triVerts`" (spec §4.F step 8): half-edge `3t+j`
runs from corner `j` to corner `j+1` of triangle `t`, and is paired with the
unique opposite half-edge (`-1` if none exists). -/
def halfedgesFromTris (triVerts : List I3) : List Halfedge :=
  let numH := 3 * triVerts.length
  (List.range numH).map fun i =>
    let t := i / 3
    let j := i % 3
    let tv := triVerts.getD t (fun _ => 0)
    let s := tv (idx3 ((j : ℕ) : ℤ))
    let e := tv (idx3 (((j : ℕ) : ℤ) + 1))
    let paired : ℤ := match (List.range numH).find? (fun k =>
      let j' := k % 3
      let tv' := triVerts.getD (k / 3) (fun _ => 0)
      decide (tv' (idx3 ((j' : ℕ) : ℤ)) = e) &&
      decide (tv' (idx3 (((j' : ℕ) : ℤ) + 1)) = s)) with
      | some k => (k : ℤ)
      | none => -1
    ⟨s, e, paired, ((t : ℕ) : ℤ)⟩

/-! ## FlatFaces / VertFlatFace (smoothing.cpp:543-590) -/

/-- The `neighbor` closure of `FlatFaces` (smoothing.cpp:548-552): the face
across side `j` of triangle `tri`. -/
def triNeighbor (m : MMesh) (tri : ℕ) (j : Fin 3) : ℤ :=
  (getZ m.halfedge default
    (getZ m.halfedge default
      (3 * (tri : ℤ) + ((j : ℕ) : ℤ))).pairedHalfedge).face

/-- Whether the neighbor across side `j` of triangle `tri` references the
same source face (smoothing.cpp:553-556). -/
def triMatch (m : MMesh) (tri : ℕ) (j : Fin 3) : Bool :=
  (getZ m.triRef default (triNeighbor m tri j)).SameFace
    (getZ m.triRef default ((tri : ℕ) : ℤ))

/-- `faceNeighbors` of smoothing.cpp:557: how many of the three
edge-neighbors of `tri` reference the same source face. -/
def flatCount (m : MMesh) (tri : ℕ) : ℕ :=
  ([0, 1, 2] : List (Fin 3)).countP (triMatch m tri)

/-- `Manifold::Impl::FlatFaces` (smoothing.cpp:543-571): mark triangle `t`
flat when more than one of its edge-neighbors references the same source
face, and additionally mark each such matching neighbor.  The per-triangle
bodies only read `triRef`/`halfedge` and only ever set flags to `true`, so
the bulk pass is modelled as a fold in triangle order. -/
def flatFaces (m : MMesh) : List Bool :=
  (List.range m.numTri).foldl
    (fun flat (tri : ℕ) =>
      if 1 < flatCount m tri then
        ([0, 1, 2] : List (Fin 3)).foldl
          (fun fl j => if triMatch m tri j then
            setZ fl (triNeighbor m tri j) true else fl)
          (setZ flat ((tri : ℕ) : ℤ) true)
      else flat)
    (List.replicate m.numTri false)

/-- `Manifold::Impl::VertFlatFace` (smoothing.cpp:576-590): per vertex, a
neighboring flat-face triangle if exactly one distinct flat face surrounds
it, `-1` if none, `-2` if several. -/
def vertFlatFace (m : MMesh) (flat : List Bool) : List ℤ :=
  ((List.range m.numTri).foldl
    (fun (acc : List ℤ × List TriRef) tri =>
      if getZ flat false (tri : ℤ) then
        ([0, 1, 2] : List (Fin 3)).foldl
          (fun acc' j =>
            let vert := (getZ m.halfedge default (3 * tri + (j : ℕ))).startVert
            if (getZ acc'.2 default vert).SameFace
                (getZ m.triRef default (tri : ℤ)) then acc'
            else
              (setZ acc'.1 vert
                (if getZ acc'.1 0 vert = -1 then (tri : ℤ) else -2),
               setZ acc'.2 vert (getZ m.triRef default (tri : ℤ))))
          acc
      else acc)
    (List.replicate m.numVert (-1), List.replicate m.numVert default)).1

/-! ## SetNormals (smoothing.cpp:609-787) -/

section SetNormalsModel

open Classical

noncomputable section

/-- `glm::degrees(glm::acos(dot))` of two stored face normals: the dihedral
angle in degrees used by `SetNormals` (smoothing.cpp:629-630, 702-703). -/
def dihedralDeg (m : MMesh) (t1 t2 : ℤ) : ℝ :=
  Real.arccos (dot3 (getZ m.faceNormal (fun _ => 0) t1)
    (getZ m.faceNormal (fun _ => 0) t2)) * 180 / Real.pi

/-- `glm::normalize` (unsafe): divides by the length; a zero-length input
yields NaN in C++ (here the zero vector, reached by no verified claim). -/
def normalizeR3 (v : R3) : R3 := fun i => v i / length3 v

/-- The group-boundary test of the `SetNormals` fan walks
(smoothing.cpp:704-708 and 725-729): a sharp dihedral, a flat/non-flat
transition, or two flat faces from different source faces. -/
def faceBoundary (m : MMesh) (minSharpAngle : ℝ) (flat : List Bool)
    (face prevFace : ℤ) : Prop :=
  dihedralDeg m face prevFace > minSharpAngle ∨
  getZ flat false face ≠ getZ flat false prevFace ∨
  (getZ flat false face ∧ getZ flat false prevFace ∧
    ¬ (getZ m.triRef default face).SameFace (getZ m.triRef default prevFace))

/-- The per-vertex sharp-edge count of `SetNormals` (smoothing.cpp:623-646):
sharp dihedrals count toward both endpoints; an edge that splits flat faces
counts at an endpoint sitting on several flat faces. -/
def vertNumSharp (m : MMesh) (minSharpAngle : ℝ) (flat : List Bool)
    (vff : List ℤ) : List ℤ :=
  (List.range m.halfedge.length).foldl
    (fun vns e =>
      let h := getZ m.halfedge default (e : ℤ)
      if h.IsForward then
        let tri1 := (e : ℤ) / 3
        let tri2 := h.pairedHalfedge / 3
        if dihedralDeg m tri1 tri2 > minSharpAngle then
          let a := setZ vns h.startVert (getZ vns 0 h.startVert + 1)
          setZ a h.endVert (getZ a 0 h.endVert + 1)
        else
          let faceSplit := getZ flat false tri1 ≠ getZ flat false tri2 ∨
            (getZ flat false tri1 ∧ getZ flat false tri2 ∧
              ¬ (getZ m.triRef default tri1).SameFace
                (getZ m.triRef default tri2))
          let a := if getZ vff 0 h.startVert = -2 ∧ faceSplit then
            setZ vns h.startVert (getZ vns 0 h.startVert + 1) else vns
          if getZ vff 0 h.endVert = -2 ∧ faceSplit then
            setZ a h.endVert (getZ a 0 h.endVert + 1) else a
      else vns)
    (List.replicate m.numVert 0)

/-- `std::copy` of a property row (smoothing.cpp:683-685 etc.). -/
def copyRow (src : List ℝ) (srcBase : ℤ) (count : ℕ) (dst : List ℝ)
    (dstBase : ℤ) : List ℝ :=
  (List.range count).foldl
    (fun d k => setZ d (dstBase + (k : ℕ)) (getZ src 0 (srcBase + (k : ℕ)))) dst

/-- The three normal-component writes into a property row
(smoothing.cpp:686-688 etc.). -/
def writeNormal (props : List ℝ) (base : ℤ) (normal : R3) : List ℝ :=
  ([0, 1, 2] : List (Fin 3)).foldl
    (fun pr i => setZ pr (base + (i : ℕ)) (normal i)) props

/-- The smooth-vertex fan walk of `SetNormals` (smoothing.cpp:674-689):
copy each distinct property vertex forward once and overwrite its normal
slot. -/
def smoothWalk (m : MMesh) (oldTriProp : List I3) (oldProperties : List ℝ)
    (oldNumProp numProp normalIdx : ℤ) (normal : R3) (startEdge : ℤ) :
    ℕ → ℤ → ℤ → List I3 × List ℝ → Except PErr (List I3 × List ℝ)
  | 0, _, _, _ => .error .fuel
  | fuel + 1, current, lastProp, (tp, props) =>
    let current' := nextHalfedge (getZ m.halfedge default current).pairedHalfedge
    let thisTri := current' / 3
    let j := current' % 3
    let prop := getZ oldTriProp (fun _ => -1) thisTri (idx3 j)
    let tp' := setZ tp thisTri
      (Function.update (getZ tp (fun _ => -1) thisTri) (idx3 j) prop)
    if prop = lastProp then
      if current' = startEdge then .ok (tp', props)
      else smoothWalk m oldTriProp oldProperties oldNumProp numProp normalIdx
        normal startEdge fuel current' lastProp (tp', props)
    else
      let props' := writeNormal
        (copyRow oldProperties (prop * oldNumProp) oldNumProp.toNat props
          (prop * numProp))
        (prop * numProp + normalIdx) normal
      if current' = startEdge then .ok (tp', props')
      else smoothWalk m oldTriProp oldProperties oldNumProp numProp normalIdx
        normal startEdge fuel current' prop (tp', props')

/-- Phase one of the creased-vertex walk (smoothing.cpp:698-713): advance to
a group boundary (or all the way around), returning the end edge and the
face preceding it. -/
def creasedFind (m : MMesh) (minSharpAngle : ℝ) (flat : List Bool)
    (startEdge : ℤ) : ℕ → ℤ → ℤ → Except PErr (ℤ × ℤ)
  | 0, _, _ => .error .fuel
  | fuel + 1, current, prevFace =>
    let next := nextHalfedge (getZ m.halfedge default current).pairedHalfedge
    let face := (getZ m.halfedge default next).face
    if faceBoundary m minSharpAngle flat face prevFace then .ok (current, prevFace)
    else if next = startEdge then .ok (next, face)
    else creasedFind m minSharpAngle flat startEdge fuel next face

/-- Phase two of the creased-vertex walk (smoothing.cpp:715-747): group the
fan at each boundary and accumulate an angle-weighted normal per group
(`normals.back()` on an empty list—no boundary at the first step—is the
modelled failure), then unsafely normalize each group normal. -/
def creasedCollect (m : MMesh) (minSharpAngle : ℝ) (flat : List Bool)
    (centerPos : R3) (endEdge : ℤ) :
    ℕ → ℤ → ℤ → R3 → List ℤ → List R3 → Except PErr (List ℤ × List R3)
  | 0, _, _, _, _, _ => .error .fuel
  | fuel + 1, current, prevFace, prevEdgeVec, group, normals =>
    let current' := nextHalfedge (getZ m.halfedge default current).pairedHalfedge
    let face := (getZ m.halfedge default current').face
    let normals1 := if faceBoundary m minSharpAngle flat face prevFace then
      normals ++ [(fun _ => 0 : R3)] else normals
    match normals1.getLast? with
    | none => .error .oob
    | some lastNormal =>
      let group' := group ++ [(normals1.length : ℤ) - 1]
      let edgeVec := normalizeR3 (fun i =>
        getZ m.vertPos (fun _ => 0)
          (getZ m.halfedge default current').endVert i - centerPos i)
      let d := dot3 prevEdgeVec edgeVec
      let phi : ℝ := if d ≥ 1 then 0 else if d ≤ -1 then Real.pi
        else Real.arccos d
      let normals' := normals1.dropLast ++
        [(fun i => lastNormal i + getZ m.faceNormal (fun _ => 0) face i * phi : R3)]
      if current' = endEdge then .ok (group', normals'.map normalizeR3)
      else creasedCollect m minSharpAngle flat centerPos endEdge fuel current'
        face edgeVec group' normals'

/-- Phase three of the creased-vertex walk (smoothing.cpp:749-783): assign
property vertices around the fan, allocating a fresh property vertex the
first time a group changes under an unchanged incoming property id. -/
def creasedAssign (m : MMesh) (oldTriProp : List I3) (oldProperties : List ℝ)
    (oldNumProp numProp normalIdx : ℤ) (group : List ℤ) (normals : List R3)
    (endEdge : ℤ) :
    ℕ → ℤ → ℤ → ℤ → ℤ → ℕ → List I3 × List ℝ → Except PErr (List I3 × List ℝ)
  | 0, _, _, _, _, _, _ => .error .fuel
  | fuel + 1, current, lastGroup, lastProp, newProp, idx, (tp, props) =>
    let current' := nextHalfedge (getZ m.halfedge default current).pairedHalfedge
    let thisTri := current' / 3
    let j := current' % 3
    let prop := getZ oldTriProp (fun _ => -1) thisTri (idx3 j)
    let groupIdx := getZ group 0 (idx : ℕ)
    let step : ℤ × ℤ × ℤ × List ℝ :=
      if groupIdx ≠ lastGroup ∧ groupIdx ≠ 0 ∧ prop = lastProp then
        let np := (props.length : ℤ) / numProp
        let props1 := props ++ List.replicate numProp.toNat 0
        let props2 := writeNormal
          (copyRow oldProperties (prop * oldNumProp) oldNumProp.toNat props1
            (np * numProp))
          (np * numProp + normalIdx) (getZ normals (fun _ => 0) groupIdx)
        (groupIdx, lastProp, np, props2)
      else if prop ≠ lastProp then
        let props2 := writeNormal
          (copyRow oldProperties (prop * oldNumProp) oldNumProp.toNat props
            (prop * numProp))
          (prop * numProp + normalIdx) (getZ normals (fun _ => 0) groupIdx)
        (lastGroup, prop, prop, props2)
      else (lastGroup, lastProp, newProp, props)
    let tp' := setZ tp thisTri
      (Function.update (getZ tp (fun _ => -1) thisTri) (idx3 j) step.2.2.1)
    if current' = endEdge then .ok (tp', step.2.2.2)
    else creasedAssign m oldTriProp oldProperties oldNumProp numProp normalIdx
      group normals endEdge fuel current' step.1 step.2.1 step.2.2.1 (idx + 1)
      (tp', step.2.2.2)

/-- `Manifold::Impl::SetNormals` (smoothing.cpp:614-787). -/
def setNormals (fuel : ℕ) (m : MMesh) (normalIdx : ℤ) (minSharpAngle : ℝ) :
    Except PErr MMesh :=
  if m.isEmpty then .ok m
  else if normalIdx < 0 then .ok m
  else
    let oldNumProp := m.numProp
    let numTri := m.numTri
    let triIsFlatFace := flatFaces m
    let vff := vertFlatFace m triIsFlatFace
    let vns := vertNumSharp m minSharpAngle triIsFlatFace vff
    let numProp := max oldNumProp (normalIdx + 3)
    let oldProperties := m.properties
    let props0 : List ℝ := List.replicate (numProp * m.numPropVert).toNat 0
    let oldTriProp : List I3 := if m.triProperties.length = 0 then
      (List.range numTri).map (fun tri => fun j =>
        (getZ m.halfedge default (3 * tri + (j : ℕ))).startVert)
      else m.triProperties
    let tp0 : List I3 := List.replicate numTri (fun _ => -1)
    match (List.range (3 * numTri)).foldl
      (fun (acc : Except PErr (List I3 × List ℝ)) c =>
        match acc with
        | .error e => .error e
        | .ok (tp, props) =>
          if 0 ≤ getZ tp (fun _ => -1) ((c : ℤ) / 3) (idx3 ((c : ℤ) % 3)) then
            .ok (tp, props)
          else
            let startEdge : ℤ := (c : ℤ)
            let vert := (getZ m.halfedge default startEdge).startVert
            if getZ vns 0 vert < 2 then
              let normal := if 0 ≤ getZ vff 0 vert then
                getZ m.faceNormal (fun _ => 0) (getZ vff 0 vert)
                else getZ m.vertNormal (fun _ => 0) vert
              smoothWalk m oldTriProp oldProperties oldNumProp numProp
                normalIdx normal startEdge fuel startEdge (-1) (tp, props)
            else
              let centerPos := getZ m.vertPos (fun _ => 0) vert
              match creasedFind m minSharpAngle triIsFlatFace startEdge fuel
                startEdge (getZ m.halfedge default startEdge).face with
              | .error e => .error e
              | .ok (endEdge, prevFace) =>
                let prevEdgeVec := normalizeR3 (fun i =>
                  getZ m.vertPos (fun _ => 0)
                    (getZ m.halfedge default endEdge).endVert i - centerPos i)
                match creasedCollect m minSharpAngle triIsFlatFace centerPos
                  endEdge fuel endEdge prevFace prevEdgeVec [] [] with
                | .error e => .error e
                | .ok (group, normals) =>
                  creasedAssign m oldTriProp oldProperties oldNumProp numProp
                    normalIdx group normals endEdge fuel endEdge 0 (-1) (-1) 0
                    (tp, props))
      (.ok (tp0, props0)) with
    | .error e => .error e
    | .ok (tp, props) =>
      .ok { m with numProp := numProp, triProperties := tp, properties := props }

end

end SetNormalsModel

/-! ## CreateTangents, normal-driven (smoothing.cpp:512-522, 88-106,
797-865) -/

/-- Cross product of real 3-vectors. -/
noncomputable def cross3 (a b : R3) : R3 :=
  ![a 1 * b 2 - a 2 * b 1, a 2 * b 0 - a 0 * b 2, a 0 * b 1 - a 1 * b 0]

/-- Modelled from the spec: the library tolerance used to compare property
normals across a corner (a small positive constant from the collaborator
headers). -/
noncomputable def kTolerance : ℝ := 1 / 100000

/-- `Manifold::Impl::GetNormal` (smoothing.cpp:512-522): read the 3 floats
at offset `normalIdx` of the property vertex at the corner of `halfedge`. -/
noncomputable def getNormal (m : MMesh) (halfedge normalIdx : ℤ) : R3 :=
  let tri := halfedge / 3
  let j := halfedge % 3
  let prop := getZ m.triProperties (fun _ => 0) tri (idx3 j)
  fun i => getZ m.properties 0 (prop * m.numProp + normalIdx + (i : ℕ))

/-- Modelled from the spec: `ForVert` (collaborator) — the outgoing
half-edge fan of `start`'s tail vertex in walk order
(`current ← NextHalfedge(paired(current))`), ending when the walk returns
to `start`. -/
def fanList (halfedge_ : List Halfedge) (start : ℤ) :
    ℕ → ℤ → List ℤ → Except PErr (List ℤ)
  | 0, _, _ => .error .fuel
  | fuel + 1, current, acc =>
    let next := nextHalfedge (getZ halfedge_ default current).pairedHalfedge
    if next = start then .ok (acc ++ [current])
    else fanList halfedge_ start fuel next (acc ++ [current])

section CreateTangentsModel

open Classical

noncomputable section

/-- The detection callback of `CreateTangents(int)` (smoothing.cpp:814-831)
folded over a vertex fan: record up to two half-edges where the property
normal changes to the next corner's; a third discovery invalidates slot 0.
Also returns the last assigned `lastNormal`. -/
def detectSharp (m : MMesh) (normalIdx : ℤ) (fan : List ℤ)
    (sharp0 : ℤ × ℤ) (lastNormal0 : R3) : (ℤ × ℤ) × R3 :=
  (fan.zip (fan.rotateLeft 1)).foldl
    (fun (acc : (ℤ × ℤ) × ℕ × R3) hp =>
      let normal := getNormal m hp.1 normalIdx
      let nextNormal := getNormal m hp.2 normalIdx
      let diff : R3 := fun i => nextNormal i - normal i
      let acc' :=
        if dot3 diff diff > kTolerance * kTolerance then
          if acc.2.1 > 1 then ((-1, acc.1.2), acc.2.1, acc.2.2)
          else if acc.2.1 = 0 then ((hp.1, acc.1.2), 1, acc.2.2)
          else ((acc.1.1, hp.1), 2, acc.2.2)
        else acc
      (acc'.1, acc'.2.1, normal))
    (sharp0, 0, lastNormal0)
  |> fun r => (r.1, r.2.2)

/-- The `SmoothBezier` kernel (smoothing.cpp:88-106): the circular-arc
tangent along a half-edge, from the mean of the two adjacent face normals
and the vertex normal at the tail. -/
def smoothBezierTangent (m : MMesh) (vertNormal : List R3) (h : ℤ) : R4 :=
  let edge := getZ m.halfedge default h
  let edgeVec : R3 := fun i =>
    getZ m.vertPos (fun _ => 0) edge.endVert i -
    getZ m.vertPos (fun _ => 0) edge.startVert i
  let edgeNormal : R3 := fun i =>
    (getZ m.faceNormal (fun _ => 0) edge.face i +
      getZ m.faceNormal (fun _ => 0)
        (getZ m.halfedge default edge.pairedHalfedge).face i) / 2
  let dir := cross3 (cross3 edgeNormal edgeVec)
    (getZ vertNormal (fun _ => 0) edge.startVert)
  circularTangent dir edgeVec

/-- One iteration of the sharp-half-edge recording pass of
`CreateTangents(int)` (smoothing.cpp:803-832): skip the half-edge when its
tail vertex already has both slots filled, otherwise run the detection
callback over the vertex fan. -/
def detectVertStep (m : MMesh) (normalIdx : ℤ) (fuel : ℕ)
    (p : List (ℤ × ℤ) × List R3) (e : ℕ) :
    Except PErr (List (ℤ × ℤ) × List R3) :=
  let vertSharp := p.1
  let vertNormal := p.2
  let vert := (getZ m.halfedge default ((e : ℕ) : ℤ)).startVert
  let sharp := getZ vertSharp (-1, -1) vert
  if 0 ≤ sharp.1 ∧ 0 ≤ sharp.2 then .ok (vertSharp, vertNormal)
  else
    match fanList m.halfedge ((e : ℕ) : ℤ) fuel ((e : ℕ) : ℤ) [] with
    | .error err => .error err
    | .ok fan =>
      let r := detectSharp m normalIdx fan sharp
        (getZ vertNormal (fun _ => 0) vert)
      .ok (setZ vertSharp vert r.1, setZ vertNormal vert r.2)

/-- The sharp-half-edge recording pass of `CreateTangents(int)`
(smoothing.cpp:803-832): one `ForVert` walk per outgoing half-edge of each
vertex whose two slots are not yet filled. -/
def detectVertSharp (m : MMesh) (normalIdx : ℤ) (fuel : ℕ) :
    Except PErr (List (ℤ × ℤ) × List R3) :=
  (List.range m.halfedge.length).foldl
    (estep (detectVertStep m normalIdx fuel))
    (.ok (List.replicate m.numVert ((-1, -1) : ℤ × ℤ),
          List.replicate m.numVert ((fun _ => 0) : R3)))

/-- One vertex of the crease pass of `CreateTangents(int)`
(smoothing.cpp:834-864): skip smooth vertices, flatten the fan of a
degenerate (colinear-normal) crease to the smooth tangents, rewrite the
tangents of a genuine crease, or sharpen the vertex uniformly when only the
second slot is filled. -/
def tangentVertStep (fuel : ℕ) (m : MMesh) (normalIdx : ℤ)
    (vertSharp : List (ℤ × ℤ)) (tangent : List R4) (vert : ℕ) :
    Except PErr (List R4) :=
  let first := (getZ vertSharp (-1, -1) ((vert : ℕ) : ℤ)).1
  let second := (getZ vertSharp (-1, -1) ((vert : ℕ) : ℤ)).2
  if second = -1 then .ok tangent
  else if first ≠ -1 then -- Make continuous edge
    let crossN := cross3 (getNormal m first normalIdx)
      (getNormal m second normalIdx)
    let newTangent := normalizeR3 crossN
    -- `!isfinite(newTangent[0])`: normalize is non-finite exactly
    -- when the cross product is zero-length
    if length3 crossN = 0 then .ok tangent
    else
      let pos := getZ m.vertPos (fun _ => 0) (vert : ℤ)
      let t1 := setZ tangent first (circularTangent newTangent
        (fun i => getZ m.vertPos (fun _ => 0)
          (getZ m.halfedge default first).endVert i - pos i))
      let t2 := setZ t1 second (circularTangent
        (fun i => -newTangent i)
        (fun i => getZ m.vertPos (fun _ => 0)
          (getZ m.halfedge default second).endVert i - pos i))
      match fanList m.halfedge first fuel first [] with
      | .error e => .error e
      | .ok fan =>
        .ok (fan.foldl (fun t current =>
          if current ≠ first ∧ current ≠ second then
            setZ t current (fun _ => 0)
          else t) t2)
  else -- Sharpen vertex uniformly
    match fanList m.halfedge first fuel first [] with
    | .error e => .error e
    | .ok fan =>
      .ok (fan.foldl (fun t current => setZ t current (fun _ => 0))
        tangent)

/-- `Manifold::Impl::CreateTangents(int normalIdx)` (smoothing.cpp:797-865):
smooth circular-arc tangents constrained to the property normals, with
crease handling at vertices holding recorded sharp half-edges. -/
def createTangentsNormal (fuel : ℕ) (m : MMesh) (normalIdx : ℤ) :
    Except PErr MMesh :=
  let numHalfedge := m.halfedge.length
  -- halfedgeTangent_.resize(numHalfedge) is subsumed by the SmoothBezier
  -- pass below, which writes every one of the numHalfedge slots
  match detectVertSharp m normalIdx fuel with
  | .error e => .error e
  | .ok (vertSharp, vertNormal) =>
    let smooth := (List.range numHalfedge).map
      (fun (h : ℕ) => smoothBezierTangent m vertNormal ((h : ℕ) : ℤ))
    match (List.range m.numVert).foldl
      (estep (tangentVertStep fuel m normalIdx vertSharp))
      (.ok smooth) with
    | .error e => .error e
    | .ok tangent => .ok { m with halfedgeTangent := tangent }

end

end CreateTangentsModel

/-! ## CreateTangents, edge-list-driven (smoothing.cpp:876-978) -/

/-- `Smoothness` (spec §6): a half-edge with a smoothing factor in `[0,1]`. -/
structure Smoothness where
  halfedge : ℤ
  smoothness : ℝ

/-- Sorted-insertion into an association list ordered by key: the model of
`std::map`'s ordered insert; `f` combines with an existing entry. -/
def mapInsertWith {α : Type} (k : ℤ) (v : α) (f : α → α) :
    List (ℤ × α) → List (ℤ × α)
  | [] => [(k, v)]
  | (k', v') :: rest =>
    if k < k' then (k, v) :: (k', v') :: rest
    else if k = k' then (k', f v') :: rest
    else (k', v') :: mapInsertWith k v f rest

section CreateTangentsEdgeModel

open Classical

noncomputable section

/-- The `SmoothHalf` closure of `CreateTangents(vector<Smoothness>)`
(smoothing.cpp:950-956): scale the tangents strictly between two sharpened
half-edges of a fan. -/
def smoothHalf (halfedge_ : List Halfedge) (smoothness : ℝ) (last : ℤ) :
    ℕ → ℤ → List R4 → Except PErr (List R4)
  | 0, _, _ => .error .fuel
  | fuel + 1, current, tangent =>
    if current = last then .ok tangent
    else smoothHalf halfedge_ smoothness last fuel
      (nextHalfedge (getZ halfedge_ default current).pairedHalfedge)
      (setZ tangent current (fun i => smoothness * getZ tangent (fun _ => 0) current i))

/-- The uniform vertex-sharpening walk of `CreateTangents(vector<Smoothness>)`
(smoothing.cpp:970-975): scale every tangent around a vertex. -/
def scaleFan (halfedge_ : List Halfedge) (smoothness : ℝ) (start : ℤ) :
    ℕ → ℤ → List R4 → Except PErr (List R4)
  | 0, _, _ => .error .fuel
  | fuel + 1, current, tangent =>
    let tangent' := setZ tangent current
      (fun i => smoothness * getZ tangent (fun _ => 0) current i)
    let next := nextHalfedge (getZ halfedge_ default current).pairedHalfedge
    if next = start then .ok tangent'
    else scaleFan halfedge_ smoothness start fuel next tangent'

/-- `Manifold::Impl::CreateTangents(std::vector<Smoothness>)`
(smoothing.cpp:876-978): smooth tangents from vertex normals (locked to flat
faces), then sharpen the user-marked edges and the flat-face boundaries. -/
def createTangentsEdges (fuel : ℕ) (m : MMesh)
    (sharpenedEdges : List Smoothness) : Except PErr MMesh :=
  let numHalfedge := m.halfedge.length
  let triIsFlatFace := flatFaces m
  let vff := vertFlatFace m triIsFlatFace
  let vertNormal : List R3 := (List.range m.vertNormal.length).map fun v =>
    if 0 ≤ getZ vff 0 (v : ℤ) then
      getZ m.faceNormal (fun _ => 0) (getZ vff 0 (v : ℤ))
    else getZ m.vertNormal (fun _ => 0) (v : ℤ)
  let smooth := (List.range numHalfedge).map
    (fun h => smoothBezierTangent m vertNormal (h : ℤ))
  -- Add sharpened edges around faces, just on the face side.
  let allSharp := sharpenedEdges ++
    ((List.range m.numTri).map (fun tri =>
      if getZ triIsFlatFace false (tri : ℤ) then
        ([0, 1, 2] : List (Fin 3)).filterMap (fun j =>
          let tri2 := (getZ m.halfedge default
            (3 * tri + (j : ℕ))).pairedHalfedge / 3
          if ¬ getZ triIsFlatFace false tri2 ∨
            ¬ (getZ m.triRef default (tri : ℤ)).SameFace
              (getZ m.triRef default tri2) then
            some ⟨3 * tri + (j : ℕ), 0⟩ else none)
      else [])).flatten
  if allSharp.isEmpty then .ok { m with halfedgeTangent := smooth }
  else
    -- Fill in missing pairs with default smoothness = 1.
    let edges : List (ℤ × Smoothness × Smoothness) := allSharp.foldl
      (fun acc edge =>
        if edge.smoothness ≥ 1 then acc
        else
          let forward := (getZ m.halfedge default edge.halfedge).IsForward
          let pair := (getZ m.halfedge default edge.halfedge).pairedHalfedge
          let idxKey := if forward then edge.halfedge else pair
          let fresh : Smoothness × Smoothness :=
            if forward then (edge, ⟨pair, 1⟩) else (⟨pair, 1⟩, edge)
          mapInsertWith idxKey fresh (fun p =>
            if forward then
              (⟨p.1.halfedge, min edge.smoothness p.1.smoothness⟩, p.2)
            else
              (p.1, ⟨p.2.halfedge, min edge.smoothness p.2.smoothness⟩)) acc)
      []
    let vertTangents : List (ℤ × List (Smoothness × Smoothness)) :=
      edges.foldl
        (fun acc kv =>
          let p := kv.2
          let acc1 := mapInsertWith
            (getZ m.halfedge default p.1.halfedge).startVert [p] (· ++ [p]) acc
          mapInsertWith (getZ m.halfedge default p.2.halfedge).startVert
            [(p.2, p.1)] (· ++ [(p.2, p.1)]) acc1)
        []
    vertTangents.foldl
      (fun (acc : Except PErr (List R4)) kv =>
        match acc with
        | .error e => .error e
        | .ok tangent =>
          let vert := kv.2
          -- Sharp edges that end are smooth at their terminal vert.
          if vert.length = 1 then .ok tangent
          else if vert.length = 2 then -- Make continuous edge
            match vert with
            | v0 :: v1 :: _ =>
              let first := v0.1.halfedge
              let second := v1.1.halfedge
              let newTangent := normalizeR3 (fun i =>
                getZ tangent (fun _ => 0) first ⟨(i : ℕ), by omega⟩ -
                getZ tangent (fun _ => 0) second ⟨(i : ℕ), by omega⟩)
              let pos := getZ m.vertPos (fun _ => 0)
                (getZ m.halfedge default first).startVert
              let t1 := setZ tangent first (circularTangent newTangent
                (fun i => getZ m.vertPos (fun _ => 0)
                  (getZ m.halfedge default first).endVert i - pos i))
              let t2 := setZ t1 second (circularTangent
                (fun i => -newTangent i)
                (fun i => getZ m.vertPos (fun _ => 0)
                  (getZ m.halfedge default second).endVert i - pos i))
              match smoothHalf m.halfedge
                ((v0.2.smoothness + v1.1.smoothness) / 2) second fuel
                (nextHalfedge (getZ m.halfedge default first).pairedHalfedge)
                t2 with
              | .error e => .error e
              | .ok t3 =>
                smoothHalf m.halfedge
                  ((v1.2.smoothness + v0.1.smoothness) / 2) first fuel
                  (nextHalfedge
                    (getZ m.halfedge default second).pairedHalfedge) t3
            | _ => .ok tangent
          else -- Sharpen vertex uniformly
            let smoothness : ℝ := (vert.foldl
              (fun (s : ℝ) p => s + p.1.smoothness + p.2.smoothness) 0) /
              (2 * (vert.length : ℝ))
            match vert with
            | v0 :: _ =>
              scaleFan m.halfedge smoothness v0.1.halfedge fuel v0.1.halfedge
                tangent
            | _ => .ok tangent)
      (.ok smooth)
    |> fun r => match r with
      | .error e => .error e
      | .ok tangent => .ok { m with halfedgeTangent := tangent }

end

end CreateTangentsEdgeModel

/-! ## InterpTri and Refine (smoothing.cpp:108-201, 1216-1234) -/

noncomputable section

/-- `OrthogonalTo` (smoothing.cpp:31-34). -/
def orthogonalTo (v ref : R3) : R3 := fun i => v i - dot3 v ref * ref i

/-- `InterpTri::Homogeneous(vec4)` (smoothing.cpp:113-118). -/
def homogeneous4 (v : R4) : R4 := ![v 0 * v 3, v 1 * v 3, v 2 * v 3, v 3]

/-- `InterpTri::Homogeneous(vec3)` (smoothing.cpp:120). -/
def homogeneous3 (v : R3) : R4 := ![v 0, v 1, v 2, 1]

/-- `InterpTri::HNormalize` (smoothing.cpp:122). -/
def hNormalize (v : R4) : R3 := ![v 0 / v 3, v 1 / v 3, v 2 / v 3]

/-- `InterpTri::Bezier` (smoothing.cpp:124-126). -/
def bezierPt (point : R3) (tangent : R4) : R4 :=
  homogeneous4 ![point 0 + tangent 0, point 1 + tangent 1, point 2 + tangent 2,
    tangent 3]

/-- `InterpTri::CubicBezier2Linear` (smoothing.cpp:128-135). -/
def cubicBezier2Linear (p0 p1 p2 p3 : R4) (x : ℝ) : R4 × R4 :=
  let p12 := mixR4 p1 p2 x
  (mixR4 (mixR4 p0 p1 x) p12 x, mixR4 p12 (mixR4 p2 p3 x) x)

/-- `InterpTri::BezierPoint` (smoothing.cpp:137-139). -/
def bezierPoint (points : R4 × R4) (x : ℝ) : R3 :=
  hNormalize (mixR4 points.1 points.2 x)

/-- `InterpTri::BezierTangent` (smoothing.cpp:141-143); `glm::normalize` is
the unsafe normalize. -/
def bezierTangent (points : R4 × R4) : R3 :=
  normalizeR3 (fun i => hNormalize points.2 i - hNormalize points.1 i)

/-- `glm::mix` on real 3-vectors. -/
def mixR3 (x y : R3) (a : ℝ) : R3 := fun i => x i + a * (y i - x i)

/-- The xyz part of a 4-vector. -/
def xyz (v : R4) : R3 := fun i => v ⟨(i : ℕ), by omega⟩

/-- The `InterpTri` kernel (smoothing.cpp:145-200): evaluate the PN-triangle
patch of source triangle `b.tri` at barycentric `b.uvw`, from the twelve
half-edge tangents of the triangle. -/
def interpTri (old : MMesh) (b : Barycentric) : R3 :=
  let tri := b.tri
  let uvw : Fin 3 → ℝ := fun i => ((b.uvw i : ℚ) : ℝ)
  let corners : Fin 3 → R3 := fun j =>
    getZ old.vertPos (fun _ => 0)
      (getZ old.halfedge default (3 * tri + (j : ℕ))).startVert
  if uvw 0 = 1 then corners 0
  else if uvw 1 = 1 then corners 1
  else if uvw 2 = 1 then corners 2
  else
    let tangentR : Fin 3 → R4 := fun j =>
      getZ old.halfedgeTangent (fun _ => 0) (3 * tri + (j : ℕ))
    let tangentL : Fin 3 → R4 := fun j =>
      getZ old.halfedgeTangent (fun _ => 0)
        (getZ old.halfedge default (3 * tri + (((j : ℕ) + 2) % 3))).pairedHalfedge
    let contrib : Fin 3 → R4 := fun i =>
      let j : Fin 3 := ⟨((i : ℕ) + 1) % 3, by omega⟩
      let k : Fin 3 := ⟨((i : ℕ) + 2) % 3, by omega⟩
      let x := uvw k / (1 - uvw i)
      let bez := cubicBezier2Linear (homogeneous3 (corners j))
        (bezierPt (corners j) (tangentR j))
        (bezierPt (corners k) (tangentL k)) (homogeneous3 (corners k)) x
      let pEnd := bezierPoint bez x
      let tangent := bezierTangent bez
      let jBitangent := safeNormalize (orthogonalTo (xyz (tangentL j))
        (safeNormalize (xyz (tangentR j))))
      let kBitangent := safeNormalize (orthogonalTo (xyz (tangentR k))
        (fun c => -(safeNormalize (xyz (tangentL k)) c)))
      let normal := safeNormalize
        (cross3 (mixR3 jBitangent kBitangent x) tangent)
      let delta := orthogonalTo (mixR3 (xyz (tangentL j)) (xyz (tangentR k)) x)
        normal
      let deltaW := tangentL j 3 + x * (tangentR k 3 - tangentL j 3)
      let bez1 := cubicBezier2Linear (homogeneous3 pEnd)
        (homogeneous4 ![pEnd 0 + delta 0, pEnd 1 + delta 1, pEnd 2 + delta 2,
          deltaW])
        (bezierPt (corners i) (mixR4 (tangentR i) (tangentL i) x))
        (homogeneous3 (corners i)) (uvw i)
      let p := bezierPoint bez1 (uvw i)
      let w := uvw j * uvw j * uvw k * uvw k
      homogeneous4 ![p 0, p 1, p 2, w]
    hNormalize (fun c =>
      contrib 0 c + contrib 1 c + contrib 2 c)

/-- `Manifold::Impl::Refine` (smoothing.cpp:1216-1234): subdivide, then—if
the old mesh had tangents—replace the linear positions with the
Bézier-interpolated ones.  `freshID` is the value returned by the external
`ReserveIDs(1)`; `InitializeOriginal` (external) is modelled from the spec
as re-pointing every `triRef` at the fresh original ID, and `Finish`
(external) rebuilds collaterals not represented here. -/
def refine (fuel : ℕ) (m : MMesh) (edgeDivisions : R3 → ℤ) (freshID : ℤ) :
    Except PErr MMesh :=
  if m.isEmpty then .ok m
  else
    let old := m
    match subdivide fuel m edgeDivisions with
    | .error e => .error e
    | .ok s =>
      let m1 : MMesh :=
        { numProp := m.numProp
          vertPos := s.vertPos
          halfedge := halfedgesFromTris s.triVerts
          halfedgeTangent := m.halfedgeTangent
          faceNormal := []
          vertNormal := m.vertNormal
          triRef := s.triRef
          triProperties := s.triProperties
          properties := s.properties }
      if s.vertBary.length = 0 then .ok m1
      else
        let m2 := if old.halfedgeTangent.length = old.halfedge.length then
          { m1 with
            vertPos := s.vertBary.map (interpTri old)
            triRef := (List.range (s.triVerts.length)).map
              (fun t => ⟨freshID, freshID, (t : ℤ)⟩) }
          else m1
        .ok { m2 with halfedgeTangent := [] }

end

/-! ## Concrete meshes used as witnesses -/

/-- The empty mesh: no vertices, no half-edges, no properties. -/
def emptyMesh : MMesh := ⟨0, [], [], [], [], [], [], [], []⟩

/-- The four faces of a tetrahedron on vertices `0..3`. -/
def tetraTris : List I3 := [![0, 2, 1], ![0, 1, 3], ![0, 3, 2], ![1, 2, 3]]

/-- A tetrahedron mesh with four distinct source faces. -/
noncomputable def tetra : MMesh :=
  { numProp := 0
    vertPos := [![0, 0, 0], ![1, 0, 0], ![0, 1, 0], ![0, 0, 1]]
    halfedge := halfedgesFromTris tetraTris
    halfedgeTangent := []
    faceNormal := List.replicate 4 (fun _ => 0)
    vertNormal := List.replicate 4 (fun _ => 0)
    triRef := [⟨0, 0, 0⟩, ⟨0, 0, 1⟩, ⟨0, 0, 2⟩, ⟨0, 0, 3⟩]
    triProperties := []
    properties := [] }

/-- The partition of the undivided triangle `(1,1,1)`. -/
def partition111 : Partition :=
  ⟨![0, 1, 2], fun _ => 1, [baryCorner 0, baryCorner 1, baryCorner 2],
    [![0, 1, 2]]⟩

/-- A barycentric weight vector: componentwise nonnegative, summing to 1. -/
def convexQ (u : Q3) : Prop := (∀ k, 0 ≤ u k) ∧ u 0 + u 1 + u 2 = 1

/-- A `Barycentric` whose weights are convex. -/
def convexB (b : Barycentric) : Prop := convexQ b.uvw

/-- The six permutations that `GetPartition`'s sorting network can produce
as the `idx` field. -/
def validIdx (v : I3) : Prop :=
  v = ![0, 1, 2] ∨ v = ![0, 2, 1] ∨ v = ![1, 0, 2] ∨
  v = ![1, 2, 0] ∨ v = ![2, 0, 1] ∨ v = ![2, 1, 0]

/-- An octahedron: triangles 0, 1, 2 form a strip of three co-referenced
faces around the top vertex (0 and 2 share only a vertex), the rest are
distinct faces. -/
def octaTris : List I3 :=
  [![0, 1, 2], ![0, 2, 3], ![0, 3, 4], ![0, 4, 1],
   ![5, 2, 1], ![5, 3, 2], ![5, 4, 3], ![5, 1, 4]]

/-- The octahedron mesh with a three-triangle co-referenced chain. -/
noncomputable def octa : MMesh :=
  { numProp := 0
    vertPos := List.replicate 6 (fun _ => 0)
    halfedge := halfedgesFromTris octaTris
    halfedgeTangent := []
    faceNormal := List.replicate 8 (fun _ => 0)
    vertNormal := List.replicate 6 (fun _ => 0)
    triRef := [⟨0, 0, 0⟩, ⟨0, 0, 1⟩, ⟨0, 0, 2⟩, ⟨3, 3, 3⟩,
      ⟨4, 4, 4⟩, ⟨5, 5, 5⟩, ⟨6, 6, 6⟩, ⟨7, 7, 7⟩]
    triProperties := []
    properties := [] }

/-- The tetrahedron with exactly one isolated co-referenced adjacent pair
(triangles 0 and 1). -/
noncomputable def tetraPair : MMesh :=
  { tetra with triRef := [⟨0, 0, 0⟩, ⟨0, 0, 1⟩, ⟨1, 1, 2⟩, ⟨2, 2, 3⟩] }

/-- `x` is an in-range half-edge going out of vertex `w`. -/
def OutV (m : MMesh) (w : ℤ) (x : ℤ) : Prop :=
  0 ≤ x ∧ x < (m.halfedge.length : ℤ) ∧
    (getZ m.halfedge default x).startVert = w

/-- The triangle-consistency invariant of the half-edge structure (each
half-edge ends where the next half-edge of its triangle starts); it is part
of `CreateHalfedges`' postcondition. -/
def triConsistent (m : MMesh) : Prop :=
  ∀ i : ℕ, i < m.halfedge.length →
    (m.halfedge.getD i default).endVert =
      (m.halfedge.getD (nextHalfedge (i : ℤ)).toNat default).startVert

instance (m : MMesh) : Decidable (triConsistent m) := by
  unfold triConsistent; infer_instance

/-- Witness mesh: a two-triangle "pillow" (triangles `[0,1,2]` and `[0,2,1]`
over 3 vertices) whose property normals at each vertex are colinear but
unequal across the two triangles (`N` on one side, `2·N` on the other), so
that the detection pass of `CreateTangents(int)` records a sharp pair at
every vertex and the crease pass finds a zero-length cross product at every
vertex. -/
noncomputable def pillow : MMesh where
  numProp := 3
  vertPos := [![0, 0, 0], ![1, 0, 0], ![0, 1, 0]]
  halfedge := [⟨0, 1, 5, 0⟩, ⟨1, 2, 4, 0⟩, ⟨2, 0, 3, 0⟩,
               ⟨0, 2, 2, 1⟩, ⟨2, 1, 1, 1⟩, ⟨1, 0, 0, 1⟩]
  halfedgeTangent := []
  faceNormal := [![0, 0, 1], ![0, 0, -1]]
  vertNormal := []
  triRef := []
  triProperties := [![0, 2, 4], ![1, 5, 3]]
  properties := [1, 0, 0, 2, 0, 0, 0, 1, 0, 0, 2, 0, 0, 0, 1, 0, 0, 2]

/-- The sharp pairs the detection pass records on `pillow`. -/
def pillowVS : List (ℤ × ℤ) := [(0, 3), (1, 5), (2, 4)]

/-- The per-vertex property normals the detection pass records on
`pillow`. -/
noncomputable def pillowVN : List R3 :=
  [getNormal pillow 3 0, getNormal pillow 5 0, getNormal pillow 4 0]

/-- The output of `CreateTangents(0)` on `pillow`: every half-edge keeps its
smooth circular-arc tangent. -/
noncomputable def pillowSmooth : List R4 :=
  (List.range pillow.halfedge.length).map
    (fun (h : ℕ) => smoothBezierTangent pillow pillowVN ((h : ℕ) : ℤ))

noncomputable def pillowOut : MMesh :=
  { pillow with halfedgeTangent := pillowSmooth }

/-! # Theorems -/

/-- C3: for every desired tangent direction `d` and edge vector `e`,
`CircularTangent(d, e)` returns exactly the 4-vector computed by the
procedure of spec §4.A: `û = normalize(d)`; `weight = |û · ê|` with `weight`
replaced by `1` when it equals `0`; `B2 = weight * (û * |e| / (2·weight),
1)`; `B3 = mix((0,0,0,1), B2, 2/3)`; result `(B3.xyz / B3.w, B3.w)`. -/
theorem C3_circularTangent_matches_spec (d e : R3) :
    circularTangent d e = circularTangentSpec d e := by
  funext i
  simp only [circularTangent, circularTangentSpec, smulR4, mixR4]

/-- C10: for every mesh and every negative `normalIdx`,
`SetNormals(normalIdx, minSharpAngle)` returns immediately with the mesh
state (properties, triProperties, numProp, geometry) unchanged. -/
theorem C10_setNormals_negative_normalIdx_noop (fuel : ℕ) (m : MMesh)
    (normalIdx : ℤ) (minSharpAngle : ℝ) (h : normalIdx < 0) :
    setNormals fuel m normalIdx minSharpAngle = .ok m := by
  unfold setNormals
  by_cases he : m.isEmpty
  · simp [he]
  · simp [he, h]

/-- Witness for C10 at a concrete mesh and `normalIdx = -1`. -/
theorem C10_witness :
    (-1 : ℤ) < 0 ∧ setNormals 1 tetra (-1) 30 = .ok tetra :=
  ⟨by decide, C10_setNormals_negative_normalIdx_noop 1 tetra (-1) 30 (by decide)⟩

/-- C2, counterexample: on the empty mesh `Subdivide` is not a clean no-op:
it reads `Vec::back()` of the empty `edgeOffset`/`edgeAdded` vectors
(smoothing.cpp:1010), so no refined mesh is returned. -/
theorem C2_counterexample_subdivide_empty :
    subdivide 1 emptyMesh (fun _ => 0) = .error .oob := rfl

/-- C2, amended: on the empty mesh, `SetNormals`, both `CreateTangents`
overloads, and `Refine` are no-ops that return cleanly with the mesh state
unchanged; `Subdivide` instead fails (it reads the back of empty arrays),
but is unreachable on an empty mesh through `Refine`'s `IsEmpty` guard. -/
theorem C2_empty_mesh_operations (fuel : ℕ) (normalIdx : ℤ)
    (minSharpAngle : ℝ) (fn : R3 → ℤ) (freshID : ℤ) :
    setNormals fuel emptyMesh normalIdx minSharpAngle = .ok emptyMesh ∧
    createTangentsNormal fuel emptyMesh normalIdx = .ok emptyMesh ∧
    createTangentsEdges fuel emptyMesh [] = .ok emptyMesh ∧
    refine fuel emptyMesh fn freshID = .ok emptyMesh ∧
    (subdivide fuel emptyMesh fn).isOk = false :=
  ⟨rfl, rfl, rfl, rfl, rfl⟩

/-- C8: `GetPartition((3,1,1))` returns a partition with exactly 5 vertices
in `vertBary` — the 3 corners followed by the 2 vertices inserted along
edge 0 at `(2/3, 1/3, 0)` and `(1/3, 2/3, 0)` — and exactly 3 triangles in
`triVert`, forming a fan whose apex is vertex 2. -/
theorem C8_partition_3_1_1 :
    ∃ p, getPartition 1 ![3, 1, 1] = .ok p ∧
      p.vertBary = [![1, 0, 0], ![0, 1, 0], ![0, 0, 1],
        ![2/3, 1/3, 0], ![1/3, 2/3, 0]] ∧
      p.triVert = [![0, 3, 2], ![3, 4, 2], ![4, 1, 2]] ∧
      (∀ tv ∈ p.triVert, tv 2 = 2) ∧
      p.idx = ![0, 1, 2] := by
  have hraw : getPartition 1 ![3, 1, 1] = .ok
      ⟨![0, 1, 2], ![3, 1, 1],
        [baryCorner 0, baryCorner 1, baryCorner 2,
          mixQ3 (baryCorner 0) (baryCorner 1)
            ((((0 : ℕ) : ℚ) + 1) / ((3 : ℤ) : ℚ)),
          mixQ3 (baryCorner 0) (baryCorner 1)
            ((((1 : ℕ) : ℚ) + 1) / ((3 : ℤ) : ℚ))],
        [![0, 3, 2], ![3, 4, 2], ![4, 1, 2]]⟩ := rfl
  refine ⟨_, hraw, ?_, by decide, by decide, by decide⟩
  have e1 : ((((0 : ℕ) : ℚ) + 1) / ((3 : ℤ) : ℚ)) = 1 / 3 := by norm_num
  have e2 : ((((1 : ℕ) : ℚ) + 1) / ((3 : ℤ) : ℚ)) = 2 / 3 := by norm_num
  rw [e1, e2]
  show [baryCorner 0, baryCorner 1, baryCorner 2,
    mixQ3 (baryCorner 0) (baryCorner 1) (1 / 3),
    mixQ3 (baryCorner 0) (baryCorner 1) (2 / 3)] = _
  refine List.ext_getElem (by rfl) ?_
  intro n h1 h2
  have h5 : n < 5 := h2
  funext c
  interval_cases n <;> fin_cases c <;>
    norm_num [mixQ3, baryCorner, List.getElem_cons_zero,
      List.getElem_cons_succ, Matrix.cons_val_zero,
      Matrix.cons_val_one, Matrix.head_cons, Fin.ext_iff]

theorem setZ_length {α : Type} (l : List α) (i : ℤ) (a : α) :
    (setZ l i a).length = l.length := by
  unfold setZ; split <;> simp

theorem getZ_replicate {α : Type} (n : ℕ) (v d : α) (i : ℤ) :
    getZ (List.replicate n v) d i = if 0 ≤ i ∧ i.toNat < n then v else d := by
  unfold getZ
  rcases le_or_lt 0 i with h | h
  · simp only [h, if_true, true_and]
    rcases lt_or_le i.toNat n with h2 | h2
    · simp [List.getD, h2, List.getElem?_replicate]
    · simp [List.getD, List.getElem?_eq_none, h2, Nat.not_lt.mpr h2]
  · simp [not_le.mpr h, h.not_le]

theorem getZ_replicate_zero (n : ℕ) (i : ℤ) :
    getZ (List.replicate n (0 : ℤ)) 0 i = 0 := by
  rw [getZ_replicate]; split <;> rfl

theorem exclusiveScan_replicate_zero (n : ℕ) (v : ℤ) :
    exclusiveScan (List.replicate n 0) v = List.replicate n v := by
  induction n generalizing v with
  | zero => rfl
  | succ k ih => simp [List.replicate_succ, exclusiveScan, ih]

theorem getLast?_replicate {α : Type} (n : ℕ) (v : α) (h : n ≠ 0) :
    (List.replicate n v).getLast? = some v := by
  obtain ⟨k, rfl⟩ := Nat.exists_eq_succ_of_ne_zero h
  rw [List.replicate_succ', List.getLast?_concat]

theorem foldl_id {α β : Type} (f : α → β → α) (l : List β) (init : α)
    (h : ∀ a b, b ∈ l → f a b = a) : l.foldl f init = init := by
  induction l generalizing init with
  | nil => rfl
  | cons x xs ih =>
    rw [List.foldl_cons, h init x (by simp)]
    exact ih init (fun a b hb => h a b (by simp [hb]))

theorem foldl_length {α β : Type} (f : List α → β → List α) (l : List β)
    (init : List α) (h : ∀ a b, (f a b).length = a.length) :
    (l.foldl f init).length = init.length := by
  induction l generalizing init with
  | nil => rfl
  | cons x xs ih => rw [List.foldl_cons, ih, h]

theorem mapM_ok_of_forall {α β : Type} (l : List α)
    (f : α → Except PErr β) (g : α → β) (h : ∀ a ∈ l, f a = .ok (g a)) :
    l.mapM f = .ok (l.map g) := by
  induction l with
  | nil => rfl
  | cons x xs ih =>
    rw [List.mapM_cons, h x (by simp), List.map_cons]
    have := ih (fun a ha => h a (by simp [ha]))
    simp only [this]
    rfl

theorem getD_replicate {α : Type} {n k : ℕ} {v d : α} (h : k < n) :
    (List.replicate n v).getD k d = v := by
  simp [List.getD, List.getElem?_replicate, h]

theorem flatten_map_nil {α β : Type} (l : List α) (g : α → List β)
    (h : ∀ a ∈ l, g a = []) : (l.map g).flatten = [] := by
  induction l with
  | nil => rfl
  | cons x xs ih =>
    simp [h x (by simp), ih (fun a ha => h a (by simp [ha]))]

theorem flatten_map_singleton {α β : Type} (l : List α) (g : α → β) :
    (l.map (fun a => [g a])).flatten = l.map g := by
  induction l with
  | nil => rfl
  | cons x xs ih => simp [ih]

theorem map_congr_mem {α β : Type} (l : List α) (f g : α → β)
    (h : ∀ a ∈ l, f a = g a) : l.map f = l.map g := by
  induction l with
  | nil => rfl
  | cons x xs ih =>
    rw [List.map_cons, List.map_cons, h x (by simp),
      ih (fun a ha => h a (by simp [ha]))]

theorem getPartition_ones (fuel : ℕ) :
    getPartition fuel (fun _ => (1 : ℤ)) = .ok partition111 := rfl

theorem reindex_partition111 (tri3 eo : I3) (fwd : B3) (off : ℤ) :
    partition111.reindex tri3 eo fwd off = .ok [![tri3 0, tri3 1, tri3 2]] := by
  have h : partition111.reindex tri3 eo fwd off = .ok
      [Function.update (Function.update (Function.update (![0, 0, 0] : I3)
        (idx3 0) (tri3 0)) (idx3 1) (tri3 1)) (idx3 2) (tri3 2)] := rfl
  rw [h]
  congr 1
  congr 1
  funext c
  fin_cases c <;> simp [Function.update, idx3]

theorem mapM_reindex_replicate (n : ℕ) (t3 eo : ℕ → I3) (fw : ℕ → B3)
    (off : ℕ → ℤ) :
    (List.range n).mapM (fun tri =>
      ((List.replicate n partition111).getD tri default).reindex (t3 tri)
        (eo tri) (fw tri) (off tri)) =
    .ok ((List.range n).map (fun tri => [![t3 tri 0, t3 tri 1, t3 tri 2]])) := by
  refine mapM_ok_of_forall _ _ _ (fun a ha => ?_)
  rw [getD_replicate (List.mem_range.mp ha)]
  exact reindex_partition111 _ _ _ _

theorem createTmpEdges_ne_nil (m : MMesh) (hv : validMesh m)
    (hne : m.halfedge ≠ []) : createTmpEdges m.halfedge ≠ [] := by
  obtain ⟨-, hval, -⟩ := hv
  intro hnil
  have hforward : ∀ i < m.halfedge.length,
      ¬ ((m.halfedge.getD i default).IsForward = true) := by
    intro i hi hf
    have hm := (List.filterMap_eq_nil_iff.mp hnil) i (List.mem_range.mpr hi)
    rw [if_pos hf] at hm
    exact absurd hm (by simp)
  have hlen : 0 < m.halfedge.length := by
    cases hm : m.halfedge with
    | nil => exact absurd hm hne
    | cons a l => simp [hm]
  obtain ⟨-, -, hsne, ⟨hp0, hp1⟩, -, -, -, hps, hpe⟩ := hval 0 hlen
  have hnf0 := hforward 0 hlen
  simp only [Halfedge.IsForward, decide_eq_true_eq] at hnf0
  have hnfp := hforward (m.halfedge.getD 0 default).pairedHalfedge.toNat
    (by omega)
  simp only [Halfedge.IsForward, decide_eq_true_eq] at hnfp
  rw [hps, hpe] at hnfp
  omega

set_option maxHeartbeats 1000000 in
/-- C1 (amended to nonempty meshes): for every mesh with at least one
half-edge that satisfies the manifold half-edge validity conditions,
`Subdivide` with an `edgeDivisions` function returning `0` for every edge
vector succeeds and produces a mesh topologically identical to the input:
the same number of vertices, the same triangle count, and each output
triangle's vertex triple equal to the corresponding input triangle's
vertex triple. -/
theorem C1_subdivide_zero_topology (m : MMesh) (fuel : ℕ) (hv : validMesh m)
    (hne : m.halfedge ≠ []) :
    ∃ out, subdivide fuel m (fun _ => 0) = .ok out ∧
      out.vertPos.length = m.numVert ∧
      out.triVerts.length = m.numTri ∧
      out.triVerts = (List.range m.numTri).map (fun (t : ℕ) =>
        ![(getZ m.halfedge default (3 * (t : ℤ))).startVert,
          (getZ m.halfedge default (3 * (t : ℤ) + 1)).startVert,
          (getZ m.halfedge default (3 * (t : ℤ) + 2)).startVert]) := by
  have hnonnil := createTmpEdges_ne_nil m hv hne
  have hlenE : (createTmpEdges m.halfedge).length ≠ 0 := by
    simpa [List.length_eq_zero] using hnonnil
  simp only [subdivide]
  rw [show ((createTmpEdges m.halfedge).map fun te =>
      (fun _ : R3 => (0 : ℤ)) (fun k =>
        getZ m.vertPos (fun _ => 0) te.first k -
        getZ m.vertPos (fun _ => 0) te.second k)) =
      List.replicate (createTmpEdges m.halfedge).length 0 from
    List.map_const' _ _]
  rw [exclusiveScan_replicate_zero]
  rw [getLast?_replicate _ _ hlenE, getLast?_replicate _ _ hlenE]
  have hdiv : ∀ tri : ℕ, (fun i : Fin 3 =>
      getZ (List.replicate (createTmpEdges m.halfedge).length (0 : ℤ)) 0
        (getZ (buildHalf2Edge m.halfedge (createTmpEdges m.halfedge)) 0
          (3 * (tri : ℤ) + ((i : ℕ) : ℤ))) + 1) = (fun _ => (1 : ℤ)) := by
    intro tri
    funext i
    rw [getZ_replicate_zero]
    norm_num
  have hmapm : (List.range m.numTri).mapM (fun (tri : ℕ) =>
      getPartition fuel (fun i : Fin 3 =>
        getZ (List.replicate (createTmpEdges m.halfedge).length (0 : ℤ)) 0
          (getZ (buildHalf2Edge m.halfedge (createTmpEdges m.halfedge)) 0
            (3 * (tri : ℤ) + ((i : ℕ) : ℤ))) + 1)) =
      .ok (List.replicate m.numTri partition111) := by
    rw [show List.replicate m.numTri partition111 =
        (List.range m.numTri).map (fun _ => partition111) by
      simp [List.map_const']]
    refine mapM_ok_of_forall _ _ _ (fun a _ => ?_)
    rw [hdiv a]
    exact getPartition_ones fuel
  rw [hmapm]
  simp only []
  rw [mapM_reindex_replicate]
  simp only []
  have hFE : ∀ X : List Barycentric, fillEdgeVerts X (createTmpEdges m.halfedge)
      (List.replicate (createTmpEdges m.halfedge).length 0)
      (List.replicate (createTmpEdges m.halfedge).length (m.numVert : ℤ)) = X := by
    intro X
    unfold fillEdgeVerts
    refine foldl_id _ _ _ (fun a b _ => ?_)
    simp only [getZ_replicate_zero, Int.toNat_zero, List.range_zero,
      List.foldl_nil]
  have hFRlen : ∀ X : List Barycentric,
      (fillRetainedVerts X m.halfedge).length = X.length := by
    intro X
    unfold fillRetainedVerts
    refine foldl_length _ _ _ (fun a b => ?_)
    refine foldl_length _ _ _ (fun a' i => ?_)
    exact setZ_length _ _ _
  have htot : ((m.numVert : ℤ) + 0).toNat = m.numVert := by omega
  have hflat : ∀ (g : ℕ → Q3 → Barycentric),
      (List.map (fun tri => List.map (g tri)
        (List.drop ((List.replicate m.numTri partition111).getD tri
            default).interiorOffset.toNat
          ((List.replicate m.numTri partition111).getD tri default).vertBary))
        (List.range m.numTri)).flatten = [] := by
    intro g
    refine flatten_map_nil _ _ (fun a ha => ?_)
    rw [getD_replicate (List.mem_range.mp ha)]
    rfl
  have hlen1 : ∀ (g : ℕ → Q3 → Barycentric),
      (fillEdgeVerts (fillRetainedVerts
          (List.replicate ((m.numVert : ℤ) + 0).toNat default) m.halfedge)
        (createTmpEdges m.halfedge)
        (List.replicate (createTmpEdges m.halfedge).length 0)
        (List.replicate (createTmpEdges m.halfedge).length (m.numVert : ℤ)) ++
        (List.map (fun tri => List.map (g tri)
          (List.drop ((List.replicate m.numTri partition111).getD tri
              default).interiorOffset.toNat
            ((List.replicate m.numTri partition111).getD tri default).vertBary))
          (List.range m.numTri)).flatten).length = m.numVert := by
    intro g
    rw [hFE, hflat]
    simp [hFRlen, htot]
  have hlen2 : ((List.range m.numTri).map (fun tri =>
      [![(subTriData m (buildHalf2Edge m.halfedge (createTmpEdges m.halfedge))
          (List.replicate (createTmpEdges m.halfedge).length (m.numVert : ℤ))
          tri).1 0,
        (subTriData m (buildHalf2Edge m.halfedge (createTmpEdges m.halfedge))
          (List.replicate (createTmpEdges m.halfedge).length (m.numVert : ℤ))
          tri).1 1,
        (subTriData m (buildHalf2Edge m.halfedge (createTmpEdges m.halfedge))
          (List.replicate (createTmpEdges m.halfedge).length (m.numVert : ℤ))
          tri).1 2]])).flatten.length = m.numTri := by
    rw [flatten_map_singleton]
    simp
  have htris : ((List.range m.numTri).map (fun tri =>
      [![(subTriData m (buildHalf2Edge m.halfedge (createTmpEdges m.halfedge))
          (List.replicate (createTmpEdges m.halfedge).length (m.numVert : ℤ))
          tri).1 0,
        (subTriData m (buildHalf2Edge m.halfedge (createTmpEdges m.halfedge))
          (List.replicate (createTmpEdges m.halfedge).length (m.numVert : ℤ))
          tri).1 1,
        (subTriData m (buildHalf2Edge m.halfedge (createTmpEdges m.halfedge))
          (List.replicate (createTmpEdges m.halfedge).length (m.numVert : ℤ))
          tri).1 2]])).flatten =
      (List.range m.numTri).map (fun (t : ℕ) =>
        ![(getZ m.halfedge default (3 * (t : ℤ))).startVert,
          (getZ m.halfedge default (3 * (t : ℤ) + 1)).startVert,
          (getZ m.halfedge default (3 * (t : ℤ) + 2)).startVert]) := by
    rw [flatten_map_singleton]
    refine map_congr_mem _ _ _ (fun a _ => ?_)
    funext c
    fin_cases c <;>
      simp [subTriData, Matrix.cons_val_zero, Matrix.cons_val_one,
        Matrix.head_cons]
  by_cases hp : 0 < m.numProp
  · rw [if_pos hp]
    rw [mapM_reindex_replicate]
    simp only []
    refine ⟨_, rfl, ?_, hlen2, htris⟩
    show (List.map _ _).length = m.numVert
    rw [List.length_map]
    exact hlen1 _
  · rw [if_neg hp]
    refine ⟨_, rfl, ?_, hlen2, htris⟩
    show (List.map _ _).length = m.numVert
    rw [List.length_map]
    exact hlen1 _

/-- C1 counterexample to the unamended claim: on the empty mesh,
`Subdivide(fn -> 0)` does not return a mesh at all (it reads `Vec::back()`
of empty arrays), so the output cannot be topologically identical. -/
theorem C1_counterexample_empty_topology :
    ¬ ∃ out, subdivide 1 emptyMesh (fun _ => 0) = .ok out := by
  rintro ⟨o, h⟩
  rw [show subdivide 1 emptyMesh (fun _ => 0) = .error .oob from rfl] at h
  exact Except.noConfusion h

/-- C1 witness: the amended theorem instantiated at the tetrahedron. -/
theorem C1_witness : ∃ out, subdivide 4 tetra (fun _ => 0) = .ok out ∧
    out.vertPos.length = tetra.numVert ∧
    out.triVerts.length = tetra.numTri ∧
    out.triVerts = (List.range tetra.numTri).map (fun (t : ℕ) =>
      ![(getZ tetra.halfedge default (3 * (t : ℤ))).startVert,
        (getZ tetra.halfedge default (3 * (t : ℤ) + 1)).startVert,
        (getZ tetra.halfedge default (3 * (t : ℤ) + 2)).startVert]) :=
  C1_subdivide_zero_topology tetra 4 (by decide) (by decide)

theorem baryCorner_convex (i : Fin 3) : convexQ (baryCorner i) := by
  constructor
  · intro k
    unfold baryCorner
    split <;> norm_num
  · fin_cases i <;> simp [baryCorner, Fin.ext_iff]

theorem mixQ3_convex {x y : Q3} {a : ℚ} (hx : convexQ x) (hy : convexQ y)
    (h0 : 0 ≤ a) (h1 : a ≤ 1) : convexQ (mixQ3 x y a) := by
  constructor
  · intro k
    have hxk := hx.1 k
    have hyk := hy.1 k
    unfold mixQ3
    nlinarith
  · have hxs := hx.2
    have hys := hy.2
    unfold mixQ3
    nlinarith

theorem mixFactor_bounds (j : ℕ) (n : ℤ) (h : j < n.toNat) :
    0 ≤ ((j : ℚ) + 1) / ((n + 1 : ℤ) : ℚ) ∧
      ((j : ℚ) + 1) / ((n + 1 : ℤ) : ℚ) ≤ 1 := by
  have h1 : (j : ℤ) + 1 < n + 1 := by omega
  have h2 : ((j : ℚ)) + 1 < ((n + 1 : ℤ) : ℚ) := by exact_mod_cast h1
  have hpos : (0 : ℚ) < ((n + 1 : ℤ) : ℚ) := by
    exact_mod_cast (by omega : (0 : ℤ) < n + 1)
  exact ⟨div_nonneg (by positivity) hpos.le, by rw [div_le_one hpos]; linarith⟩

theorem mixFactorDen_bounds (k : ℕ) (n : ℤ) (h : k < (n - 1).toNat) :
    0 ≤ ((k : ℚ) + 1) / ((n : ℤ) : ℚ) ∧
      ((k : ℚ) + 1) / ((n : ℤ) : ℚ) ≤ 1 := by
  have h1 : (k : ℤ) + 1 ≤ n := by omega
  have h2 : ((k : ℚ)) + 1 ≤ ((n : ℤ) : ℚ) := by exact_mod_cast h1
  have hpos : (0 : ℚ) < ((n : ℤ) : ℚ) := by
    exact_mod_cast (by omega : (0 : ℤ) < n)
  exact ⟨div_nonneg (by positivity) hpos.le, by rw [div_le_one hpos]; linarith⟩

theorem getI_mem {α : Type} {l : List α} {i : ℤ} {v : α}
    (h : getI l i = some v) : v ∈ l := by
  unfold getI at h
  split at h
  · cases h
    exact List.get_mem _ _ _
  · cases h

theorem foldl_except_error {σ β : Type} (g : σ → β → Except PErr σ)
    (l : List β) (e : PErr) :
    l.foldl (estep g) (Except.error e) = Except.error e := by
  induction l with
  | nil => rfl
  | cons x xs ih => exact ih

theorem foldl_except_inv {σ β : Type} (P : σ → Prop) (g : σ → β → Except PErr σ)
    (l : List β) : ∀ (b0 b' : σ),
    l.foldl (estep g) (Except.ok b0) = Except.ok b' →
    (∀ b i b'', i ∈ l → g b i = .ok b'' → P b → P b'') → P b0 → P b' := by
  induction l with
  | nil =>
    intro b0 b' h _ h0
    cases h
    exact h0
  | cons x xs ih =>
    intro b0 b' h hstep h0
    rw [List.foldl_cons] at h
    rw [show estep g (Except.ok b0) x = g b0 x from rfl] at h
    cases hg : g b0 x with
    | error e =>
      rw [hg, foldl_except_error] at h
      cases h
    | ok b1 =>
      rw [hg] at h
      exact ih b1 b' h (fun b i b'' hi => hstep b i b'' (by simp [hi]))
        (hstep b0 x b1 (by simp) hg h0)

theorem twoPoint_convex (a b : Fin 3) (t : ℚ) (hab : a ≠ b) (h0 : 0 ≤ t)
    (h1 : t ≤ 1) :
    convexQ (Function.update (Function.update (fun _ => 0) b t) a (1 - t)) := by
  constructor
  · intro k
    rcases eq_or_ne k a with rfl | hka
    · simp [Function.update]
      linarith
    · rcases eq_or_ne k b with rfl | hkb
      · simp [Function.update, hka]
        exact h0
      · simp [Function.update, hka, hkb]
  · fin_cases a <;> fin_cases b <;> simp_all [Function.update]

theorem idx3_ne_next3 (x : ℤ) : idx3 (x % 3) ≠ idx3 (next3 (x % 3)) := by
  have h : x % 3 = 0 ∨ x % 3 = 1 ∨ x % 3 = 2 := by omega
  rcases h with h | h | h <;> rw [h] <;> decide

set_option maxHeartbeats 2000000 in
theorem partitionQuad_convex (fuel : ℕ) : ∀ (st : PState) (cv eo ea : I4)
    (fwd : B4) (st' : PState),
    partitionQuad fuel st cv eo ea fwd = .ok st' →
    (∀ u ∈ st.vertBary, convexQ u) → (∀ u ∈ st'.vertBary, convexQ u) := by
  induction fuel with
  | zero =>
    intro st cv eo ea fwd st' h
    exact absurd h (by simp [partitionQuad])
  | succ fuel ih =>
    intro st cv eo ea fwd st' h hP
    rw [partitionQuad] at h
    simp only [] at h
    split at h
    · cases h
    · split at h
      · split at h
        · cases h
          exact hP
        · cases h
          exact hP
      · split at h
        · cases h
        · rename_i b hbands
          refine ih b.st _ _ _ _ st' h ?_
          refine foldl_except_inv (fun (b : BandState) => ∀ u ∈ b.st.vertBary, convexQ u)
            _ _ _ _ hbands ?_ hP
          intro b0 i b'' hi hstep hPb
          simp only [] at hstep
          split at hstep
          · cases hstep
          · rename_i vb hinner
            split at hstep
            · cases hstep
            · rename_i st2 hrec
              cases hstep
              have hvb : ∀ u ∈ vb, convexQ u := by
                refine foldl_except_inv (fun (l : List Q3) => ∀ u ∈ l, convexQ u)
                  _ _ _ _ hinner ?_ hPb
                intro l j l' hj hg hPl
                split at hg
                · rename_i v1 v2 h1 h2
                  cases hg
                  intro u hu
                  rcases List.mem_append.mp hu with hu | hu
                  · exact hPl u hu
                  · rcases List.mem_singleton.mp hu with rfl
                    have hb := mixFactor_bounds j _ (List.mem_range.mp hj)
                    exact mixQ3_convex (hPl v1 (getI_mem h1))
                      (hPl v2 (getI_mem h2)) hb.1 hb.2
                · cases hg
              exact ih _ _ _ _ _ _ hrec hvb

theorem getCachedPartition_convex (fuel : ℕ) (n : I3) (p : Partition)
    (h : getCachedPartition fuel n = .ok p) : ∀ u ∈ p.vertBary, convexQ u := by
  rw [getCachedPartition] at h
  simp only [] at h
  split at h
  · cases h
  · rename_i vb hvb
    have hcv : ∀ u ∈ vb, convexQ u := by
      refine foldl_except_inv (fun (l : List Q3) => ∀ u ∈ l, convexQ u)
        _ _ _ _ hvb ?_ ?_
      · intro l i l' _ hg hPl
        split at hg
        · rename_i bi nextBary h1 h2
          cases hg
          intro u hu
          rcases List.mem_append.mp hu with hu | hu
          · exact hPl u hu
          · obtain ⟨k, hk, rfl⟩ := List.mem_map.mp hu
            have hb := mixFactorDen_bounds k _ (List.mem_range.mp hk)
            exact mixQ3_convex (hPl _ (getI_mem h1)) (hPl _ (getI_mem h2))
              hb.1 hb.2
        · cases hg
      · intro u hu
        simp only [List.mem_cons, List.not_mem_nil, or_false] at hu
        rcases hu with rfl | rfl | rfl
        · exact baryCorner_convex 0
        · exact baryCorner_convex 1
        · exact baryCorner_convex 2
    split at h
    · split at h
      · cases h
        exact hcv
      · cases h
        exact hcv
    · split at h
      · split at h
        · cases h
        · rename_i st hq
          cases h
          exact partitionQuad_convex fuel _ _ _ _ _ _ hq hcv
      · split at h
        · rename_i middleBary corner2 h1 h2
          have hcv2 : ∀ u ∈ vb ++ (List.range ((obtuseNh n (obtuseNs n)) - 1).toNat).map
              (fun (k : ℕ) => mixQ3 corner2 middleBary
                (((k : ℚ) + 1) / ((obtuseNh n (obtuseNs n)) : ℚ))), convexQ u := by
            intro u hu
            rcases List.mem_append.mp hu with hu | hu
            · exact hcv u hu
            · obtain ⟨k, hk, rfl⟩ := List.mem_map.mp hu
              have hb := mixFactorDen_bounds k _ (List.mem_range.mp hk)
              exact mixQ3_convex (hcv _ (getI_mem h2)) (hcv _ (getI_mem h1))
                hb.1 hb.2
          split at h
          · cases h
          · rename_i st hq
            have hst : ∀ u ∈ st.vertBary, convexQ u :=
              partitionQuad_convex fuel _ _ _ _ _ _ hq hcv2
            split at h
            · cases h
              exact hst
            · split at h
              · split at h
                · cases h
                · rename_i st2 hq2
                  cases h
                  exact partitionQuad_convex fuel _ _ _ _ _ _ hq2 hst
              · split at h
                · cases h
                · rename_i st2 hq2
                  cases h
                  exact partitionQuad_convex fuel _ _ _ _ _ _ hq2 hst
        · cases h

theorem getPartition_convex (fuel : ℕ) (d : I3) (p : Partition)
    (h : getPartition fuel d = .ok p) : ∀ u ∈ p.vertBary, convexQ u := by
  rw [getPartition] at h
  simp only [] at h
  split at h
  · cases h
  · rename_i q hq
    cases h
    exact getCachedPartition_convex fuel _ q hq

theorem getPartition_idx_valid (fuel : ℕ) (d : I3) (p : Partition)
    (h : getPartition fuel d = .ok p) : validIdx p.idx := by
  rw [getPartition] at h
  simp only [] at h
  split at h
  · cases h
  · rename_i q hq
    cases h
    show validIdx _
    split_ifs <;> unfold validIdx <;> simp [swap3] <;> decide

theorem perm_convex (idx : I3) (hidx : validIdx idx) (bary : Q3)
    (hb : convexQ bary) :
    convexQ (fun k => bary (idx3 (interiorPermutation idx k))) := by
  rcases hidx with rfl | rfl | rfl | rfl | rfl | rfl
  · exact ⟨fun k => hb.1 _, by
      show bary 0 + bary 1 + bary 2 = 1
      linarith [hb.2]⟩
  · exact ⟨fun k => hb.1 _, by
      show bary 1 + bary 0 + bary 2 = 1
      linarith [hb.2]⟩
  · exact ⟨fun k => hb.1 _, by
      show bary 2 + bary 1 + bary 0 = 1
      linarith [hb.2]⟩
  · exact ⟨fun k => hb.1 _, by
      show bary 2 + bary 0 + bary 1 = 1
      linarith [hb.2]⟩
  · exact ⟨fun k => hb.1 _, by
      show bary 1 + bary 2 + bary 0 = 1
      linarith [hb.2]⟩
  · exact ⟨fun k => hb.1 _, by
      show bary 0 + bary 2 + bary 1 = 1
      linarith [hb.2]⟩

theorem setZ_len {α : Type} (l : List α) (i : ℤ) (a : α) :
    (setZ l i a).length = l.length := by
  unfold setZ; split <;> simp

theorem getZ_natCast {α : Type} (l : List α) (d : α) (e : ℕ) :
    getZ l d ((e : ℕ) : ℤ) = l.getD e d := by
  unfold getZ
  rw [if_pos (by positivity)]
  norm_num

theorem getZ_setZ_ne {α : Type} (l : List α) (d a : α) (i j : ℤ)
    (h : i ≠ j) : getZ (setZ l i a) d j = getZ l d j := by
  unfold getZ setZ
  split
  · split
    · rename_i hi hj
      have : i.toNat ≠ j.toNat := by omega
      simp [List.getD, List.getElem?_set_ne this]
    · rfl
  · rfl

theorem getZ_setZ_self {α : Type} (l : List α) (d a : α) (i : ℤ)
    (h0 : 0 ≤ i) (h1 : i.toNat < l.length) : getZ (setZ l i a) d i = a := by
  unfold getZ setZ
  rw [if_pos h0, if_pos h0]
  simp [List.getD, List.getElem?_set_self, h1]

theorem getZ_setZ_cases {α : Type} (l : List α) (d a : α) (i j : ℤ) :
    getZ (setZ l i a) d j = getZ l d j ∨ getZ (setZ l i a) d j = a := by
  rcases eq_or_ne i j with rfl | h
  · by_cases h0 : 0 ≤ i
    · by_cases h1 : i.toNat < l.length
      · exact Or.inr (getZ_setZ_self l d a i h0 h1)
      · left
        unfold setZ
        rw [if_pos h0, List.set_eq_of_length_le (by omega)]
    · left
      unfold setZ
      rw [if_neg h0]
  · exact Or.inl (getZ_setZ_ne l d a i j h)

theorem foldl_nested_eq {α β γ : Type} (l : List α) (inner : α → List γ)
    (g : β → γ → β) (init : β) :
    l.foldl (fun b a => (inner a).foldl g b) init =
      ((l.map inner).flatten).foldl g init := by
  induction l generalizing init with
  | nil => rfl
  | cons x xs ih => simp [List.foldl_append, ih]

theorem foldl_setZ_getZ_of_ne {β : Type} (ix : β → ℤ) (vx : β → Barycentric)
    (l : List β) (init : List Barycentric) (j : ℤ)
    (h : ∀ x ∈ l, ix x ≠ j) :
    getZ (l.foldl (fun acc x => setZ acc (ix x) (vx x)) init) default j =
      getZ init default j := by
  induction l generalizing init with
  | nil => rfl
  | cons x xs ih =>
    rw [List.foldl_cons, ih _ (fun y hy => h y (by simp [hy])),
      getZ_setZ_ne _ _ _ _ _ (h x (by simp))]

theorem foldl_setZ_getZ_cases {β : Type} (ix : β → ℤ) (vx : β → Barycentric)
    (l : List β) (init : List Barycentric) (j : ℤ) (P : Barycentric → Prop)
    (hv : ∀ x ∈ l, P (vx x)) :
    getZ (l.foldl (fun acc x => setZ acc (ix x) (vx x)) init) default j =
      getZ init default j ∨
    P (getZ (l.foldl (fun acc x => setZ acc (ix x) (vx x)) init) default j) := by
  induction l generalizing init with
  | nil => exact Or.inl rfl
  | cons x xs ih =>
    rw [List.foldl_cons]
    rcases ih (setZ init (ix x) (vx x)) (fun y hy => hv y (by simp [hy]))
      with he | hp
    · rw [he]
      rcases getZ_setZ_cases init default (vx x) (ix x) j with he2 | he2
      · exact Or.inl he2
      · exact Or.inr (by rw [he2]; exact hv x (by simp))
    · exact Or.inr hp

theorem foldl_setZ_getZ_covered {β : Type} (ix : β → ℤ) (vx : β → Barycentric)
    (l : List β) (init : List Barycentric) (j : ℤ) (P : Barycentric → Prop)
    (hrange : 0 ≤ j ∧ j.toNat < init.length)
    (hcov : ∃ x ∈ l, ix x = j)
    (hval : ∀ x ∈ l, ix x = j → P (vx x)) :
    P (getZ (l.foldl (fun acc x => setZ acc (ix x) (vx x)) init) default j) := by
  induction l generalizing init with
  | nil => obtain ⟨x, hx, -⟩ := hcov; cases hx
  | cons x xs ih =>
    rw [List.foldl_cons]
    by_cases hxs : ∃ y ∈ xs, ix y = j
    · exact ih (setZ init (ix x) (vx x))
        ⟨hrange.1, by rw [setZ_len]; exact hrange.2⟩ hxs
        (fun y hy => hval y (by simp [hy]))
    · have hx : ix x = j := by
        obtain ⟨y, hy, hyj⟩ := hcov
        rcases List.mem_cons.mp hy with rfl | hy2
        · exact hyj
        · exact absurd ⟨y, hy2, hyj⟩ hxs
      rw [foldl_setZ_getZ_of_ne _ _ _ _ _ (fun y hy hyj => hxs ⟨y, hy, hyj⟩)]
      rw [← hx, getZ_setZ_self _ _ _ _ (hx ▸ hrange.1) (by
        have := hrange.2; omega)]
      exact hval x (by simp) hx

theorem exclusiveScan_len (l : List ℤ) (v : ℤ) :
    (exclusiveScan l v).length = l.length := by
  induction l generalizing v with
  | nil => rfl
  | cons a xs ih => simp [exclusiveScan, ih]

theorem exclusiveScan_getD_ge (l : List ℤ) (v : ℤ)
    (hl : ∀ x ∈ l, 0 ≤ x) (e : ℕ) (he : e < l.length) :
    v ≤ (exclusiveScan l v).getD e 0 := by
  induction l generalizing v e with
  | nil => cases he
  | cons a xs ih =>
    cases e with
    | zero => simp [exclusiveScan]
    | succ k =>
      have := ih (v + a) (fun x hx => hl x (by simp [hx])) k
        (by simpa using he)
      have ha : 0 ≤ a := hl a (by simp)
      simp only [exclusiveScan, List.getD_cons_succ]
      omega

theorem exclusiveScan_tiling (l : List ℤ) (v j : ℤ)
    (hl : ∀ x ∈ l, 0 ≤ x) (h1 : v ≤ j) (h2 : j < v + l.sum) :
    ∃ e, e < l.length ∧ (exclusiveScan l v).getD e 0 ≤ j ∧
      j < (exclusiveScan l v).getD e 0 + l.getD e 0 := by
  induction l generalizing v with
  | nil => simp at h2; omega
  | cons a xs ih =>
    by_cases hj : j < v + a
    · exact ⟨0, by simp, by simpa [exclusiveScan], by simpa [exclusiveScan]⟩
    · have h2' : j < v + a + xs.sum := by
        rw [List.sum_cons] at h2; omega
      obtain ⟨e, he, hlo, hhi⟩ := ih (v + a)
        (fun x hx => hl x (by simp [hx])) (by omega) h2'
      exact ⟨e + 1, by simpa using he, by simpa [exclusiveScan] using hlo,
        by simpa [exclusiveScan] using hhi⟩

theorem exclusiveScan_last_sum (l : List ℤ) (v : ℤ) (h : l ≠ []) :
    ∃ L A, (exclusiveScan l v).getLast? = some L ∧ l.getLast? = some A ∧
      L + A = v + l.sum := by
  induction l generalizing v with
  | nil => exact absurd rfl h
  | cons a xs ih =>
    cases xs with
    | nil => exact ⟨v, a, rfl, rfl, by simp⟩
    | cons b ys =>
      obtain ⟨L, A, hL, hA, hsum⟩ := ih (v + a) (by simp)
      refine ⟨L, A, ?_, ?_, ?_⟩
      · rw [show exclusiveScan (a :: b :: ys) v =
          v :: exclusiveScan (b :: ys) (v + a) from rfl]
        rw [show exclusiveScan (b :: ys) (v + a) =
          (v + a) :: exclusiveScan ys (v + a + b) from rfl] at hL ⊢
        rw [List.getLast?_cons_cons]
        exact hL
      · rw [List.getLast?_cons_cons]
        exact hA
      · rw [hsum]
        simp [List.sum_cons]
        ring

theorem mapM_ok_getD {α β : Type} (f : α → Except PErr β) (l : List α)
    (ys : List β) (h : l.mapM f = .ok ys) (da : α) (db : β) :
    ys.length = l.length ∧
      ∀ k < l.length, f (l.getD k da) = .ok (ys.getD k db) := by
  induction l generalizing ys with
  | nil =>
    cases h
    exact ⟨rfl, fun k hk => absurd hk (by simp)⟩
  | cons x xs ih =>
    rw [List.mapM_cons] at h
    cases hfx : f x with
    | error e => rw [hfx] at h; cases h
    | ok y =>
      rw [hfx] at h
      cases hxs : xs.mapM f with
      | error e =>
        rw [hxs] at h
        cases h
      | ok ys' =>
        rw [hxs] at h
        cases h
        obtain ⟨hlen, hall⟩ := ih ys' hxs
        refine ⟨by simp [hlen], fun k hk => ?_⟩
        cases k with
        | zero => simpa using hfx
        | succ k2 =>
          simp only [List.getD_cons_succ]
          exact hall k2 (by simpa using hk)

theorem foldl_congr_fn {α β : Type} (l : List α) (f g : β → α → β)
    (init : β) (h : ∀ b a, f b a = g b a) :
    l.foldl f init = l.foldl g init := by
  induction l generalizing init with
  | nil => rfl
  | cons x xs ih => rw [List.foldl_cons, List.foldl_cons, h, ih]

theorem update_eq_baryCorner (i : Fin 3) :
    (Function.update (fun _ => (0 : ℚ)) i 1) = baryCorner i := by
  funext k
  simp only [Function.update, baryCorner]
  rcases eq_or_ne k i with rfl | h
  · simp
  · simp [h, Ne.symm h]

theorem fillRetainedVerts_eq (X : List Barycentric) (hl : List Halfedge) :
    fillRetainedVerts X hl =
      (((List.range (hl.length / 3)).map (fun (tri : ℕ) =>
        [(0 : Fin 3), 1, 2].map (fun i => (tri, i)))).flatten).foldl
        (fun acc (x : ℕ × Fin 3) =>
          setZ acc (getZ hl default
            (3 * (x.1 : ℤ) + ((x.2 : ℕ) : ℤ))).startVert
            ⟨(x.1 : ℤ), Function.update (fun _ => 0) x.2 1⟩) X := by
  rw [← foldl_nested_eq]
  simp only [fillRetainedVerts]
  refine foldl_congr_fn _ _ _ _ (fun b a => ?_)
  rw [List.foldl_map]

theorem fillEdgeVerts_eq (X : List Barycentric) (edges : List TmpEdge)
    (edgeAdded edgeOffset : List ℤ) :
    fillEdgeVerts X edges edgeAdded edgeOffset =
      (((List.range edges.length).map (fun (e : ℕ) =>
        (List.range (getZ edgeAdded 0 (e : ℤ)).toNat).map
          (fun (i : ℕ) => (e, i)))).flatten).foldl
        (fun acc (x : ℕ × ℕ) =>
          setZ acc (getZ edgeOffset 0 (x.1 : ℤ) + ((x.2 : ℕ) : ℤ))
            ⟨(edges.getD x.1 default).halfedgeIdx / 3, Function.update
              (Function.update (fun _ => 0)
                (idx3 (next3 ((edges.getD x.1 default).halfedgeIdx % 3)))
                (((x.2 : ℚ) + 1) *
                  (1 / (((getZ edgeAdded 0 (x.1 : ℤ) : ℤ) : ℚ) + 1))))
              (idx3 ((edges.getD x.1 default).halfedgeIdx % 3))
              (1 - ((x.2 : ℚ) + 1) *
                (1 / (((getZ edgeAdded 0 (x.1 : ℤ) : ℤ) : ℚ) + 1)))⟩) X := by
  rw [← foldl_nested_eq]
  simp only [fillEdgeVerts]
  refine foldl_congr_fn _ _ _ _ (fun b a => ?_)
  rw [List.foldl_map]

theorem edgeWrite_convex (i : ℕ) (n : ℤ) (h : i < n.toNat) (x : ℤ) :
    convexQ (Function.update (Function.update (fun _ => 0)
      (idx3 (next3 (x % 3))) (((i : ℚ) + 1) * (1 / (((n : ℤ) : ℚ) + 1))))
      (idx3 (x % 3)) (1 - ((i : ℚ) + 1) * (1 / (((n : ℤ) : ℚ) + 1)))) := by
  have hne := idx3_ne_next3 x
  have hb := mixFactor_bounds i n h
  have heq : ((i : ℚ) + 1) * (1 / (((n : ℤ) : ℚ) + 1)) =
      ((i : ℚ) + 1) / ((n + 1 : ℤ) : ℚ) := by
    push_cast
    ring
  rw [heq]
  exact twoPoint_convex _ _ _ hne hb.1 hb.2

theorem getD_range (n k d : ℕ) (h : k < n) : (List.range n).getD k d = k := by
  simp [List.getD_eq_getElem?_getD, List.getElem?_range h]

set_option maxHeartbeats 3000000 in
/-- C4: when `Subdivide` succeeds on a valid mesh with a nonnegative
`edgeDivisions` function, every `Barycentric` record it produces has `uvw`
components that are nonnegative and sum to 1, and the records of the
retained corner vertices (slots below `numVert`) are canonical basis
vectors. -/
theorem C4_subdivide_barycentric_convex (fuel : ℕ) (m : MMesh) (fn : R3 → ℤ)
    (out : SubOut)
    (hv : validMesh m) (hfn : ∀ v, 0 ≤ fn v)
    (hok : subdivide fuel m fn = .ok out) :
    (∀ b ∈ out.vertBary, convexB b) ∧
    (∀ v : ℕ, v < m.numVert →
      ∃ i : Fin 3, (out.vertBary.getD v default).uvw = baryCorner i) := by
  rw [subdivide] at hok
  simp only [] at hok
  split at hok
  · rename_i lastOff lastAdd hlast1 hlast2
    split at hok
    · cases hok
    · rename_i subTris hsubTris
      split at hok
      · cases hok
      · rename_i newTris hnewTris
        set edges := createTmpEdges m.halfedge with hedges
        set eadd := List.map (fun te => fn fun k =>
          getZ m.vertPos (fun x => 0) te.first k -
          getZ m.vertPos (fun x => 0) te.second k) edges with headd
        set eoff := exclusiveScan eadd ((m.numVert : ℕ) : ℤ) with heoff
        set total := (lastOff + lastAdd).toNat with htotal
        set FR := fillRetainedVerts (List.replicate total default) m.halfedge
          with hFR
        set vb := fillEdgeVerts FR edges eadd eoff with hvb
        set intr := (List.map (fun (tri : ℕ) => List.map (fun bary =>
          ({ tri := (tri : ℤ), uvw := fun k => bary (idx3 (interiorPermutation
              (subTris.getD tri default).idx k)) } : Barycentric))
          (List.drop (subTris.getD tri default).interiorOffset.toNat
            (subTris.getD tri default).vertBary))
          (List.range m.numTri)).flatten with hintr
        have headdpos : ∀ x ∈ eadd, 0 ≤ x := by
          intro x hx
          rw [headd] at hx
          obtain ⟨te, -, rfl⟩ := List.mem_map.mp hx
          exact hfn _
        have headdlen : eadd.length = edges.length := by
          rw [headd]
          exact List.length_map _ _
        have heofflen : eoff.length = eadd.length := by
          rw [heoff]
          exact exclusiveScan_len _ _
        have hnenil : eadd ≠ [] := by
          intro h0
          rw [h0] at hlast2
          cases hlast2
        have hsum : lastOff + lastAdd = ((m.numVert : ℕ) : ℤ) + eadd.sum := by
          obtain ⟨L, A, hL, hA, hs⟩ :=
            exclusiveScan_last_sum eadd ((m.numVert : ℕ) : ℤ) hnenil
          rw [← heoff, hlast1] at hL
          rw [hlast2] at hA
          cases hL
          cases hA
          exact hs
        have hsumnn : (0 : ℤ) ≤ eadd.sum := List.sum_nonneg headdpos
        have htotZ : (total : ℤ) = ((m.numVert : ℕ) : ℤ) + eadd.sum := by
          rw [htotal]
          omega
        have hnvtot : m.numVert ≤ total := by omega
        have hFRlenAux : ∀ (X : List Barycentric),
            (fillRetainedVerts X m.halfedge).length = X.length := by
          intro X
          unfold fillRetainedVerts
          exact foldl_length _ _ _
            (fun a b => foldl_length _ _ _ (fun a2 i => setZ_length _ _ _))
        have hFRlen : FR.length = total := by
          rw [hFR, hFRlenAux, List.length_replicate]
        have hvblen : vb.length = total := by
          have hFEaux : ∀ (X : List Barycentric),
              (fillEdgeVerts X edges eadd eoff).length = X.length := by
            intro X
            unfold fillEdgeVerts
            exact foldl_length _ _ _
              (fun a b => foldl_length _ _ _ (fun a2 i => setZ_length _ _ _))
          rw [hvb, hFEaux, hFRlen]
        have hcornerZ : ∀ v : ℕ, v < m.numVert →
            ∃ i : Fin 3, (getZ vb default ((v : ℕ) : ℤ)).uvw = baryCorner i := by
          intro v hvlt
          rw [hvb, fillEdgeVerts_eq]
          have hno : ∀ x ∈ ((List.range edges.length).map (fun (e : ℕ) =>
              (List.range (getZ eadd 0 (e : ℤ)).toNat).map
                (fun (i : ℕ) => (e, i)))).flatten,
              getZ eoff 0 ((x.1 : ℕ) : ℤ) + ((x.2 : ℕ) : ℤ) ≠ ((v : ℕ) : ℤ) := by
            intro x hx
            obtain ⟨lst, hlst, hxl⟩ := List.mem_flatten.mp hx
            obtain ⟨e, he, rfl⟩ := List.mem_map.mp hlst
            obtain ⟨i, hi, rfl⟩ := List.mem_map.mp hxl
            have he' : e < edges.length := List.mem_range.mp he
            have hgeV : ((m.numVert : ℕ) : ℤ) ≤ eoff.getD e 0 := by
              rw [heoff]
              exact exclusiveScan_getD_ge eadd _ headdpos e (by omega)
            show getZ eoff 0 ((e : ℕ) : ℤ) + ((i : ℕ) : ℤ) ≠ ((v : ℕ) : ℤ)
            rw [getZ_natCast]
            omega
          rw [foldl_setZ_getZ_of_ne _ _ _ _ _ hno]
          rw [hFR, fillRetainedVerts_eq]
          refine foldl_setZ_getZ_covered _ _ _ _ _
            (fun b => ∃ i : Fin 3, b.uvw = baryCorner i)
            ⟨by positivity, by simp; omega⟩ ?_ ?_
          · obtain ⟨h, hh, hsv⟩ := hv.2.2 v hvlt
            have h3 := hv.1
            refine ⟨(h / 3, ⟨h % 3, by omega⟩), ?_, ?_⟩
            · refine List.mem_flatten.mpr ⟨_, List.mem_map.mpr
                ⟨h / 3, List.mem_range.mpr (by omega), rfl⟩, ?_⟩
              refine List.mem_map.mpr ⟨⟨h % 3, by omega⟩, ?_, rfl⟩
              have : ∀ i : Fin 3, i ∈ [(0 : Fin 3), 1, 2] := by decide
              exact this _
            · have hidxeq : 3 * ((h / 3 : ℕ) : ℤ) +
                  (((⟨h % 3, by omega⟩ : Fin 3) : ℕ) : ℤ) = ((h : ℕ) : ℤ) := by
                show 3 * ((h / 3 : ℕ) : ℤ) + ((h % 3 : ℕ) : ℤ) = ((h : ℕ) : ℤ)
                omega
              show (getZ m.halfedge default _).startVert = _
              rw [hidxeq, getZ_natCast]
              exact hsv
          · intro x hx hxv
            exact ⟨x.2, update_eq_baryCorner x.2⟩
        have hedgeZ : ∀ j : ℕ, m.numVert ≤ j → j < total →
            convexB (getZ vb default ((j : ℕ) : ℤ)) := by
          intro j hj1 hj2
          rw [hvb, fillEdgeVerts_eq]
          refine foldl_setZ_getZ_covered _ _ _ _ _ convexB
            ⟨by positivity, by rw [hFRlen]; omega⟩ ?_ ?_
          · obtain ⟨e, he, hlo, hhi⟩ := exclusiveScan_tiling eadd
              ((m.numVert : ℕ) : ℤ) ((j : ℕ) : ℤ) headdpos (by omega)
              (by omega)
            rw [← heoff] at hlo hhi
            refine ⟨(e, (((j : ℕ) : ℤ) - eoff.getD e 0).toNat), ?_, ?_⟩
            · refine List.mem_flatten.mpr ⟨_, List.mem_map.mpr
                ⟨e, List.mem_range.mpr (by omega), rfl⟩, ?_⟩
              refine List.mem_map.mpr ⟨_, List.mem_range.mpr ?_, rfl⟩
              rw [getZ_natCast]
              omega
            · show getZ eoff 0 ((e : ℕ) : ℤ) + _ = _
              rw [getZ_natCast]
              omega
          · intro x hx hxv
            obtain ⟨lst, hlst, hxl⟩ := List.mem_flatten.mp hx
            obtain ⟨e, he, rfl⟩ := List.mem_map.mp hlst
            obtain ⟨i, hi, rfl⟩ := List.mem_map.mp hxl
            have hi' := List.mem_range.mp hi
            show convexQ _
            exact edgeWrite_convex i (getZ eadd 0 ((e : ℕ) : ℤ)) hi'
              ((edges.getD e default).halfedgeIdx)
        have hsublen := (mapM_ok_getD _ _ _ hsubTris 0 default).1
        have hsubinv := (mapM_ok_getD _ _ _ hsubTris 0 default).2
        have hintrconv : ∀ b ∈ intr, convexB b := by
          intro b hb
          rw [hintr] at hb
          obtain ⟨lst, hlst, hbl⟩ := List.mem_flatten.mp hb
          obtain ⟨tri, htri, rfl⟩ := List.mem_map.mp hlst
          obtain ⟨bary, hbary, rfl⟩ := List.mem_map.mp hbl
          have htri' := List.mem_range.mp htri
          have hokp := hsubinv tri (by simpa using htri')
          rw [getD_range _ _ _ htri'] at hokp
          have hcvb := getPartition_convex fuel _ _ hokp bary
            (List.mem_of_mem_drop hbary)
          have hidx := getPartition_idx_valid fuel _ _ hokp
          show convexQ _
          exact perm_convex _ hidx bary hcvb
        have hconvAll : ∀ b ∈ vb ++ intr, convexB b := by
          intro b hb
          rcases List.mem_append.mp hb with hb | hb
          · obtain ⟨j, hj, rfl⟩ := List.mem_iff_getElem.mp hb
            have hjv : vb[j] = getZ vb default ((j : ℕ) : ℤ) := by
              rw [getZ_natCast, List.getD_eq_getElem vb default hj]
            rw [hjv]
            rcases lt_or_le j m.numVert with hc | hc
            · obtain ⟨i, hi⟩ := hcornerZ j hc
              show convexQ _
              rw [hi]
              exact baryCorner_convex i
            · exact hedgeZ j hc (by rw [hvblen] at hj; omega)
          · exact hintrconv b hb
        have hcornerApp : ∀ v : ℕ, v < m.numVert →
            ∃ i : Fin 3, ((vb ++ intr).getD v default).uvw = baryCorner i := by
          intro v hvlt
          rw [List.getD_append _ _ _ _ (by rw [hvblen]; omega)]
          rw [← getZ_natCast]
          exact hcornerZ v hvlt
        split at hok
        · split at hok
          · cases hok
          · cases hok
            exact ⟨hconvAll, hcornerApp⟩
        · cases hok
          exact ⟨hconvAll, hcornerApp⟩
  · cases hok

theorem except_isOk_exists {ε α : Type} {x : Except ε α} (h : x.isOk = true) :
    ∃ a, x = .ok a := by
  cases x with
  | error e => cases h
  | ok a => exact ⟨a, rfl⟩

/-- C4 witness: the theorem instantiated at the tetrahedron with one
division inserted on every edge. -/
theorem C4_witness : ∃ out, subdivide 9 tetra (fun _ => 1) = .ok out ∧
    ((∀ b ∈ out.vertBary, convexB b) ∧
     (∀ v : ℕ, v < tetra.numVert →
       ∃ i : Fin 3, (out.vertBary.getD v default).uvw = baryCorner i)) := by
  obtain ⟨o, ho⟩ := except_isOk_exists
    (x := subdivide 9 tetra (fun _ => 1)) (by decide)
  exact ⟨o, ho, C4_subdivide_barycentric_convex 9 tetra (fun _ => 1) o
    (by decide)
    (fun v => by norm_num) ho⟩


theorem flat_inner_iff (m : MMesh) (s t : ℕ) : ∀ (l : List (Fin 3))
    (fl : List Bool), t < fl.length →
    (getZ (l.foldl (fun fl j => if triMatch m s j then
        setZ fl (triNeighbor m s j) true else fl) fl) false
        ((t : ℕ) : ℤ) = true ↔
      getZ fl false ((t : ℕ) : ℤ) = true ∨
        ∃ j ∈ l, triMatch m s j = true ∧
          triNeighbor m s j = ((t : ℕ) : ℤ)) := by
  intro l
  induction l with
  | nil =>
    intro fl ht
    simp
  | cons j js ih =>
    intro fl ht
    rw [List.foldl_cons]
    by_cases hm : triMatch m s j = true
    · rw [if_pos hm]
      rw [ih _ (by rw [setZ_len]; exact ht)]
      by_cases hnb : triNeighbor m s j = ((t : ℕ) : ℤ)
      · rw [hnb, getZ_setZ_self _ _ _ _ (by positivity) (by omega)]
        constructor
        · intro _
          exact Or.inr ⟨j, by simp, hm, hnb⟩
        · intro _
          exact Or.inl rfl
      · rw [getZ_setZ_ne _ _ _ _ _ hnb]
        constructor
        · rintro (h | ⟨j2, hj2, h1, h2⟩)
          · exact Or.inl h
          · exact Or.inr ⟨j2, by simp [hj2], h1, h2⟩
        · rintro (h | ⟨j2, hj2, h1, h2⟩)
          · exact Or.inl h
          · rcases List.mem_cons.mp hj2 with rfl | hj3
            · exact absurd h2 hnb
            · exact Or.inr ⟨j2, hj3, h1, h2⟩
    · rw [if_neg hm]
      rw [ih _ ht]
      constructor
      · rintro (h | ⟨j2, hj2, h1, h2⟩)
        · exact Or.inl h
        · exact Or.inr ⟨j2, by simp [hj2], h1, h2⟩
      · rintro (h | ⟨j2, hj2, h1, h2⟩)
        · exact Or.inl h
        · rcases List.mem_cons.mp hj2 with rfl | hj3
          · exact absurd h1 hm
          · exact Or.inr ⟨j2, hj3, h1, h2⟩

theorem flat_outer_iff (m : MMesh) (t : ℕ) : ∀ (l : List ℕ)
    (flat : List Bool), t < flat.length →
    (getZ (l.foldl (fun flat (tri : ℕ) =>
        if 1 < flatCount m tri then
          ([0, 1, 2] : List (Fin 3)).foldl
            (fun fl j => if triMatch m tri j then
              setZ fl (triNeighbor m tri j) true else fl)
            (setZ flat ((tri : ℕ) : ℤ) true)
        else flat) flat) false ((t : ℕ) : ℤ) = true ↔
      getZ flat false ((t : ℕ) : ℤ) = true ∨
        ∃ s ∈ l, 1 < flatCount m s ∧ (s = t ∨
          ∃ j : Fin 3, triMatch m s j = true ∧
            triNeighbor m s j = ((t : ℕ) : ℤ))) := by
  intro l
  induction l with
  | nil =>
    intro flat ht
    simp
  | cons s ss ih =>
    intro flat ht
    rw [List.foldl_cons]
    by_cases hc : 1 < flatCount m s
    · rw [if_pos hc]
      have hil : ∀ fl : List Bool, (([0, 1, 2] : List (Fin 3)).foldl
          (fun fl j => if triMatch m s j then
            setZ fl (triNeighbor m s j) true else fl) fl).length =
          fl.length := by
        intro fl
        refine foldl_length _ _ _ (fun a b => ?_)
        split
        · exact setZ_len _ _ _
        · rfl
      rw [ih _ (by rw [hil, setZ_len]; exact ht)]
      rw [flat_inner_iff m s t _ _ (by rw [setZ_len]; exact ht)]
      by_cases hst : s = t
      · subst hst
        rw [getZ_setZ_self _ _ _ _ (by positivity) (by omega)]
        constructor
        · intro _
          exact Or.inr ⟨s, by simp, hc, Or.inl rfl⟩
        · intro _
          exact Or.inl (Or.inl rfl)
      · rw [getZ_setZ_ne _ _ _ _ _
          (by exact fun h => hst (by exact_mod_cast h))]
        constructor
        · rintro ((h | ⟨j, hj, h1, h2⟩) | ⟨s2, hs2, hw⟩)
          · exact Or.inl h
          · exact Or.inr ⟨s, by simp, hc, Or.inr ⟨j, h1, h2⟩⟩
          · exact Or.inr ⟨s2, by simp [hs2], hw⟩
        · rintro (h | ⟨s2, hs2, hw⟩)
          · exact Or.inl (Or.inl h)
          · rcases List.mem_cons.mp hs2 with rfl | hs3
            · rcases hw.2 with h2 | ⟨j, h1, h2⟩
              · exact absurd h2 hst
              · have hmem3 : ∀ j : Fin 3, j ∈ [(0 : Fin 3), 1, 2] := by
                  decide
                exact Or.inl (Or.inr ⟨j, hmem3 j, h1, h2⟩)
            · exact Or.inr ⟨s2, hs3, hw⟩
    · rw [if_neg hc]
      rw [ih _ ht]
      constructor
      · rintro (h | ⟨s2, hs2, hw⟩)
        · exact Or.inl h
        · exact Or.inr ⟨s2, by simp [hs2], hw⟩
      · rintro (h | ⟨s2, hs2, hw⟩)
        · exact Or.inl h
        · rcases List.mem_cons.mp hs2 with rfl | hs3
          · exact absurd hw.1 hc
          · exact Or.inr ⟨s2, hs3, hw⟩

/-- C6: `FlatFaces` marks triangle `t` flat iff at least two of its three
edge-neighbors reference the same source face, or `t` is such a matching
neighbor of a triangle with at least two matches; consequently the
three-triangle co-referenced strip of the octahedron is marked entirely
flat while the isolated co-referenced pair of the tetrahedron marks
neither. -/
theorem C6_flatFaces_marking :
    (∀ (m : MMesh) (t : ℕ), t < m.numTri →
      (getZ (flatFaces m) false ((t : ℕ) : ℤ) = true ↔
        1 < flatCount m t ∨ ∃ s : ℕ, s < m.numTri ∧ 1 < flatCount m s ∧
          ∃ j : Fin 3, triMatch m s j = true ∧
            triNeighbor m s j = ((t : ℕ) : ℤ))) ∧
    flatFaces octa = [true, true, true, false, false, false, false, false] ∧
    flatFaces tetraPair = [false, false, false, false] := by
  refine ⟨?_, by decide, by decide⟩
  intro m t ht
  unfold flatFaces
  rw [flat_outer_iff m t _ _ (by simpa using ht)]
  have hrep : getZ (List.replicate m.numTri false) false ((t : ℕ) : ℤ) =
      false := by
    rw [getZ_replicate]
    split <;> rfl
  rw [hrep]
  simp only [Bool.false_eq_true, false_or]
  constructor
  · rintro ⟨s, hs, hc, h2 | ⟨j, h1, h2⟩⟩
    · subst h2
      exact Or.inl hc
    · exact Or.inr ⟨s, List.mem_range.mp hs, hc, j, h1, h2⟩
  · rintro (hc | ⟨s, hs, hc, j, h1, h2⟩)
    · exact ⟨t, List.mem_range.mpr ht, hc, Or.inl rfl⟩
    · exact ⟨s, List.mem_range.mpr hs, hc, Or.inr ⟨j, h1, h2⟩⟩

/-- C6 witness: the characterization instantiated at triangle 0 of the
octahedron. -/
theorem C6_witness : 0 < octa.numTri ∧
    (getZ (flatFaces octa) false ((0 : ℕ) : ℤ) = true ↔
      1 < flatCount octa 0 ∨ ∃ s : ℕ, s < octa.numTri ∧
        1 < flatCount octa s ∧ ∃ j : Fin 3, triMatch octa s j = true ∧
          triNeighbor octa s j = ((0 : ℕ) : ℤ)) :=
  ⟨by decide, C6_flatFaces_marking.1 octa 0 (by decide)⟩

theorem roundRat_nonneg (num den : ℤ) (h1 : 0 ≤ num) (h2 : 0 < den) :
    0 ≤ roundRat num den := by
  unfold roundRat
  rw [if_pos h1]
  exact Int.ediv_nonneg (by omega) (by omega)

theorem roundMix_nonneg (a b i p : ℤ) (ha : 0 ≤ a) (hb : 0 ≤ b) (hi : 0 ≤ i)
    (hip : i ≤ p) (hp : 0 < p) : 0 ≤ roundMix a b i p :=
  roundRat_nonneg _ _
    (add_nonneg (mul_nonneg ha (by omega)) (mul_nonneg hb hi)) hp

theorem floor_band_mono (a p i : ℤ) (ha : p - 1 ≤ a) (hp : 2 ≤ p)
    (hi : 2 ≤ i) (hip : i ≤ p - 1) :
    a * (i - 1) / p + 1 ≤ a * i / p := by
  have hp0 : (0 : ℤ) < p := by omega
  have hr := Int.emod_nonneg (a * (i - 1)) (by omega : p ≠ 0)
  have hrlt := Int.emod_lt_of_pos (a * (i - 1)) hp0
  have hdiv := Int.emod_add_ediv (a * (i - 1)) p
  rw [Int.le_ediv_iff_mul_le hp0]
  have e1 : a * i = a * (i - 1) + a := by ring
  rcases (by omega : 1 ≤ (a * (i - 1)) % p ∨ (a * (i - 1)) % p = 0) with
    hr1 | hr0
  · nlinarith [hdiv]
  · have hdvd : p ∣ a * (i - 1) := Int.dvd_of_emod_eq_zero hr0
    rcases (by omega : p ≤ a ∨ a = p - 1) with hpa | ha'
    · nlinarith [hdiv]
    · subst ha'
      have h1 : p ∣ p * (i - 1) := Dvd.intro _ rfl
      have h2 : p ∣ (p * (i - 1) - (p - 1) * (i - 1)) := dvd_sub h1 hdvd
      have h3 : p * (i - 1) - (p - 1) * (i - 1) = i - 1 := by ring
      rw [h3] at h2
      have := Int.le_of_dvd (by omega : 0 < i - 1) h2
      omega

theorem ediv_last_le (a p : ℤ) (h1 : 1 ≤ a) (hp : 0 < p) :
    a * (p - 1) / p ≤ a - 1 := by
  have hlt : a * (p - 1) / p < a := by
    rw [Int.ediv_lt_iff_lt_mul hp]
    nlinarith
  omega

theorem getEdgeVert_sub_abs (eo : I4) (fwd : B4) (e : Fin 4) (x y : ℤ) :
    |getEdgeVert eo fwd e x - getEdgeVert eo fwd e y| = |x - y| := by
  unfold getEdgeVert
  split
  · have h : eo e + 1 * x - (eo e + 1 * y) = x - y := by ring
    rw [h]
  · have h : eo e + -1 * x - (eo e + -1 * y) = -(x - y) := by ring
    rw [h, abs_neg]

theorem getEdgeVert_zero (eo : I4) (fwd : B4) (e : Fin 4) :
    getEdgeVert eo fwd e 0 = eo e := by
  unfold getEdgeVert
  split <;> ring

theorem foldl_estep_error {σ β : Type} (g : σ → β → Except PErr σ)
    (l : List β) : ∀ (b0 : σ) (e : PErr),
    l.foldl (estep g) (.ok b0) = .error e → ∃ b i, i ∈ l ∧ g b i = .error e := by
  induction l with
  | nil =>
    intro b0 e h
    cases h
  | cons x xs ih =>
    intro b0 e h
    rw [List.foldl_cons,
      show estep g (Except.ok b0) x = g b0 x from rfl] at h
    cases hg : g b0 x with
    | error e2 =>
      rw [hg, foldl_except_error] at h
      cases h
      exact ⟨b0, x, by simp, hg⟩
    | ok b1 =>
      rw [hg] at h
      obtain ⟨b, i, hi, hb⟩ := ih b1 e h
      exact ⟨b, i, by simp [hi], hb⟩

theorem foldl_range_inv {σ : Type} (R : σ → ℤ → Prop) (f : σ → ℤ → σ)
    (n : ℕ) (s0 : σ) (h0 : R s0 0)
    (hstep : ∀ s (i : ℤ), 1 ≤ i → i ≤ (n : ℤ) → R s (i - 1) → R (f s i) i) :
    R (((List.range n).map (fun (k : ℕ) => (k : ℤ) + 1)).foldl f s0)
      (n : ℤ) := by
  induction n with
  | zero => simpa using h0
  | succ n ih =>
    rw [List.range_succ, List.map_append, List.foldl_append]
    simp only [List.map_cons, List.map_nil, List.foldl_cons, List.foldl_nil]
    have hprev := ih (fun s i h1 h2 hR => hstep s i h1 (by omega) hR)
    have := hstep _ ((n : ℤ) + 1) (by omega) (by push_cast; omega)
      (by simpa using hprev)
    have hc : ((n : ℤ) + 1) = ((n + 1 : ℕ) : ℤ) := by push_cast; ring
    rw [← hc]
    exact this

theorem foldl_range_inv_eq {σ : Type} (R : σ → ℤ → Prop) (f : σ → ℤ → σ)
    (n : ℕ) (s0 v : σ)
    (heq : ((List.range n).map (fun (k : ℕ) => (k : ℤ) + 1)).foldl f s0 = v)
    (h0 : R s0 0)
    (hstep : ∀ s (i : ℤ), 1 ≤ i → i ≤ (n : ℤ) → R s (i - 1) → R (f s i) i) :
    R v (n : ℤ) := heq ▸ foldl_range_inv R f n s0 h0 hstep

set_option maxHeartbeats 3000000 in
theorem band_fold_invariant (fuel : ℕ) (st : PState) (cv eo ea : I4)
    (fwd : B4) (hea : ∀ k : Fin 4, 0 ≤ ea k)
    (ih : ∀ (st2 : PState) (cv2 eo2 ea2 : I4) (fwd2 : B4),
      (∀ k : Fin 4, 0 ≤ ea2 k) →
      partitionQuad fuel st2 cv2 eo2 ea2 fwd2 ≠ .error .negAssert)
    (v : Except PErr BandState)
    (heq : (((List.range (1 + ea 1 ⊓ ea 3 - 1).toNat).map
        (fun (k : ℕ) => (k : ℤ) + 1)).foldl
      (estep (fun (b : BandState) (i : ℤ) =>
        match
          List.foldl
            (estep fun (vb : List Q3) (j : ℕ) =>
              match getI vb (getEdgeVert eo fwd 1 (ea 1 * i / (1 + ea 1 ⊓ ea 3))),
                getI vb (getEdgeVert eo fwd 3
                  (ea 3 - 1 - ea 3 * i / (1 + ea 1 ⊓ ea 3))) with
              | some v1, some v2 =>
                Except.ok (vb ++ [mixQ3 v1 v2 (((j : ℚ) + 1) /
                  ((roundMix (ea 0) (ea 2) i (1 + ea 1 ⊓ ea 3) + 1 : ℤ) : ℚ))])
              | _, _ => Except.error PErr.oob)
            (Except.ok b.st.vertBary)
            (List.range (roundMix (ea 0) (ea 2) i (1 + ea 1 ⊓ ea 3)).toNat) with
        | Except.error e => Except.error e
        | Except.ok vb =>
          match
            partitionQuad fuel { vertBary := vb, triVert := b.st.triVert }
              ![b.ncv 0, getEdgeVert eo fwd 1 (ea 1 * i / (1 + ea 1 ⊓ ea 3)),
                getEdgeVert eo fwd 3 (ea 3 - 1 - ea 3 * i / (1 + ea 1 ⊓ ea 3)),
                b.ncv 3]
              ![b.neo 0, (b.st.vertBary.length : ℤ),
                getEdgeVert eo fwd 3 (ea 3 - 1 - ea 3 * i / (1 + ea 1 ⊓ ea 3) + 1),
                b.neo 3]
              ![|getEdgeVert eo fwd 1 (ea 1 * i / (1 + ea 1 ⊓ ea 3) + 1) -
                  b.neo 0| - 1,
                roundMix (ea 0) (ea 2) i (1 + ea 1 ⊓ ea 3),
                |getEdgeVert eo fwd 3 (ea 3 - 1 - ea 3 * i / (1 + ea 1 ⊓ ea 3) + 1) -
                  b.neo 2| - 1,
                b.nea 3]
              b.nfwd with
          | Except.error e => Except.error e
          | Except.ok st2 =>
            Except.ok
              (⟨st2,
                ![getEdgeVert eo fwd 1 (ea 1 * i / (1 + ea 1 ⊓ ea 3)),
                  getEdgeVert eo fwd 1 (ea 1 * i / (1 + ea 1 ⊓ ea 3)),
                  getEdgeVert eo fwd 3 (ea 3 - 1 - ea 3 * i / (1 + ea 1 ⊓ ea 3)),
                  getEdgeVert eo fwd 3 (ea 3 - 1 - ea 3 * i / (1 + ea 1 ⊓ ea 3))],
                ![getEdgeVert eo fwd 1 (ea 1 * i / (1 + ea 1 ⊓ ea 3) + 1),
                  (b.st.vertBary.length : ℤ),
                  getEdgeVert eo fwd 3 (ea 3 - 1 - ea 3 * i / (1 + ea 1 ⊓ ea 3) + 1),
                  (b.st.vertBary.length : ℤ) +
                    roundMix (ea 0) (ea 2) i (1 + ea 1 ⊓ ea 3) - 1],
                ![|getEdgeVert eo fwd 1 (ea 1 * i / (1 + ea 1 ⊓ ea 3) + 1) -
                    b.neo 0| - 1,
                  roundMix (ea 0) (ea 2) i (1 + ea 1 ⊓ ea 3),
                  |getEdgeVert eo fwd 3
                      (ea 3 - 1 - ea 3 * i / (1 + ea 1 ⊓ ea 3) + 1) -
                    b.neo 2| - 1,
                  roundMix (ea 0) (ea 2) i (1 + ea 1 ⊓ ea 3)],
                ![b.nfwd 0, b.nfwd 1, b.nfwd 2, false]⟩ : BandState)))
      (Except.ok (⟨st, ![cv 1, -1, -1, cv 0],
        ![eo 1, -1, getEdgeVert eo fwd 3 (ea 3 + 1), eo 0],
        ![0, -1, 0, ea 0],
        ![fwd 1, true, fwd 3, fwd 0]⟩ : BandState))) = v) :
    (∀ e2, v = Except.error e2 → e2 ≠ PErr.negAssert) ∧
    (∀ b, v = Except.ok b →
      0 ≤ ea 1 - |b.neo 0 - eo 1| ∧ 0 ≤ |b.neo 2 - eo 3| - 1 ∧
        0 ≤ b.nea 3) := by
  have hm1 : ea 1 ⊓ ea 3 ≤ ea 1 := min_le_left _ _
  have hm3 : ea 1 ⊓ ea 3 ≤ ea 3 := min_le_right _ _
  have hm0 : 0 ≤ ea 1 ⊓ ea 3 := le_min (hea 1) (hea 3)
  have hN : (((1 + ea 1 ⊓ ea 3 - 1).toNat : ℕ) : ℤ) = ea 1 ⊓ ea 3 := by
    omega
  have hinv := foldl_range_inv_eq
    (fun (acc : Except PErr BandState) (i : ℤ) =>
      (∀ e2, acc = Except.error e2 → e2 ≠ PErr.negAssert) ∧
      (∀ b, acc = Except.ok b →
        b.neo 0 = getEdgeVert eo fwd 1 ((if i = 0 then -1 else
          ea 1 * i / (1 + ea 1 ⊓ ea 3)) + 1) ∧
        b.neo 2 = getEdgeVert eo fwd 3 ((if i = 0 then ea 3 else
          ea 3 - 1 - ea 3 * i / (1 + ea 1 ⊓ ea 3)) + 1) ∧
        0 ≤ b.nea 3))
    _ _ _ _ heq ?h0 ?hstep
  · constructor
    · exact hinv.1
    · intro b hb
      obtain ⟨hneo0, hneo2, hnea3⟩ := hinv.2 b hb
      rw [hN] at hneo0 hneo2
      refine ⟨?_, ?_, hnea3⟩
      · rw [hneo0, show eo 1 = getEdgeVert eo fwd 1 0 from
          (getEdgeVert_zero eo fwd 1).symm, getEdgeVert_sub_abs]
        by_cases hz : ea 1 ⊓ ea 3 = 0
        · rw [if_pos hz]
          norm_num
          exact hea 1
        · rw [if_neg hz]
          have hd := ediv_last_le (ea 1) (1 + ea 1 ⊓ ea 3) (by omega)
            (by omega)
          have he : ea 1 * (1 + ea 1 ⊓ ea 3 - 1) = ea 1 * (ea 1 ⊓ ea 3) := by
            ring_nf
          rw [he] at hd
          have h0' : 0 ≤ ea 1 * (ea 1 ⊓ ea 3) / (1 + ea 1 ⊓ ea 3) :=
            Int.ediv_nonneg (mul_nonneg (hea 1) hm0) (by omega)
          rw [abs_of_nonneg (by omega)]
          omega
      · rw [hneo2, show eo 3 = getEdgeVert eo fwd 3 0 from
          (getEdgeVert_zero eo fwd 3).symm, getEdgeVert_sub_abs]
        by_cases hz : ea 1 ⊓ ea 3 = 0
        · rw [if_pos hz]
          rw [abs_of_nonneg (by have := hea 3; omega)]
          have := hea 3
          omega
        · rw [if_neg hz]
          have hd := ediv_last_le (ea 3) (1 + ea 1 ⊓ ea 3) (by omega)
            (by omega)
          have he : ea 3 * (1 + ea 1 ⊓ ea 3 - 1) = ea 3 * (ea 1 ⊓ ea 3) := by
            ring_nf
          rw [he] at hd
          have h0' : 0 ≤ ea 3 * (ea 1 ⊓ ea 3) / (1 + ea 1 ⊓ ea 3) :=
            Int.ediv_nonneg (mul_nonneg (hea 3) hm0) (by omega)
          rw [abs_of_nonneg (by omega)]
          omega
  case h0 =>
    constructor
    · intro e2 h
      cases h
    · intro b h
      cases h
      refine ⟨?_, ?_, ?_⟩
      · show eo 1 = getEdgeVert eo fwd 1 _
        rw [if_pos rfl, show (-1 : ℤ) + 1 = 0 by norm_num, getEdgeVert_zero]
      · show getEdgeVert eo fwd 3 (ea 3 + 1) = getEdgeVert eo fwd 3 _
        rw [if_pos rfl]
      · show (0 : ℤ) ≤ ea 0
        exact hea 0
  case hstep =>
    intro s i h1 h2 hR
    rw [hN] at h2
    cases s with
    | error e =>
      exact ⟨fun e2 h => by cases h; exact hR.1 _ rfl, fun b h => by cases h⟩
    | ok b =>
      obtain ⟨hneo0, hneo2, hnea3⟩ := hR.2 b rfl
      have hnn : ∀ k : Fin 4, 0 ≤
          (![|getEdgeVert eo fwd 1 (ea 1 * i / (1 + ea 1 ⊓ ea 3) + 1) -
              b.neo 0| - 1,
            roundMix (ea 0) (ea 2) i (1 + ea 1 ⊓ ea 3),
            |getEdgeVert eo fwd 3
                (ea 3 - 1 - ea 3 * i / (1 + ea 1 ⊓ ea 3) + 1) -
              b.neo 2| - 1,
            b.nea 3] : I4) k := by
        intro k
        fin_cases k
        · show 0 ≤ |getEdgeVert eo fwd 1 (ea 1 * i / (1 + ea 1 ⊓ ea 3) + 1) -
              b.neo 0| - 1
          rw [hneo0, getEdgeVert_sub_abs]
          by_cases hi1 : i = 1
          · subst hi1
            rw [if_pos (by norm_num)]
            have h0' : 0 ≤ ea 1 * 1 / (1 + ea 1 ⊓ ea 3) :=
              Int.ediv_nonneg (by have := hea 1; omega) (by omega)
            rw [abs_of_nonneg (by omega)]
            omega
          · rw [if_neg (by omega)]
            have hmono := floor_band_mono (ea 1) (1 + ea 1 ⊓ ea 3) i
              (by omega) (by omega) (by omega) (by omega)
            rw [abs_of_nonneg (by omega)]
            omega
        · show 0 ≤ roundMix (ea 0) (ea 2) i (1 + ea 1 ⊓ ea 3)
          exact roundMix_nonneg _ _ _ _ (hea 0) (hea 2) (by omega) (by omega)
            (by omega)
        · show 0 ≤ |getEdgeVert eo fwd 3
              (ea 3 - 1 - ea 3 * i / (1 + ea 1 ⊓ ea 3) + 1) - b.neo 2| - 1
          rw [hneo2, getEdgeVert_sub_abs]
          by_cases hi1 : i = 1
          · subst hi1
            rw [if_pos (by norm_num)]
            have h0' : 0 ≤ ea 3 * 1 / (1 + ea 1 ⊓ ea 3) :=
              Int.ediv_nonneg (by have := hea 3; omega) (by omega)
            rw [abs_of_nonpos (by omega)]
            omega
          · rw [if_neg (by omega)]
            have hmono := floor_band_mono (ea 3) (1 + ea 1 ⊓ ea 3) i
              (by omega) (by omega) (by omega) (by omega)
            rw [abs_of_nonpos (by omega)]
            omega
        · exact hnea3
      constructor
      · intro e2 hg
        simp only [estep] at hg
        split at hg
        · rename_i e3 hin
          cases hg
          obtain ⟨vb, j, hj, hgj⟩ := foldl_estep_error _ _ _ _ hin
          split at hgj
          · cases hgj
          · cases hgj
            decide
        · rename_i vb hin
          split at hg
          · rename_i e3 hrec
            cases hg
            intro hc
            subst hc
            exact (ih _ _ _ _ _ hnn) hrec
          · cases hg
      · intro b' hg
        simp only [estep] at hg
        split at hg
        · cases hg
        · rename_i vb hin
          split at hg
          · cases hg
          · rename_i st2 hrec
            cases hg
            refine ⟨?_, ?_, ?_⟩
            · show getEdgeVert eo fwd 1 (ea 1 * i / (1 + ea 1 ⊓ ea 3) + 1) = _
              rw [if_neg (by omega)]
            · show getEdgeVert eo fwd 3
                (ea 3 - 1 - ea 3 * i / (1 + ea 1 ⊓ ea 3) + 1) = _
              rw [if_neg (by omega)]
            · show 0 ≤ roundMix (ea 0) (ea 2) i (1 + ea 1 ⊓ ea 3)
              exact roundMix_nonneg _ _ _ _ (hea 0) (hea 2) (by omega)
                (by omega) (by omega)

set_option maxHeartbeats 3000000 in
theorem partitionQuad_no_negAssert (fuel : ℕ) : ∀ (st : PState)
    (cv eo ea : I4) (fwd : B4), (∀ k : Fin 4, 0 ≤ ea k) →
    partitionQuad fuel st cv eo ea fwd ≠ .error .negAssert := by
  induction fuel with
  | zero =>
    intro st cv eo ea fwd hea h
    rw [partitionQuad] at h
    cases h
  | succ fuel ih =>
    intro st cv eo ea fwd hea
    rw [partitionQuad]
    simp only []
    rw [if_neg (not_not_intro hea)]
    split
    · split
      · exact fun h => Except.noConfusion h
      · exact fun h => Except.noConfusion h
    · split
      · rename_i e heq
        have hinv := band_fold_invariant fuel st cv eo ea fwd hea ih _ heq
        exact fun hc => by
          cases hc
          exact hinv.1 _ rfl rfl
      · rename_i b heq
        have hinv := band_fold_invariant fuel st cv eo ea fwd hea ih _ heq
        obtain ⟨h0f, h2f, h3f⟩ := hinv.2 b rfl
        refine ih _ _ _ _ _ ?_
        intro k
        fin_cases k
        · exact h0f
        · exact hea 2
        · exact h2f
        · exact h3f

theorem obtuseNs_nonneg (n : I3) (h2 : 1 ≤ n 2) (h10 : 2 ≤ n 0)
    (hd0 : 0 ≤ n 2 * n 2 + n 0 * n 0 - n 1 * n 1) : 0 ≤ obtuseNs n := by
  unfold obtuseNs
  refine le_min (by omega) ?_
  exact roundRat_nonneg _ _ hd0 (by omega)

theorem obtuseNs_one_le (n : I3) (h2 : 1 ≤ n 2) (h30 : 3 ≤ n 0)
    (hd0 : 0 ≤ n 2 * n 2 + n 0 * n 0 - n 1 * n 1)
    (hdge : n 0 ≤ n 2 * n 2 + n 0 * n 0 - n 1 * n 1) : 1 ≤ obtuseNs n := by
  unfold obtuseNs
  refine le_min (by omega) ?_
  unfold roundRat
  rw [if_pos hd0]
  rw [Int.le_ediv_iff_mul_le (by omega : (0 : ℤ) < 2 * (2 * n 0))]
  nlinarith

theorem obtuseNh_one_le (n : I3) (ns : ℤ) : 1 ≤ obtuseNh n ns := by
  unfold obtuseNh
  split
  · omega
  · exact le_max_left _ _

theorem obtuseNh_two_le (n : I3) (h2 : 2 ≤ n 2) :
    2 ≤ obtuseNh n 1 := by
  unfold obtuseNh
  rw [if_neg (by nlinarith : ¬ n 2 * n 2 - 1 * 1 < 0)]
  have hz : (3 : ℤ) ≤ n 2 * n 2 - 1 * 1 := by nlinarith
  have hk : 3 ≤ (n 2 * n 2 - 1 * 1).toNat := by omega
  have hs : 3 ≤ Nat.sqrt (4 * (n 2 * n 2 - 1 * 1).toNat) :=
    Nat.le_sqrt.mpr (by omega)
  have hr : 2 ≤ roundSqrt (n 2 * n 2 - 1 * 1).toNat := by
    unfold roundSqrt
    omega
  have hri : (2 : ℤ) ≤ (roundSqrt (n 2 * n 2 - 1 * 1).toNat : ℤ) := by
    exact_mod_cast hr
  exact le_trans hri (le_max_right _ _)

theorem d_ge_n0 (n : I3) (h2 : 1 ≤ n 2) (h12 : n 2 ≤ n 1) (h01 : n 1 ≤ n 0)
    (h0p : 1 ≤ n 0)
    (hd0 : 0 ≤ n 2 * n 2 + n 0 * n 0 - n 1 * n 1)
    (hd2 : 2 * (n 0 * n 2) * (n 0 * n 2) ≤
      (n 2 * n 2 + n 0 * n 0 - n 1 * n 1) *
        (n 2 * n 2 + n 0 * n 0 - n 1 * n 1)) :
    n 0 ≤ n 2 * n 2 + n 0 * n 0 - n 1 * n 1 := by
  by_contra hlt
  push_neg at hlt
  have ha : (n 2 * n 2 + n 0 * n 0 - n 1 * n 1) *
      (n 2 * n 2 + n 0 * n 0 - n 1 * n 1) ≤ (n 0 - 1) * (n 0 - 1) :=
    mul_self_le_mul_self hd0 (by omega)
  have hb : n 0 * n 0 ≤ (n 0 * n 2) * (n 0 * n 2) := by
    nlinarith [mul_nonneg (mul_nonneg (by omega : (0:ℤ) ≤ n 0)
      (by omega : (0:ℤ) ≤ n 0)) (by nlinarith : (0:ℤ) ≤ n 2 * n 2 - 1)]
  have hc : (n 0 - 1) * (n 0 - 1) = n 0 * n 0 - 2 * n 0 + 1 := by ring
  have hd : 1 ≤ n 0 * n 0 := by nlinarith
  linarith

set_option maxHeartbeats 2000000 in
theorem getCachedPartition_no_negAssert (fuel : ℕ) (n : I3)
    (h01 : n 1 ≤ n 0) (h12 : n 2 ≤ n 1) (h2 : 1 ≤ n 2) :
    getCachedPartition fuel n ≠ .error .negAssert := by
  intro h
  rw [getCachedPartition] at h
  simp only [] at h
  split at h
  · rename_i e hvb
    cases h
    obtain ⟨vb, i, hi, hgi⟩ := foldl_estep_error _ _ _ _ hvb
    split at hgi
    · cases hgi
    · cases hgi
  · rename_i vb hvb
    split at h
    · split at h <;> cases h
    · rename_i hn1
      have hn1' : 2 ≤ n 1 := by
        rcases (by omega : n 1 = 1 ∨ 2 ≤ n 1) with h' | h'
        · exact absurd h' hn1
        · exact h'
      split at h
      · split at h
        · rename_i e hq
          cases h
          refine (partitionQuad_no_negAssert fuel _ _ _ _ _ ?_) hq
          intro k
          fin_cases k <;> simp <;> omega
        · cases h
      · rename_i hac
        have hdfacts : 0 ≤ n 2 * n 2 + n 0 * n 0 - n 1 * n 1 ∧
            2 * (n 0 * n 2) * (n 0 * n 2) ≤
              (n 2 * n 2 + n 0 * n 0 - n 1 * n 1) *
                (n 2 * n 2 + n 0 * n 0 - n 1 * n 1) := by
          unfold acuteTest at hac
          simp only [Bool.or_eq_true, decide_eq_true_eq, not_or, not_lt] at hac
          exact hac
        have hNS0 : 0 ≤ obtuseNs n :=
          obtuseNs_nonneg n (by omega) (by omega) hdfacts.1
        have hNSle : obtuseNs n ≤ n 0 - 2 := min_le_left _ _
        have hNH1 : 1 ≤ obtuseNh n (obtuseNs n) := obtuseNh_one_le n _
        split at h
        · rename_i middleBary corner2 hg1 hg2
          split at h
          · rename_i e hq
            cases h
            refine (partitionQuad_no_negAssert fuel _ _ _ _ _ ?_) hq
            intro k
            fin_cases k <;> simp <;> omega
          · rename_i st hq
            split at h
            · cases h
            · rename_i hn2
              have hn2' : 2 ≤ n 2 := by
                rcases (by omega : n 2 = 1 ∨ 2 ≤ n 2) with h' | h'
                · exact absurd h' hn2
                · exact h'
              have h30 : 3 ≤ n 0 := by
                by_contra hlt
                push_neg at hlt
                have e0 : n 0 = 2 := by omega
                have e1 : n 1 = 2 := by omega
                have e2 : n 2 = 2 := by omega
                have := hdfacts.2
                rw [e0, e1, e2] at this
                norm_num at this
              have hdge := d_ge_n0 n (by omega) h12 h01 (by omega)
                hdfacts.1 hdfacts.2
              have hNS1 : 1 ≤ obtuseNs n :=
                obtuseNs_one_le n (by omega) h30 hdfacts.1 hdge
              split at h
              · rename_i hns1
                have hNH2 : 2 ≤ obtuseNh n (obtuseNs n) := by
                  rw [hns1]
                  exact obtuseNh_two_le n hn2'
                split at h
                · rename_i e hq2
                  cases h
                  refine (partitionQuad_no_negAssert fuel _ _ _ _ _ ?_) hq2
                  intro k
                  fin_cases k <;> simp <;> omega
                · cases h
              · rename_i hns1
                have hNS2 : 2 ≤ obtuseNs n := by
                  rcases (by omega : obtuseNs n = 1 ∨ 2 ≤ obtuseNs n) with
                    h' | h'
                  · exact absurd h' hns1
                  · exact h'
                split at h
                · rename_i e hq2
                  cases h
                  refine (partitionQuad_no_negAssert fuel _ _ _ _ _ ?_) hq2
                  intro k
                  fin_cases k <;> simp <;> omega
                · cases h
        · simp at h

/-- C7: for every divisions triple with all components at least 1,
`GetPartition` never trips the "negative divisions!" assertion: each
recursive `PartitionQuad` call receives an `edgeAdded` vector with all four
components nonnegative (the fuel model then makes `PartitionQuad` reject a
negative vector as the distinguished error `negAssert`, which is proved
unreachable for every fuel value). -/
theorem C7_getPartition_no_negAssert (fuel : ℕ) (d : I3)
    (hd : ∀ i, 1 ≤ d i) :
    getPartition fuel d ≠ .error .negAssert := by
  have h0 := hd 0
  have h1 := hd 1
  have h2 := hd 2
  intro h
  rw [getPartition] at h
  simp only [] at h
  split at h
  · rename_i e hq
    cases h
    revert hq
    split
    · rename_i hc1
      split
      · rename_i hc2
        split
        · rename_i hc3
          refine getCachedPartition_no_negAssert fuel _ ?_ ?_ ?_ <;>
            simp only [swap3, Function.update] at hc1 hc2 hc3 ⊢ <;>
            norm_num at hc1 hc2 hc3 ⊢ <;> omega
        · rename_i hc3
          refine getCachedPartition_no_negAssert fuel _ ?_ ?_ ?_ <;>
            simp only [swap3, Function.update] at hc1 hc2 hc3 ⊢ <;>
            norm_num at hc1 hc2 hc3 ⊢ <;> omega
      · rename_i hc2
        refine getCachedPartition_no_negAssert fuel _ ?_ ?_ ?_ <;>
          simp only [swap3, Function.update] at hc1 hc2 ⊢ <;>
          norm_num at hc1 hc2 ⊢ <;> omega
    · rename_i hc1
      split
      · rename_i hc2
        split
        · rename_i hc3
          refine getCachedPartition_no_negAssert fuel _ ?_ ?_ ?_ <;>
            simp only [swap3, Function.update] at hc1 hc2 hc3 ⊢ <;>
            norm_num at hc1 hc2 hc3 ⊢ <;> omega
        · rename_i hc3
          refine getCachedPartition_no_negAssert fuel _ ?_ ?_ ?_ <;>
            simp only [swap3, Function.update] at hc1 hc2 hc3 ⊢ <;>
            norm_num at hc1 hc2 hc3 ⊢ <;> omega
      · rename_i hc2
        refine getCachedPartition_no_negAssert fuel _ ?_ ?_ ?_ <;>
          simp only [swap3, Function.update] at hc1 hc2 ⊢ <;>
          norm_num at hc1 hc2 ⊢ <;> omega
  · cases h

/-- C7 witness: the theorem instantiated at the divisions triple (3,1,1). -/
theorem C7_witness : (∀ i : Fin 3, 1 ≤ (![3, 1, 1] : I3) i) ∧
    getPartition 2 ![3, 1, 1] ≠ .error .negAssert :=
  ⟨by decide, C7_getPartition_no_negAssert 2 ![3, 1, 1] (by decide)⟩

theorem fan_step_out (m : MMesh) (hv : validMesh m) (htri : triConsistent m)
    (w cur : ℤ) (hcur : OutV m w cur) :
    OutV m w (nextHalfedge (getZ m.halfedge default cur).pairedHalfedge) := by
  obtain ⟨hc0, hc1, hcs⟩ := hcur
  have h3 := hv.1
  have hval := hv.2.1 cur.toNat (by omega)
  have hgetz : getZ m.halfedge default cur = m.halfedge.getD cur.toNat
      default := by
    unfold getZ
    rw [if_pos hc0]
  obtain ⟨-, -, -, ⟨hp0, hp1⟩, -, -, -, hps, hpe⟩ := hval
  rw [hgetz]
  set pc := (m.halfedge.getD cur.toNat default).pairedHalfedge with hpc
  have hnext : nextHalfedge pc = 3 * (pc / 3) + (pc % 3 + 1) % 3 := rfl
  refine ⟨by rw [hnext]; omega, by rw [hnext]; omega, ?_⟩
  have htr := htri pc.toNat (by omega)
  have hz2 : getZ m.halfedge default (nextHalfedge pc) =
      m.halfedge.getD (nextHalfedge pc).toNat default := by
    unfold getZ
    rw [if_pos (by rw [hnext]; omega)]
  rw [hz2]
  have hcast : ((pc.toNat : ℕ) : ℤ) = pc := by omega
  rw [hcast] at htr
  rw [← htr, hpe, ← hgetz, hcs]

theorem fanList_out (m : MMesh) (hv : validMesh m) (htri : triConsistent m)
    (w start : ℤ) : ∀ (fuel : ℕ) (cur : ℤ) (acc fan : List ℤ),
    fanList m.halfedge start fuel cur acc = .ok fan →
    (∀ x ∈ acc, OutV m w x) → OutV m w cur → ∀ x ∈ fan, OutV m w x := by
  intro fuel
  induction fuel with
  | zero =>
    intro cur acc fan h
    cases h
  | succ fuel ih =>
    intro cur acc fan h hacc hcur
    rw [fanList] at h
    split at h
    · cases h
      intro x hx
      rcases List.mem_append.mp hx with hx | hx
      · exact hacc x hx
      · rcases List.mem_singleton.mp hx with rfl
        exact hcur
    · exact ih _ _ _ h
        (fun x hx => by
          rcases List.mem_append.mp hx with hx | hx
          · exact hacc x hx
          · rcases List.mem_singleton.mp hx with rfl
            exact hcur)
        (fan_step_out m hv htri w cur hcur)

theorem detectSharp_components (m : MMesh) (nI : ℤ) (fan : List ℤ)
    (sharp0 : ℤ × ℤ) (ln0 : R3) :
    ((detectSharp m nI fan sharp0 ln0).1.1 = -1 ∨
      (detectSharp m nI fan sharp0 ln0).1.1 = sharp0.1 ∨
      (detectSharp m nI fan sharp0 ln0).1.1 ∈ fan) ∧
    ((detectSharp m nI fan sharp0 ln0).1.2 = sharp0.2 ∨
      (detectSharp m nI fan sharp0 ln0).1.2 ∈ fan) := by
  unfold detectSharp
  have hgen : ∀ (l : List (ℤ × ℤ)), (∀ hp ∈ l, hp.1 ∈ fan) →
      ∀ (acc : (ℤ × ℤ) × ℕ × R3),
      (acc.1.1 = -1 ∨ acc.1.1 = sharp0.1 ∨ acc.1.1 ∈ fan) →
      (acc.1.2 = sharp0.2 ∨ acc.1.2 ∈ fan) →
      ∀ r : (ℤ × ℤ) × ℕ × R3,
      r = l.foldl (fun (acc : (ℤ × ℤ) × ℕ × R3) hp =>
        let normal := getNormal m hp.1 nI
        let nextNormal := getNormal m hp.2 nI
        let diff : R3 := fun i => nextNormal i - normal i
        let acc' :=
          if dot3 diff diff > kTolerance * kTolerance then
            if acc.2.1 > 1 then ((-1, acc.1.2), acc.2.1, acc.2.2)
            else if acc.2.1 = 0 then ((hp.1, acc.1.2), 1, acc.2.2)
            else ((acc.1.1, hp.1), 2, acc.2.2)
          else acc
        (acc'.1, acc'.2.1, normal)) acc →
      ((r.1.1 = -1 ∨ r.1.1 = sharp0.1 ∨ r.1.1 ∈ fan) ∧
       (r.1.2 = sharp0.2 ∨ r.1.2 ∈ fan)) := by
    intro l
    induction l with
    | nil =>
      intro _ acc h1 h2 r hr
      cases hr
      exact ⟨h1, h2⟩
    | cons hp l ih =>
      intro hmem acc h1 h2 r hr
      rw [List.foldl_cons] at hr
      refine ih (fun x hx => hmem x (by simp [hx])) _ ?_ ?_ r hr
      · by_cases hc : dot3 (fun i => getNormal m hp.2 nI i -
            getNormal m hp.1 nI i) (fun i => getNormal m hp.2 nI i -
            getNormal m hp.1 nI i) > kTolerance * kTolerance
        · simp only [if_pos hc]
          split
          · left
            rfl
          · split
            · right
              right
              exact hmem hp (by simp)
            · exact h1
        · simp only [if_neg hc]
          exact h1
      · by_cases hc : dot3 (fun i => getNormal m hp.2 nI i -
            getNormal m hp.1 nI i) (fun i => getNormal m hp.2 nI i -
            getNormal m hp.1 nI i) > kTolerance * kTolerance
        · simp only [if_pos hc]
          split
          · exact h2
          · split
            · exact h2
            · right
              exact hmem hp (by simp)
        · simp only [if_neg hc]
          exact h2
  have hz : ∀ hp ∈ fan.zip (fan.rotateLeft 1), hp.1 ∈ fan := by
    intro hp hhp
    exact (List.of_mem_zip (by exact hhp)).1
  exact hgen _ hz (sharp0, 0, ln0) (Or.inr (Or.inl rfl)) (Or.inl rfl) _ rfl

theorem detectVertSharp_wf (m : MMesh) (nI : ℤ) (fuel : ℕ)
    (vs : List (ℤ × ℤ)) (vn : List R3)
    (hv : validMesh m) (htri : triConsistent m)
    (hdet : detectVertSharp m nI fuel = .ok (vs, vn)) :
    vs.length = m.numVert ∧ ∀ w : ℕ, w < m.numVert →
      ((getZ vs (-1, -1) ((w : ℕ) : ℤ)).1 ≠ -1 →
        OutV m ((w : ℕ) : ℤ) (getZ vs (-1, -1) ((w : ℕ) : ℤ)).1) ∧
      ((getZ vs (-1, -1) ((w : ℕ) : ℤ)).2 ≠ -1 →
        OutV m ((w : ℕ) : ℤ) (getZ vs (-1, -1) ((w : ℕ) : ℤ)).2) := by
  rw [detectVertSharp] at hdet
  have hinv := foldl_except_inv
    (fun (p : List (ℤ × ℤ) × List R3) =>
      p.1.length = m.numVert ∧ ∀ w : ℕ, w < m.numVert →
        ((getZ p.1 (-1, -1) ((w : ℕ) : ℤ)).1 ≠ -1 →
          OutV m ((w : ℕ) : ℤ) (getZ p.1 (-1, -1) ((w : ℕ) : ℤ)).1) ∧
        ((getZ p.1 (-1, -1) ((w : ℕ) : ℤ)).2 ≠ -1 →
          OutV m ((w : ℕ) : ℤ) (getZ p.1 (-1, -1) ((w : ℕ) : ℤ)).2))
    _ _ _ _ hdet ?_ ?_
  · exact ⟨hinv.1, hinv.2⟩
  · intro p e p' he hstep hP
    simp only [detectVertStep] at hstep
    split at hstep
    · cases hstep
      exact hP
    · rename_i hnl
      split at hstep
      · cases hstep
      · rename_i fan hfan
        cases hstep
        have he' : e < m.halfedge.length := List.mem_range.mp he
        set vert := (getZ m.halfedge default ((e : ℕ) : ℤ)).startVert
          with hvert
        have hev : OutV m vert ((e : ℕ) : ℤ) := by
          refine ⟨by positivity, by exact_mod_cast he', ?_⟩
          rw [hvert]
        have hfanout := fanList_out m hv htri vert _ _ _ _ _ hfan
          (fun x hx => absurd hx (List.not_mem_nil x)) hev
        have hcomp := detectSharp_components m nI fan
          (getZ p.1 (-1, -1) vert) (getZ p.2 (fun _ => 0) vert)
        constructor
        · rw [setZ_len]
          exact hP.1
        · intro w hw
          by_cases hwv : vert = ((w : ℕ) : ℤ)
          · have hrange : 0 ≤ vert ∧ vert.toNat < p.1.length := by
              constructor
              · omega
              · rw [hP.1]
                omega
            rw [← hwv, getZ_setZ_self _ _ _ _ hrange.1 hrange.2]
            constructor
            · intro hne
              rcases hcomp.1 with h | h | h
              · exact absurd h hne
              · rw [h]
                have hPw := (hP.2 w hw).1
                rw [← hwv] at hPw
                exact hPw (by rw [← h]; exact hne)
              · exact hfanout _ h
            · intro hne
              rcases hcomp.2 with h | h
              · rw [h]
                have hPw := (hP.2 w hw).2
                rw [← hwv] at hPw
                exact hPw (by rw [← h]; exact hne)
              · exact hfanout _ h
          · rw [getZ_setZ_ne _ _ _ _ _ hwv]
            exact hP.2 w hw
  · constructor
    · exact List.length_replicate _ _
    · intro w hw
      have : getZ (List.replicate m.numVert ((-1, -1) : ℤ × ℤ)) (-1, -1)
          ((w : ℕ) : ℤ) = (-1, -1) := by
        rw [getZ_replicate]
        split <;> rfl
      rw [this]
      exact ⟨fun h => absurd rfl h, fun h => absurd rfl h⟩

theorem getZ_map_range {α : Type} (n : ℕ) (f : ℕ → α) (d : α) (h : ℕ)
    (hh : h < n) : getZ ((List.range n).map f) d ((h : ℕ) : ℤ) = f h := by
  rw [getZ_natCast]
  simp [List.getD_eq_getElem?_getD, List.getElem?_map, List.getElem?_range hh]

theorem fanfold_preserve (l : List ℤ) (first second : ℤ) (h : ℤ)
    (hne : ∀ x ∈ l, x ≠ h) : ∀ (t : List R4),
    getZ (l.foldl (fun t current => if current ≠ first ∧ current ≠ second
      then setZ t current (fun _ => 0) else t) t) default h =
    getZ t default h := by
  induction l with
  | nil => intro t; rfl
  | cons x xs ih =>
    intro t
    rw [List.foldl_cons, ih (fun y hy => hne y (by simp [hy]))]
    split
    · exact getZ_setZ_ne _ _ _ _ _ (hne x (by simp))
    · rfl

theorem fanfold_len (l : List ℤ) (first second : ℤ) (t : List R4) :
    (l.foldl (fun t current => if current ≠ first ∧ current ≠ second
      then setZ t current (fun _ => 0) else t) t).length = t.length := by
  refine foldl_length _ _ _ (fun a b => ?_)
  split
  · exact setZ_len _ _ _
  · rfl

set_option maxHeartbeats 2000000 in
/-- C9: in normal-driven `CreateTangents(normalIdx)`, at a vertex `v` whose
two recorded sharp half-edges carry colinear property normals (zero-length
cross product, so the normalized tangent is non-finite), the crease
reassignment is skipped entirely: every half-edge outgoing from `v` keeps
its smooth-Bezier tangent. (`hno3` restricts to runs in which no vertex ends
detection in the invalidated `(-1, h)` slot state, whose uniform-sharpen
walk starts at half-edge `-1` and is undefined behaviour in the C++.) -/
theorem C9_colinear_crease_skipped (fuel : ℕ) (m : MMesh) (normalIdx : ℤ) (vs : List (ℤ × ℤ))
    (vn : List R3) (out : MMesh) (v : ℕ)
    (hv : validMesh m) (htri : triConsistent m)
    (hdet : detectVertSharp m normalIdx fuel = .ok (vs, vn))
    (hok : createTangentsNormal fuel m normalIdx = .ok out)
    (hno3 : ∀ w : ℕ, w < m.numVert → (getZ vs (-1, -1) ((w : ℕ) : ℤ)).1 = -1 →
      (getZ vs (-1, -1) ((w : ℕ) : ℤ)).2 = -1)
    (hvlt : v < m.numVert)
    (hfirst : (getZ vs (-1, -1) ((v : ℕ) : ℤ)).1 ≠ -1)
    (hsecond : (getZ vs (-1, -1) ((v : ℕ) : ℤ)).2 ≠ -1)
    (hcol : length3 (cross3
      (getNormal m (getZ vs (-1, -1) ((v : ℕ) : ℤ)).1 normalIdx)
      (getNormal m (getZ vs (-1, -1) ((v : ℕ) : ℤ)).2 normalIdx)) = 0) :
    ∀ h : ℕ, h < m.halfedge.length →
      (getZ m.halfedge default ((h : ℕ) : ℤ)).startVert = ((v : ℕ) : ℤ) →
      getZ out.halfedgeTangent default ((h : ℕ) : ℤ) =
        smoothBezierTangent m vn ((h : ℕ) : ℤ) := by
  have hwf := detectVertSharp_wf m normalIdx fuel vs vn hv htri hdet
  rw [createTangentsNormal] at hok
  simp only [] at hok
  rw [hdet] at hok
  simp only [] at hok
  split at hok
  · cases hok
  · rename_i tangent hfold
    cases hok
    have hinv := foldl_except_inv
      (fun (t : List R4) => t.length = m.halfedge.length ∧
        ∀ h : ℕ, h < m.halfedge.length →
          (getZ m.halfedge default ((h : ℕ) : ℤ)).startVert = ((v : ℕ) : ℤ) →
          getZ t default ((h : ℕ) : ℤ) =
            getZ ((List.range m.halfedge.length).map
              (fun (h : ℕ) => smoothBezierTangent m vn ((h : ℕ) : ℤ)))
              default ((h : ℕ) : ℤ))
      _ _ _ _ hfold ?_ ?_
    · intro h hlen hsv
      rw [show ({ m with halfedgeTangent := tangent } : MMesh).halfedgeTangent
        = tangent from rfl]
      rw [hinv.2 h hlen hsv, getZ_map_range _ _ _ _ hlen]
    · intro t w t' hw hstep hPt
      simp only [estep] at hstep
      simp only [tangentVertStep] at hstep
      split at hstep
      · cases hstep
        exact hPt
      · rename_i hsec
        split at hstep
        · rename_i hfir
          split at hstep
          · cases hstep
            exact hPt
          · rename_i hcross
            have hwv : w ≠ v := by
              intro hc
              subst hc
              exact hcross hcol
            have hwlt : w < m.numVert := List.mem_range.mp hw
            have hof := (hwf.2 w hwlt).1 (by
              intro hc
              exact hsec (hno3 w hwlt hc))
            have hos := (hwf.2 w hwlt).2 (by
              intro hc
              exact hsec hc)
            split at hstep
            · cases hstep
            · rename_i fan hfan
              cases hstep
              have hfanout := fanList_out m hv htri ((w : ℕ) : ℤ) _ _ _ _ _
                hfan (fun x hx => absurd hx (List.not_mem_nil x)) hof
              constructor
              · rw [fanfold_len, setZ_len, setZ_len]
                exact hPt.1
              · intro h hlen hsv
                have hxh : ∀ x : ℤ, OutV m ((w : ℕ) : ℤ) x → x ≠ ((h : ℕ) : ℤ) := by
                  intro x hx hc
                  subst hc
                  rw [hx.2.2] at hsv
                  exact hwv (by exact_mod_cast hsv)
                rw [fanfold_preserve _ _ _ _ (fun x hx => hxh x (hfanout x hx))]
                rw [getZ_setZ_ne _ _ _ _ _ (hxh _ hos)]
                rw [getZ_setZ_ne _ _ _ _ _ (hxh _ hof)]
                exact hPt.2 h hlen hsv
        · rename_i hfir
          exact absurd (hno3 w (List.mem_range.mp hw)
            (by push_neg at hfir; exact hfir)) hsec
    · constructor
      · rw [List.length_map, List.length_range]
      · intro h hlen hsv
        rfl

theorem pillow_n00 : getNormal pillow 0 0 0 = 1 := rfl
theorem pillow_n01 : getNormal pillow 0 0 1 = 0 := rfl
theorem pillow_n02 : getNormal pillow 0 0 2 = 0 := rfl
theorem pillow_n30 : getNormal pillow 3 0 0 = 2 := rfl
theorem pillow_n31 : getNormal pillow 3 0 1 = 0 := rfl
theorem pillow_n32 : getNormal pillow 3 0 2 = 0 := rfl

theorem pillow_n10 : getNormal pillow 1 0 0 = 0 := rfl
theorem pillow_n11 : getNormal pillow 1 0 1 = 1 := rfl
theorem pillow_n12 : getNormal pillow 1 0 2 = 0 := rfl
theorem pillow_n50 : getNormal pillow 5 0 0 = 0 := rfl
theorem pillow_n51 : getNormal pillow 5 0 1 = 2 := rfl
theorem pillow_n52 : getNormal pillow 5 0 2 = 0 := rfl
theorem pillow_n20 : getNormal pillow 2 0 0 = 0 := rfl
theorem pillow_n21 : getNormal pillow 2 0 1 = 0 := rfl
theorem pillow_n22 : getNormal pillow 2 0 2 = 1 := rfl
theorem pillow_n40 : getNormal pillow 4 0 0 = 0 := rfl
theorem pillow_n41 : getNormal pillow 4 0 1 = 0 := rfl
theorem pillow_n42 : getNormal pillow 4 0 2 = 2 := rfl

theorem pillow_d03 :
    dot3 (fun i => getNormal pillow 3 0 i - getNormal pillow 0 0 i)
      (fun i => getNormal pillow 3 0 i - getNormal pillow 0 0 i) >
      kTolerance * kTolerance := by
  simp only [dot3, pillow_n00, pillow_n01, pillow_n02, pillow_n30,
    pillow_n31, pillow_n32, kTolerance]
  norm_num

theorem pillow_d30 :
    dot3 (fun i => getNormal pillow 0 0 i - getNormal pillow 3 0 i)
      (fun i => getNormal pillow 0 0 i - getNormal pillow 3 0 i) >
      kTolerance * kTolerance := by
  simp only [dot3, pillow_n00, pillow_n01, pillow_n02, pillow_n30,
    pillow_n31, pillow_n32, kTolerance]
  norm_num

theorem pillow_d15 :
    dot3 (fun i => getNormal pillow 5 0 i - getNormal pillow 1 0 i)
      (fun i => getNormal pillow 5 0 i - getNormal pillow 1 0 i) >
      kTolerance * kTolerance := by
  simp only [dot3, pillow_n10, pillow_n11, pillow_n12, pillow_n50,
    pillow_n51, pillow_n52, kTolerance]
  norm_num

theorem pillow_d51 :
    dot3 (fun i => getNormal pillow 1 0 i - getNormal pillow 5 0 i)
      (fun i => getNormal pillow 1 0 i - getNormal pillow 5 0 i) >
      kTolerance * kTolerance := by
  simp only [dot3, pillow_n10, pillow_n11, pillow_n12, pillow_n50,
    pillow_n51, pillow_n52, kTolerance]
  norm_num

theorem pillow_d24 :
    dot3 (fun i => getNormal pillow 4 0 i - getNormal pillow 2 0 i)
      (fun i => getNormal pillow 4 0 i - getNormal pillow 2 0 i) >
      kTolerance * kTolerance := by
  simp only [dot3, pillow_n20, pillow_n21, pillow_n22, pillow_n40,
    pillow_n41, pillow_n42, kTolerance]
  norm_num

theorem pillow_d42 :
    dot3 (fun i => getNormal pillow 2 0 i - getNormal pillow 4 0 i)
      (fun i => getNormal pillow 2 0 i - getNormal pillow 4 0 i) >
      kTolerance * kTolerance := by
  simp only [dot3, pillow_n20, pillow_n21, pillow_n22, pillow_n40,
    pillow_n41, pillow_n42, kTolerance]
  norm_num

theorem detectSharp_pair (m : MMesh) (nI a b : ℤ)
    (h1 : dot3 (fun i => getNormal m b nI i - getNormal m a nI i)
      (fun i => getNormal m b nI i - getNormal m a nI i) >
      kTolerance * kTolerance)
    (h2 : dot3 (fun i => getNormal m a nI i - getNormal m b nI i)
      (fun i => getNormal m a nI i - getNormal m b nI i) >
      kTolerance * kTolerance)
    (s0 : ℤ × ℤ) (ln0 : R3) :
    detectSharp m nI [a, b] s0 ln0 = ((a, b), getNormal m b nI) := by
  rw [detectSharp]
  rw [show ([a, b].zip ([a, b].rotateLeft 1)) = [(a, b), (b, a)] from rfl]
  simp only [List.foldl_cons, List.foldl_nil]
  simp only [if_pos h1, if_pos h2]
  rfl

theorem pillow_step0 :
    detectVertStep pillow 0 7
      ([(-1, -1), (-1, -1), (-1, -1)],
       [(fun _ => 0 : R3), (fun _ => 0), (fun _ => 0)]) 0 =
    .ok ([(0, 3), (-1, -1), (-1, -1)],
         [getNormal pillow 3 0, (fun _ => 0), (fun _ => 0)]) := by
  simp only [detectVertStep]
  rw [show fanList pillow.halfedge ((0 : ℕ) : ℤ) 7 ((0 : ℕ) : ℤ) [] =
    Except.ok [(0 : ℤ), 3] from rfl]
  simp only []
  rw [detectSharp_pair pillow 0 0 3 pillow_d03 pillow_d30]
  rfl

theorem pillow_step1 :
    detectVertStep pillow 0 7
      ([(0, 3), (-1, -1), (-1, -1)],
       [getNormal pillow 3 0, (fun _ => 0 : R3), (fun _ => 0)]) 1 =
    .ok ([(0, 3), (1, 5), (-1, -1)],
         [getNormal pillow 3 0, getNormal pillow 5 0, (fun _ => 0)]) := by
  simp only [detectVertStep]
  rw [show fanList pillow.halfedge ((1 : ℕ) : ℤ) 7 ((1 : ℕ) : ℤ) [] =
    Except.ok [(1 : ℤ), 5] from rfl]
  simp only []
  rw [detectSharp_pair pillow 0 1 5 pillow_d15 pillow_d51]
  rfl

theorem pillow_step2 :
    detectVertStep pillow 0 7
      ([(0, 3), (1, 5), (-1, -1)],
       [getNormal pillow 3 0, getNormal pillow 5 0, (fun _ => 0 : R3)]) 2 =
    .ok ([(0, 3), (1, 5), (2, 4)],
         [getNormal pillow 3 0, getNormal pillow 5 0, getNormal pillow 4 0]) := by
  simp only [detectVertStep]
  rw [show fanList pillow.halfedge ((2 : ℕ) : ℤ) 7 ((2 : ℕ) : ℤ) [] =
    Except.ok [(2 : ℤ), 4] from rfl]
  simp only []
  rw [detectSharp_pair pillow 0 2 4 pillow_d24 pillow_d42]
  rfl

theorem pillow_step3 :
    detectVertStep pillow 0 7
      ([(0, 3), (1, 5), (2, 4)],
       [getNormal pillow 3 0, getNormal pillow 5 0, getNormal pillow 4 0]) 3 =
    .ok ([(0, 3), (1, 5), (2, 4)],
         [getNormal pillow 3 0, getNormal pillow 5 0, getNormal pillow 4 0]) := rfl

theorem pillow_step4 :
    detectVertStep pillow 0 7
      ([(0, 3), (1, 5), (2, 4)],
       [getNormal pillow 3 0, getNormal pillow 5 0, getNormal pillow 4 0]) 4 =
    .ok ([(0, 3), (1, 5), (2, 4)],
         [getNormal pillow 3 0, getNormal pillow 5 0, getNormal pillow 4 0]) := rfl

theorem pillow_step5 :
    detectVertStep pillow 0 7
      ([(0, 3), (1, 5), (2, 4)],
       [getNormal pillow 3 0, getNormal pillow 5 0, getNormal pillow 4 0]) 5 =
    .ok ([(0, 3), (1, 5), (2, 4)],
         [getNormal pillow 3 0, getNormal pillow 5 0, getNormal pillow 4 0]) := rfl

theorem pillow_detect : detectVertSharp pillow 0 7 = .ok (pillowVS, pillowVN) := by
  rw [detectVertSharp]
  rw [show List.range pillow.halfedge.length = [0, 1, 2, 3, 4, 5] from rfl]
  rw [show (List.replicate pillow.numVert ((-1, -1) : ℤ × ℤ)) =
    [(-1, -1), (-1, -1), (-1, -1)] from rfl]
  rw [show (List.replicate pillow.numVert ((fun _ => 0) : R3)) =
    [(fun _ => 0 : R3), (fun _ => 0), (fun _ => 0)] from rfl]
  simp only [List.foldl_cons, List.foldl_nil, estep, pillow_step0,
    pillow_step1, pillow_step2, pillow_step3, pillow_step4, pillow_step5]
  rfl

theorem pillow_col0 :
    length3 (cross3 (getNormal pillow 0 0) (getNormal pillow 3 0)) = 0 := by
  have e0 : cross3 (getNormal pillow 0 0) (getNormal pillow 3 0) 0 =
      getNormal pillow 0 0 1 * getNormal pillow 3 0 2 -
      getNormal pillow 0 0 2 * getNormal pillow 3 0 1 := rfl
  have e1 : cross3 (getNormal pillow 0 0) (getNormal pillow 3 0) 1 =
      getNormal pillow 0 0 2 * getNormal pillow 3 0 0 -
      getNormal pillow 0 0 0 * getNormal pillow 3 0 2 := rfl
  have e2 : cross3 (getNormal pillow 0 0) (getNormal pillow 3 0) 2 =
      getNormal pillow 0 0 0 * getNormal pillow 3 0 1 -
      getNormal pillow 0 0 1 * getNormal pillow 3 0 0 := rfl
  simp only [length3, dot3, e0, e1, e2, pillow_n00, pillow_n01, pillow_n02,
    pillow_n30, pillow_n31, pillow_n32]
  norm_num [Real.sqrt_zero]

theorem pillow_col1 :
    length3 (cross3 (getNormal pillow 1 0) (getNormal pillow 5 0)) = 0 := by
  have e0 : cross3 (getNormal pillow 1 0) (getNormal pillow 5 0) 0 =
      getNormal pillow 1 0 1 * getNormal pillow 5 0 2 -
      getNormal pillow 1 0 2 * getNormal pillow 5 0 1 := rfl
  have e1 : cross3 (getNormal pillow 1 0) (getNormal pillow 5 0) 1 =
      getNormal pillow 1 0 2 * getNormal pillow 5 0 0 -
      getNormal pillow 1 0 0 * getNormal pillow 5 0 2 := rfl
  have e2 : cross3 (getNormal pillow 1 0) (getNormal pillow 5 0) 2 =
      getNormal pillow 1 0 0 * getNormal pillow 5 0 1 -
      getNormal pillow 1 0 1 * getNormal pillow 5 0 0 := rfl
  simp only [length3, dot3, e0, e1, e2, pillow_n10, pillow_n11, pillow_n12,
    pillow_n50, pillow_n51, pillow_n52]
  norm_num [Real.sqrt_zero]

theorem pillow_col2 :
    length3 (cross3 (getNormal pillow 2 0) (getNormal pillow 4 0)) = 0 := by
  have e0 : cross3 (getNormal pillow 2 0) (getNormal pillow 4 0) 0 =
      getNormal pillow 2 0 1 * getNormal pillow 4 0 2 -
      getNormal pillow 2 0 2 * getNormal pillow 4 0 1 := rfl
  have e1 : cross3 (getNormal pillow 2 0) (getNormal pillow 4 0) 1 =
      getNormal pillow 2 0 2 * getNormal pillow 4 0 0 -
      getNormal pillow 2 0 0 * getNormal pillow 4 0 2 := rfl
  have e2 : cross3 (getNormal pillow 2 0) (getNormal pillow 4 0) 2 =
      getNormal pillow 2 0 0 * getNormal pillow 4 0 1 -
      getNormal pillow 2 0 1 * getNormal pillow 4 0 0 := rfl
  simp only [length3, dot3, e0, e1, e2, pillow_n20, pillow_n21, pillow_n22,
    pillow_n40, pillow_n41, pillow_n42]
  norm_num [Real.sqrt_zero]

theorem pillow_tstep0 (t : List R4) :
    tangentVertStep 7 pillow 0 pillowVS t 0 = .ok t := by
  simp only [tangentVertStep,
    show getZ pillowVS (-1, -1) ((0 : ℕ) : ℤ) = ((0 : ℤ), (3 : ℤ)) from rfl,
    if_neg (show ¬((3 : ℤ) = -1) from by decide),
    if_pos (show ((0 : ℤ) ≠ -1) from by decide),
    if_pos pillow_col0]

theorem pillow_tstep1 (t : List R4) :
    tangentVertStep 7 pillow 0 pillowVS t 1 = .ok t := by
  simp only [tangentVertStep,
    show getZ pillowVS (-1, -1) ((1 : ℕ) : ℤ) = ((1 : ℤ), (5 : ℤ)) from rfl,
    if_neg (show ¬((5 : ℤ) = -1) from by decide),
    if_pos (show ((1 : ℤ) ≠ -1) from by decide),
    if_pos pillow_col1]

theorem pillow_tstep2 (t : List R4) :
    tangentVertStep 7 pillow 0 pillowVS t 2 = .ok t := by
  simp only [tangentVertStep,
    show getZ pillowVS (-1, -1) ((2 : ℕ) : ℤ) = ((2 : ℤ), (4 : ℤ)) from rfl,
    if_neg (show ¬((4 : ℤ) = -1) from by decide),
    if_pos (show ((2 : ℤ) ≠ -1) from by decide),
    if_pos pillow_col2]

theorem pillow_tangents : createTangentsNormal 7 pillow 0 = .ok pillowOut := by
  simp only [createTangentsNormal]
  rw [pillow_detect]
  simp only []
  rw [show List.range pillow.numVert = [0, 1, 2] from rfl]
  simp only [List.foldl_cons, List.foldl_nil, estep, pillow_tstep0,
    pillow_tstep1, pillow_tstep2]
  rfl

theorem C9_witness :
    validMesh pillow ∧ triConsistent pillow ∧
    detectVertSharp pillow 0 7 = .ok (pillowVS, pillowVN) ∧
    createTangentsNormal 7 pillow 0 = .ok pillowOut ∧
    (getZ pillowVS (-1, -1) ((0 : ℕ) : ℤ)).1 ≠ -1 ∧
    (getZ pillowVS (-1, -1) ((0 : ℕ) : ℤ)).2 ≠ -1 ∧
    length3 (cross3
      (getNormal pillow (getZ pillowVS (-1, -1) ((0 : ℕ) : ℤ)).1 0)
      (getNormal pillow (getZ pillowVS (-1, -1) ((0 : ℕ) : ℤ)).2 0)) = 0 ∧
    getZ pillowOut.halfedgeTangent default ((0 : ℕ) : ℤ) =
      smoothBezierTangent pillow pillowVN ((0 : ℕ) : ℤ) := by
  refine ⟨by decide, by decide, pillow_detect, pillow_tangents, by decide,
    by decide, pillow_col0, ?_⟩
  exact C9_colinear_crease_skipped 7 pillow 0 pillowVS pillowVN pillowOut 0
    (by decide) (by decide) pillow_detect pillow_tangents (by decide)
    (by decide) (by decide) (by decide) pillow_col0 0 (by decide) (by decide)
